import Mathlib

/-!
Verification of the rename/rollback transaction engine of r3namex.py.

The program is shallowly embedded: Python strings become lists of
characters, the file system becomes an association list from path strings
to opaque contents, and the global state (file system, wall clock used for
timestamp strings, the persisted `backup_mapping.json` ledger) becomes the
structure `Sys`.  Every operation of the source (`DuplicateHandler`,
`rename_files`, `rollback`) is translated into a total executable Lean
function; operations that can raise in Python return `Except` carrying the
state at the moment of the raise.

Modelling decisions, stated once here:
* `os.path.abspath` is modelled as the identity: the transaction works in
  a single fixed directory and all paths it builds are already absolute
  and normalized.
* `datetime.now()` is modelled by a counter (`Sys.clock`) rendered in
  decimal; the source's `%Y%m%d_%H%M%S_%f` strings are likewise distinct
  digit-and-underscore strings increasing over the run.
* `shutil.move` inside one file system is `os.rename`; directories are
  implicit (`os.makedirs` has no observable effect on the file map), and
  POSIX overwrite semantics of `os.rename` onto an existing path is used.
* Python's `sorted`/`list.sort` is a stable sort; it is modelled by a
  stable insertion sort, which is extensionally the same function.
* The interactive `ask` strategy resolves, per user choice, to one of the
  four concrete strategies and is excluded (spec §1 excludes prompts);
  the user confirmations inside `rename_files`/`rollback` are passed in
  as boolean decision inputs.
-/

namespace R3

/-- Characters of a Python string (path, filename, stem). -/
abbrev Str := List Char

/-- File contents are opaque tokens: renaming never inspects contents. -/
abbrev Content := Nat

/-- Shorthand turning a Lean string literal into the character-list model. -/
def strOf (s : String) : Str := s.data

/-! ### Decimal rendering and parsing of numeric stems -/

/-- Decimal digit character of a value below ten. -/
def digitChar (d : Nat) : Char :=
  if d = 0 then '0' else if d = 1 then '1' else if d = 2 then '2'
  else if d = 3 then '3' else if d = 4 then '4' else if d = 5 then '5'
  else if d = 6 then '6' else if d = 7 then '7' else if d = 8 then '8' else '9'

/-- Fueled decimal rendering (fuel makes the recursion structural, so that
concrete instances evaluate by `decide`). -/
def natCharsAux : Nat → Nat → Str
  | 0, _ => []
  | fuel + 1, n =>
    if n < 10 then [digitChar n] else natCharsAux fuel (n / 10) ++ [digitChar (n % 10)]

/-- Decimal rendering of a natural number, as Python `str`/f-strings render
nonnegative integers. -/
def natChars (n : Nat) : Str := natCharsAux (n + 1) n

/-- Value of a decimal digit character, `none` on a non-digit. -/
def digitVal? (c : Char) : Option Nat :=
  if c = '0' then some 0 else if c = '1' then some 1 else if c = '2' then some 2
  else if c = '3' then some 3 else if c = '4' then some 4 else if c = '5' then some 5
  else if c = '6' then some 6 else if c = '7' then some 7 else if c = '8' then some 8
  else if c = '9' then some 9 else none

def parseDigitsGo : Str → Nat → Option Nat
  | [], acc => some acc
  | c :: cs, acc =>
    match digitVal? c with
    | some d => parseDigitsGo cs (acc * 10 + d)
    | none => none

/-- Python `int()` on a stem string: succeeds exactly on nonempty all-digit
strings.  (Signs and surrounding whitespace, which `int()` also accepts,
never occur in the numeric stems this program manipulates.) -/
def parseDigits? : Str → Option Nat
  | [] => none
  | c :: cs => parseDigitsGo (c :: cs) 0

/-! ### Path manipulation (posixpath) -/

/-- `os.path.join` for the shapes the program uses (the second component is
a plain name, never absolute). -/
def joinS (d f : Str) : Str :=
  if d = [] then f else if d.getLast? = some '/' then d ++ f else d ++ '/' :: f

def rstripSlashes (s : Str) : Str :=
  (s.reverse.dropWhile (fun c => decide (c = '/'))).reverse

/-- `os.path.dirname`: the part before the last slash, with trailing
slashes stripped unless the head is all slashes (posixpath.split). -/
def dirnameS (p : Str) : Str :=
  let head := (p.reverse.dropWhile (fun c => decide (¬ c = '/'))).reverse
  if head = [] then []
  else if head.all (fun c => decide (c = '/')) then head
  else rstripSlashes head

/-- `os.path.basename`: the part after the last slash. -/
def basenameS (p : Str) : Str :=
  (p.reverse.takeWhile (fun c => decide (¬ c = '/'))).reverse

/-- `os.path.splitext` on a plain filename (no slashes): split at the last
dot, except that a root consisting only of dots (leading-dot names such as
`.bashrc`) yields no extension. -/
def splitextS (s : Str) : Str × Str :=
  if (s.reverse.takeWhile (fun c => decide (¬ c = '.'))).length = s.length then (s, [])
  else
    if (s.take (s.length -
        ((s.reverse.takeWhile (fun c => decide (¬ c = '.'))).length + 1))).any
        (fun c => decide (¬ c = '.')) then
      (s.take (s.length - ((s.reverse.takeWhile (fun c => decide (¬ c = '.'))).length + 1)),
        '.' :: (s.reverse.takeWhile (fun c => decide (¬ c = '.'))).reverse)
    else (s, [])

/-! ### The file system -/

/-- The directory tree as an association list: path string to contents.
Lookup takes the first hit; the operations below keep keys unique when the
initial keys are unique, but no theorem depends on that. -/
abbrev FS := List (Str × Content)

/-- Content at a path (`os.stat` / reading a file). -/
def getF : FS → Str → Option Content
  | [], _ => none
  | (q, c) :: fs, p => if q = p then some c else getF fs p

/-- Remove a path (used to model the source side of a rename). -/
def removeF : FS → Str → FS
  | [], _ => []
  | (q, c) :: fs, p => if q = p then removeF fs p else (q, c) :: removeF fs p

/-- Bind a path to contents, replacing any previous binding. -/
def setF (fs : FS) (p : Str) (c : Content) : FS := (p, c) :: removeF fs p

/-- `os.path.exists`. -/
def existsF (fs : FS) (p : Str) : Bool := (getF fs p).isSome

/-- `os.listdir(d)`: names (basenames) of the entries directly inside `d`. -/
def listdirF (fs : FS) (d : Str) : List Str :=
  (fs.filter (fun e => decide (dirnameS e.1 = d))).map (fun e => basenameS e.1)

/-! ### Stable sorting (Python `sorted` / `list.sort`) -/

/-- Stable insertion of `a` in front of the first element it is
less-or-equal to. -/
def pyInsert (le : α → α → Bool) (a : α) : List α → List α
  | [] => [a]
  | b :: l => if le a b then a :: b :: l else b :: pyInsert le a l

/-- Stable sort; extensionally the function computed by Python's stable
`sorted`. -/
def pySorted (le : α → α → Bool) : List α → List α
  | [] => []
  | a :: l => pyInsert le a (pySorted le l)

/-- Lexicographic strict order on strings by code point. -/
def strLtB : Str → Str → Bool
  | [], [] => false
  | [], _ :: _ => true
  | _ :: _, [] => false
  | a :: as, b :: bs => if a < b then true else if b < a then false else strLtB as bs

def lexLe (a b : Str) : Bool := ! strLtB b a

/-! ### Ledger records (class RenameOperation) -/

inductive OpType
  | rename
  | backup
  | overwrite
deriving DecidableEq

/-- `os.path.abspath`, the identity here (see the module comment). -/
def abspathS (p : Str) : Str := p

/-- One recorded mutation (class `RenameOperation`).  `timestamp` is an
`Option` because `from_dict` re-reads it with `.get`, which can yield
`None`. -/
structure RenameOperation where
  old_path : Str
  new_path : Str
  operation_type : OpType
  backup_path : Option Str
  timestamp : Option Str
deriving DecidableEq

/-- `RenameOperation.__init__`: absolutize both paths, no backup path yet,
stamp with the current time string. -/
def RenameOperation.make (old new : Str) (ty : OpType) (ts : Str) : RenameOperation :=
  { old_path := abspathS old, new_path := abspathS new, operation_type := ty,
    backup_path := none, timestamp := some ts }

/-- The JSON object written for one operation (`to_dict`). -/
structure OpDict where
  old_path : Str
  new_path : Str
  operation_type : OpType
  backup_path : Option Str
  timestamp : Option Str
deriving DecidableEq

def RenameOperation.to_dict (op : RenameOperation) : OpDict :=
  { old_path := op.old_path, new_path := op.new_path,
    operation_type := op.operation_type, backup_path := op.backup_path,
    timestamp := op.timestamp }

/-- `RenameOperation.from_dict`: rebuild through the constructor, then
overwrite `backup_path` and `timestamp` from the stored record. -/
def RenameOperation.from_dict (d : OpDict) : RenameOperation :=
  { old_path := abspathS d.old_path, new_path := abspathS d.new_path,
    operation_type := d.operation_type, backup_path := d.backup_path,
    timestamp := d.timestamp }

/-- Contents of `backup_mapping.json` (`DuplicateHandler.save_operations`). -/
structure LedgerFile where
  version : Str
  timestamp : Str
  operations : List OpDict
deriving DecidableEq

/-! ### Global state -/

/-- World state: file system, timestamp counter, and the persisted mapping
file (at its fixed global path), `none` when the file does not exist. -/
structure Sys where
  fs : FS
  clock : Nat
  mapping : Option LedgerFile
deriving DecidableEq

/-- Exceptions the embedded operations can raise. -/
inductive Err
  | fileNotFound (p : Str)
  | valueErr
  | probeExhausted
deriving DecidableEq

/-- `datetime.now()` rendered to a string: returns the current stamp and
advances the clock. -/
def nowTs (s : Sys) : Str × Sys := (natChars s.clock, { s with clock := s.clock + 1 })

/-- `os.rename` (POSIX): error when the source is missing, silently
replaces an existing destination.  Errors carry the state at the raise. -/
def osRenameE (s : Sys) (p q : Str) : Except (Err × Sys) Sys :=
  match getF s.fs p with
  | none => .error (.fileNotFound p, s)
  | some c => .ok { s with fs := setF (removeF s.fs p) q c }

/-- `shutil.move` within one file system degenerates to a rename. -/
def shutilMoveE (s : Sys) (p q : Str) : Except (Err × Sys) Sys := osRenameE s p q

/-- `os.path.samefile`: stats both paths (raising on a missing one); two
paths denote the same file exactly when they are equal (hard links are out
of scope). -/
def samefileE (s : Sys) (p q : Str) : Except (Err × Sys) Bool :=
  if existsF s.fs p then
    if existsF s.fs q then .ok (decide (p = q))
    else .error (.fileNotFound q, s)
  else .error (.fileNotFound p, s)

/-! ### DuplicateHandler strategies -/

inductive Strategy
  | skip
  | suffix
  | backup
  | overwrite
deriving DecidableEq

def backupDirName : Str := strOf ".rename_backups"
def backupSuffix : Str := strOf ".backup"
def overwrittenDirName : Str := strOf "overwritten"
def overwrittenSuffix : Str := strOf ".overwritten"

/-- The probe of `_handle_suffix`: while the current candidate exists, move
to `name_counter + ext`.  The fuel only makes the loop structural; it errors
(`none`) when exhausted, which enough fuel makes unreachable. -/
def probeLoop (fs : FS) (d nm ext : Str) : Nat → Nat → Str → Option Str
  | 0, _, _ => none
  | fuel + 1, counter, cur =>
    if existsF fs cur then
      probeLoop fs d nm ext fuel (counter + 1) (joinS d (nm ++ '_' :: (natChars counter ++ ext)))
    else some cur

/-- Result of one `handle_duplicate` call: new state, the recorded
operation if any, and the returned path. -/
abbrev HDRes := Sys × Option RenameOperation × Str

/-- `DuplicateHandler._handle_suffix`. -/
def handle_suffix (s : Sys) (old new : Str) : Except (Err × Sys) HDRes :=
  match probeLoop s.fs (dirnameS new) (splitextS (basenameS new)).1
      (splitextS (basenameS new)).2 (s.fs.length + 1) 1 new with
  | none => .error (.probeExhausted, s)
  | some chosen =>
    match osRenameE s old chosen with
    | .error es => .error es
    | .ok s₁ =>
      .ok ({ s₁ with clock := s₁.clock + 1 },
        some (RenameOperation.make old chosen .rename (natChars s₁.clock)), chosen)

/-- Backup path `<destDir>/.rename_backups/<destName>.<timestamp>.backup`. -/
def mkBackupPath (new : Str) (ts : Str) : Str :=
  joinS (joinS (dirnameS new) backupDirName)
    (basenameS new ++ '.' :: (ts ++ backupSuffix))

/-- Displaced-for-overwrite path
`<destDir>/.rename_backups/overwritten/<destName>.<timestamp>.overwritten`. -/
def mkOverwrittenPath (new : Str) (ts : Str) : Str :=
  joinS (joinS (joinS (dirnameS new) backupDirName) overwrittenDirName)
    (basenameS new ++ '.' :: (ts ++ overwrittenSuffix))

/-- `DuplicateHandler._handle_backup`: move the occupant of `new` aside,
rename `old` onto `new`, record a `backup` operation with the backup path.
An exception in the second rename keeps the already-performed move. -/
def handle_backup (s : Sys) (old new : Str) : Except (Err × Sys) HDRes :=
  match shutilMoveE { s with clock := s.clock + 1 } new
      (mkBackupPath new (natChars s.clock)) with
  | .error es => .error es
  | .ok s₁ =>
    match osRenameE s₁ old new with
    | .error es => .error es
    | .ok s₂ =>
      .ok ({ s₂ with clock := s₂.clock + 1 },
        some { RenameOperation.make old new .backup (natChars s₂.clock) with
          backup_path := some (mkBackupPath new (natChars s.clock)) }, new)

/-- `DuplicateHandler._handle_overwrite`: same displacement mechanics into
the `overwritten` subdirectory, recorded as `overwrite`. -/
def handle_overwrite (s : Sys) (old new : Str) : Except (Err × Sys) HDRes :=
  match shutilMoveE { s with clock := s.clock + 1 } new
      (mkOverwrittenPath new (natChars s.clock)) with
  | .error es => .error es
  | .ok s₁ =>
    match osRenameE s₁ old new with
    | .error es => .error es
    | .ok s₂ =>
      .ok ({ s₂ with clock := s₂.clock + 1 },
        some { RenameOperation.make old new .overwrite (natChars s₂.clock) with
          backup_path := some (mkOverwrittenPath new (natChars s.clock)) }, new)

/-- `DuplicateHandler.handle_duplicate`: free destination gives a plain
recorded rename; identical source and destination is a silent no-op;
otherwise dispatch on the strategy (`skip` returns the old path and records
nothing). -/
def handle_duplicate (strategy : Strategy) (s : Sys) (old new : Str) :
    Except (Err × Sys) HDRes :=
  if existsF s.fs new = false then
    match osRenameE s old new with
    | .error es => .error es
    | .ok s₁ =>
      .ok ({ s₁ with clock := s₁.clock + 1 },
        some (RenameOperation.make old new .rename (natChars s₁.clock)), new)
  else
    match samefileE s old new with
    | .error es => .error es
    | .ok same =>
      if same then .ok (s, none, new)
      else
        match strategy with
        | .skip => .ok (s, none, old)
        | .suffix => handle_suffix s old new
        | .backup => handle_backup s old new
        | .overwrite => handle_overwrite s old new

/-! ### The rename transaction (`rename_files`) -/

/-- Stem characters: strip the prefix by length, keep up to the first dot
(`f[len(prefix):].split('.')[0]`). -/
def stemChars (pfx f : Str) : Str :=
  (f.drop pfx.length).takeWhile (fun c => decide (¬ c = '.'))

/-- The selection test of `rename_files` (line 501): with a nonempty prefix,
a prefix match followed by `int()` of the stem (raising `ValueError` on a
non-numeric stem); with an empty prefix, an `isdigit` guard then the same
range test.  `parseDigits?` succeeds exactly on `isdigit` strings. -/
def selectFile (pfx : Str) (cs ce : Nat) (f : Str) : Except Err Bool :=
  if pfx ≠ [] then
    if pfx.isPrefixOf f then
      match parseDigits? (stemChars pfx f) with
      | some n => .ok (decide (cs ≤ n ∧ n ≤ ce))
      | none => .error .valueErr
    else .ok false
  else
    match parseDigits? (stemChars pfx f) with
    | some n => .ok (decide (cs ≤ n ∧ n ≤ ce))
    | none => .ok false

/-- The list-comprehension filter building `current_files`. -/
def filterSelect (pfx : Str) (cs ce : Nat) : List Str → Except Err (List Str)
  | [] => .ok []
  | f :: fs =>
    match selectFile pfx cs ce f with
    | .error e => .error e
    | .ok b =>
      match filterSelect pfx cs ce fs with
      | .error e => .error e
      | .ok r => .ok (if b then f :: r else r)

/-- The missing-number scan (line 520): numbers `i` in `[cs, ce]` such that
no file starts with `prefix + str(i) + "."`, rendered as `prefix + str(i)`. -/
def missingNames (pfx : Str) (cs ce : Nat) (files : List Str) : List Str :=
  ((List.range' cs (ce + 1 - cs)).filter
      (fun i => ! files.any (fun f => (pfx ++ natChars i ++ ['.']).isPrefixOf f))).map
    (fun i => pfx ++ natChars i)

/-- Sort key of line 537: `int(x[len(prefix or ''):].split('.')[0])`.
The default is irrelevant: every selected file parsed during filtering. -/
def stemKey (pfx f : Str) : Nat := (parseDigits? (stemChars pfx f)).getD 0

def sortByStem (pfx : Str) (l : List Str) : List Str :=
  pySorted (fun a b => decide (stemKey pfx a ≤ stemKey pfx b)) l

/-- Processing order of the loop at line 558: iterate the ascending list in
reverse; the file at ascending position `i` targets number `newStart + i`. -/
def loopPairs (ns : Nat) (current : List Str) : List (Str × Nat) :=
  (current.enum.map (fun q => (q.2, ns + q.1))).reverse

/-- Accumulator of the rename loop: state, `handler.operations`, and the
renamed/skipped counters. -/
structure LoopState where
  sys : Sys
  ops : List RenameOperation
  renamed : Nat
  skipped : Nat
deriving DecidableEq

/-- One iteration of the rename loop: build the destination
`prefix + str(num) + extension` and run the duplicate handler; a returned
path equal to the source counts as skipped. -/
def renameStep (strategy : Strategy) (dir pfx : Str) (st : LoopState)
    (file : Str) (num : Nat) : Except (Err × Sys) LoopState :=
  match handle_duplicate strategy st.sys (joinS dir file)
      (joinS dir (pfx ++ natChars num ++ (splitextS file).2)) with
  | .error es => .error es
  | .ok r =>
    .ok { sys := r.1, ops := st.ops ++ r.2.1.toList,
          renamed := st.renamed + (if r.2.2 = joinS dir file then 0 else 1),
          skipped := st.skipped + (if r.2.2 = joinS dir file then 1 else 0) }

/-- The rename loop; an exception stops it (the surrounding `try` of
`rename_files` catches it), keeping the state at the raise. -/
def renameLoop (strategy : Strategy) (dir pfx : Str) :
    List (Str × Nat) → LoopState → LoopState × Option Err
  | [], st => (st, none)
  | (f, n) :: rest, st =>
    match renameStep strategy dir pfx st f n with
    | .ok st' => renameLoop strategy dir pfx rest st'
    | .error es => ({ st with sys := es.2 }, some es.1)

inductive RFStatus
  | ok
  | emptyDir
  | cancelledMissing
  | cancelledConfirm
  | failed (e : Err)
deriving DecidableEq

structure RFResult where
  sys : Sys
  operations : List RenameOperation
  files_renamed : Nat
  files_skipped : Nat
  status : RFStatus
deriving DecidableEq

/-- `rename_files(directory, prefix, current_start, current_end, new_start,
duplicate_strategy)`.  The two booleans are the user's answers to the
missing-files warning and the proceed prompt.  The ledger is persisted once,
after the loop, and only when at least one operation was recorded. -/
def rename_files (dir pfx : Str) (cs ce ns : Nat) (strategy : Strategy)
    (confirmMissing confirmProceed : Bool) (s₀ : Sys) : RFResult :=
  if pySorted lexLe (listdirF s₀.fs dir) = [] then ⟨s₀, [], 0, 0, .emptyDir⟩
  else
    match filterSelect pfx cs ce (pySorted lexLe (listdirF s₀.fs dir)) with
    | .error e => ⟨s₀, [], 0, 0, .failed e⟩
    | .ok current₀ =>
      if missingNames pfx cs ce (pySorted lexLe (listdirF s₀.fs dir)) ≠ [] ∧
          confirmMissing = false then
        ⟨s₀, [], 0, 0, .cancelledMissing⟩
      else if confirmProceed = false then ⟨s₀, [], 0, 0, .cancelledConfirm⟩
      else
        match renameLoop strategy dir pfx (loopPairs ns (sortByStem pfx current₀))
            ⟨s₀, [], 0, 0⟩ with
        | (st, some e) => ⟨st.sys, st.ops, st.renamed, st.skipped, .failed e⟩
        | (st, none) =>
          if st.ops ≠ [] then
            ⟨{ fs := st.sys.fs, clock := st.sys.clock + 1,
               mapping := some ⟨strOf "2.0", natChars st.sys.clock,
                 st.ops.map RenameOperation.to_dict⟩ },
             st.ops, st.renamed, st.skipped, .ok⟩
          else ⟨st.sys, st.ops, st.renamed, st.skipped, .ok⟩

/-! ### The rollback transaction -/

/-- `os.rename` where the call sites guard existence; a missing source
leaves the file system unchanged (unreachable under the guards). -/
def renameTotal (fs : FS) (p q : Str) : FS :=
  match getF fs p with
  | none => fs
  | some c => setF (removeF fs p) q c

/-- Undo of one ledger entry (the body of the rollback loop), returning the
new file system and whether the entry counts as a successful rollback.  A
`rename` entry whose destination is gone counts as failed; `backup` and
`overwrite` entries count as successful whatever exists. -/
def rollbackStep (fs : FS) (op : RenameOperation) : FS × Bool :=
  match op.operation_type with
  | .rename =>
    if existsF fs op.new_path then (renameTotal fs op.new_path op.old_path, true)
    else (fs, false)
  | .backup =>
    let fs₁ := if existsF fs op.new_path then renameTotal fs op.new_path op.old_path else fs
    let fs₂ :=
      match op.backup_path with
      | some bp => if existsF fs₁ bp then renameTotal fs₁ bp op.new_path else fs₁
      | none => fs₁
    (fs₂, true)
  | .overwrite =>
    let fs₁ := if existsF fs op.new_path then renameTotal fs op.new_path op.old_path else fs
    let fs₂ :=
      match op.backup_path with
      | some bp => if existsF fs₁ bp then renameTotal fs₁ bp op.new_path else fs₁
      | none => fs₁
    (fs₂, true)

/-- The rollback loop over the (already reversed) operation list, tracking
the two counters. -/
def rollbackLoop : List RenameOperation → FS → Nat → Nat → FS × Nat × Nat
  | [], fs, succ, fail => (fs, succ, fail)
  | op :: rest, fs, succ, fail =>
    let r := rollbackStep fs op
    rollbackLoop rest r.1 (if r.2 then succ + 1 else succ) (if r.2 then fail else fail + 1)

inductive RBStatus
  | done
  | noMapping
  | emptyMapping
  | cancelled
deriving DecidableEq

structure RBResult where
  sys : Sys
  successful : Nat
  failed : Nat
  status : RBStatus
deriving DecidableEq

/-- `rollback(directory)`: no mapping file means nothing to revert; an empty
stored list likewise; otherwise replay entries in reverse of recorded order
and finally delete the mapping file (cleanup of empty backup directories is
directory-only and invisible to the file map). -/
def rollback (confirm : Bool) (s₀ : Sys) : RBResult :=
  match s₀.mapping with
  | none => ⟨s₀, 0, 0, .noMapping⟩
  | some data =>
    if data.operations.map RenameOperation.from_dict = [] then ⟨s₀, 0, 0, .emptyMapping⟩
    else if confirm = false then ⟨s₀, 0, 0, .cancelled⟩
    else
      match rollbackLoop (data.operations.map RenameOperation.from_dict).reverse s₀.fs 0 0 with
      | (fs', succ, fail) => ⟨⟨fs', s₀.clock, none⟩, succ, fail, .done⟩

/-! ### Well-formedness predicates and the shape of a numbered filename -/

/-- A plain name, usable as the last path component. -/
def NoSlash (s : Str) : Prop := ∀ c ∈ s, c ≠ '/'

/-- A usable directory path: nonempty without a trailing slash (the shapes
`rename_files` receives, e.g. `/data/photos`). -/
def DirOK (d : Str) : Prop := d ≠ [] ∧ d.getLast? ≠ some '/'

/-- All characters are decimal digits. -/
def AllDigits (s : Str) : Prop := ∀ c ∈ s, (digitVal? c).isSome

/-- The filename `{prefix}{n}.{ext}` of the claims (the extension tail
`ext` is the part after the final dot). -/
def renderName (pfx : Str) (n : Nat) (ext : Str) : Str := pfx ++ natChars n ++ '.' :: ext

/-- Full path of a numbered file inside `dir`. -/
def renderPath (dir pfx : Str) (n : Nat) (ext : Str) : Str := joinS dir (renderName pfx n ext)

/-- The candidate `name_c + ext` inside `d` probed by `_handle_suffix`. -/
def suffixCand (d nm ext : Str) (c : Nat) : Str := joinS d (nm ++ '_' :: (natChars c ++ ext))

/-- One handler step seen at the file-system level: either no mutation and
no record, or a recorded operation whose shape describes the performed
mutation, with the preconditions the execution guarantees at that point. -/
inductive StepTr : FS → Option RenameOperation → FS → Prop
  | noop (fs : FS) : StepTr fs none fs
  | rename (fs : FS) (old new : Str) (c : Content) (ts : Str) :
      getF fs old = some c → getF fs new = none →
      StepTr fs (some ⟨old, new, .rename, none, some ts⟩) (setF (removeF fs old) new c)
  | displace (fs : FS) (ty : OpType) (old new bp : Str) (c d0 : Content) (ts : Str) :
      ty = .backup ∨ ty = .overwrite →
      getF fs old = some c → getF fs new = some d0 → old ≠ new → getF fs bp = none →
      StepTr fs (some ⟨old, new, ty, some bp, some ts⟩)
        (setF (removeF (setF (removeF fs new) bp d0) old) new c)

/-- The in-memory ledger explains the file-system change: the recorded
operations, in execution order, step the initial file system to the final
one. -/
inductive Trace : FS → List RenameOperation → FS → Prop
  | nil (fs : FS) : Trace fs [] fs
  | step {fs fs₁ fs₂ : FS} {op? : Option RenameOperation} {ops : List RenameOperation} :
      StepTr fs op? fs₁ → Trace fs₁ ops fs₂ → Trace fs (op?.toList ++ ops) fs₂

/-- No file occupies a reserved backup location stamped at or after the
clock; fresh timestamps then guarantee displaced files never collide with
anything present. -/
def NoBackupAt (dir : Str) (fs : FS) (clock : Nat) : Prop :=
  ∀ (nm : Str) (c : Nat), clock ≤ c → NoSlash nm →
    getF fs (joinS (joinS dir backupDirName)
      (nm ++ '.' :: (natChars c ++ backupSuffix))) = none ∧
    getF fs (joinS (joinS (joinS dir backupDirName) overwrittenDirName)
      (nm ++ '.' :: (natChars c ++ overwrittenSuffix))) = none

/-! ## Basic lemmas about the file-system model -/

theorem getF_removeF (fs : FS) (p q : Str) :
    getF (removeF fs p) q = if p = q then none else getF fs q := by
  induction fs with
  | nil => simp [removeF, getF]
  | cons e fs ih =>
    obtain ⟨r, c⟩ := e
    by_cases hrp : r = p
    · subst hrp
      by_cases hrq : r = q
      · subst hrq; simp [removeF, getF, ih]
      · simp [removeF, getF, hrq, ih]
    · by_cases hrq : r = q
      · subst hrq
        have : ¬ p = r := fun h => hrp h.symm
        simp [removeF, getF, hrp, this]
      · simp [removeF, getF, hrp, hrq, ih]

theorem getF_setF (fs : FS) (p q : Str) (c : Content) :
    getF (setF fs p c) q = if p = q then some c else getF fs q := by
  unfold setF
  by_cases h : p = q
  · subst h; simp [getF]
  · simp [getF, h, getF_removeF]

theorem existsF_iff (fs : FS) (p : Str) : existsF fs p = true ↔ ∃ c, getF fs p = some c := by
  unfold existsF
  cases h : getF fs p <;> simp [h]

theorem getF_mem {fs : FS} {p : Str} {c : Content} (h : getF fs p = some c) : (p, c) ∈ fs := by
  induction fs with
  | nil => simp [getF] at h
  | cons e fs ih =>
    obtain ⟨r, c'⟩ := e
    by_cases hrp : r = p
    · subst hrp
      simp [getF] at h
      simp [h]
    · simp [getF, hrp] at h
      exact List.mem_cons_of_mem _ (ih h)

/-! ## Decimal rendering: basic properties -/

theorem natCharsAux_eq_of_lt :
    ∀ (fuel₁ : Nat) {fuel₂ n : Nat}, n < fuel₁ → n < fuel₂ →
      natCharsAux fuel₁ n = natCharsAux fuel₂ n := by
  intro fuel₁
  induction fuel₁ with
  | zero => intro _ _ h; omega
  | succ f ih =>
    intro fuel₂ n h₁ h₂
    obtain ⟨f₂, rfl⟩ : ∃ f₂, fuel₂ = f₂ + 1 := ⟨fuel₂ - 1, by omega⟩
    show natCharsAux (f + 1) n = natCharsAux (f₂ + 1) n
    rw [show natCharsAux (f + 1) n =
          if n < 10 then [digitChar n] else natCharsAux f (n / 10) ++ [digitChar (n % 10)]
        from rfl,
      show natCharsAux (f₂ + 1) n =
          if n < 10 then [digitChar n] else natCharsAux f₂ (n / 10) ++ [digitChar (n % 10)]
        from rfl]
    by_cases hn : n < 10
    · simp [hn]
    · have hdiv : n / 10 < n := Nat.div_lt_self (by omega) (by omega)
      simp only [hn, if_false]
      rw [@ih f₂ (n / 10) (by omega) (by omega)]

theorem natChars_unfold (n : Nat) :
    natChars n = if n < 10 then [digitChar n] else natChars (n / 10) ++ [digitChar (n % 10)] := by
  unfold natChars
  rw [show natCharsAux (n + 1) n =
        if n < 10 then [digitChar n] else natCharsAux n (n / 10) ++ [digitChar (n % 10)]
      from rfl]
  by_cases hn : n < 10
  · simp [hn]
  · have hdiv : n / 10 < n := Nat.div_lt_self (by omega) (by omega)
    simp only [hn, if_false]
    rw [@natCharsAux_eq_of_lt n (n / 10 + 1) (n / 10) (by omega) (by omega)]

theorem natChars_ne_nil (n : Nat) : natChars n ≠ [] := by
  rw [natChars_unfold]
  by_cases hn : n < 10 <;> simp [hn]

theorem digitVal?_digitChar {d : Nat} (h : d < 10) : digitVal? (digitChar d) = some d := by
  interval_cases d <;> rfl

theorem mem_natChars_digit {n : Nat} {c : Char} (hc : c ∈ natChars n) :
    (digitVal? c).isSome := by
  induction n using Nat.strong_induction_on with
  | _ n ih =>
    rw [natChars_unfold] at hc
    by_cases hn : n < 10
    · simp [hn] at hc
      subst hc
      rw [digitVal?_digitChar hn]; rfl
    · simp only [hn, if_false, List.mem_append, List.mem_singleton] at hc
      rcases hc with hc | hc
      · exact ih (n / 10) (Nat.div_lt_self (by omega) (by omega)) hc
      · subst hc
        rw [digitVal?_digitChar (Nat.mod_lt _ (by omega))]; rfl

theorem mem_natChars_ne_dot {n : Nat} {c : Char} (hc : c ∈ natChars n) : c ≠ '.' := by
  intro h; subst h
  have := mem_natChars_digit hc
  simp [digitVal?] at this

theorem mem_natChars_ne_slash {n : Nat} {c : Char} (hc : c ∈ natChars n) : c ≠ '/' := by
  intro h; subst h
  have := mem_natChars_digit hc
  simp [digitVal?] at this

theorem mem_natChars_ne_underscore {n : Nat} {c : Char} (hc : c ∈ natChars n) : c ≠ '_' := by
  intro h; subst h
  have := mem_natChars_digit hc
  simp [digitVal?] at this

theorem parseDigitsGo_append (s t : Str) (acc : Nat) :
    parseDigitsGo (s ++ t) acc =
      match parseDigitsGo s acc with
      | some m => parseDigitsGo t m
      | none => none := by
  induction s generalizing acc with
  | nil => simp [parseDigitsGo]
  | cons c cs ih =>
    simp only [List.cons_append, parseDigitsGo]
    cases digitVal? c with
    | none => simp
    | some d => simp [ih]

theorem natChars_length_pos (n : Nat) : 0 < (natChars n).length := by
  cases h : natChars n with
  | nil => exact absurd h (natChars_ne_nil n)
  | cons a l => simp

theorem parseDigitsGo_natChars (n : Nat) :
    ∀ acc, parseDigitsGo (natChars n) acc = some (acc * 10 ^ (natChars n).length + n) := by
  induction n using Nat.strong_induction_on with
  | _ n ih =>
    intro acc
    rw [natChars_unfold]
    by_cases hn : n < 10
    · simp [hn, parseDigitsGo, digitVal?_digitChar hn]
    · have hdiv : n / 10 < n := Nat.div_lt_self (by omega) (by omega)
      simp only [hn, if_false]
      rw [parseDigitsGo_append, ih (n / 10) hdiv acc]
      have hlt : n % 10 < 10 := Nat.mod_lt _ (by omega)
      simp only [parseDigitsGo, digitVal?_digitChar hlt, List.length_append,
        List.length_singleton]
      congr 1
      rw [pow_succ, Nat.add_mul, Nat.mul_assoc, Nat.add_assoc]
      have h10 : n / 10 * 10 + n % 10 = n := by omega
      rw [h10]

theorem parseDigits?_natChars (n : Nat) : parseDigits? (natChars n) = some n := by
  have h := parseDigitsGo_natChars n 0
  cases hc : natChars n with
  | nil => exact absurd hc (natChars_ne_nil n)
  | cons a l =>
    rw [hc] at h
    simpa [parseDigits?] using h

theorem natChars_injective : Function.Injective natChars := by
  intro a b h
  have ha := parseDigits?_natChars a
  have hb := parseDigits?_natChars b
  rw [h, hb] at ha
  exact (Option.some_injective _ ha).symm

theorem allDigits_natChars (n : Nat) : AllDigits (natChars n) :=
  fun _ hc => mem_natChars_digit hc

/-! ## takeWhile / dropWhile over appends -/

theorem takeWhile_append_all {p : α → Bool} {xs : List α} (h : ∀ x ∈ xs, p x = true)
    (ys : List α) : (xs ++ ys).takeWhile p = xs ++ ys.takeWhile p := by
  induction xs with
  | nil => simp
  | cons a l ih =>
    have ha : p a = true := h a (by simp)
    simp only [List.cons_append, List.takeWhile_cons, ha, if_true]
    rw [ih (fun x hx => h x (by simp [hx]))]

theorem dropWhile_append_all {p : α → Bool} {xs : List α} (h : ∀ x ∈ xs, p x = true)
    (ys : List α) : (xs ++ ys).dropWhile p = ys.dropWhile p := by
  induction xs with
  | nil => simp
  | cons a l ih =>
    have ha : p a = true := h a (by simp)
    simp only [List.cons_append, List.dropWhile_cons, ha, if_true]
    exact ih (fun x hx => h x (by simp [hx]))

/-! ## Uniqueness of the numeric part before a dot -/

theorem digits_dot_append_inj :
    ∀ {d₁ d₂ t₁ t₂ : Str}, d₁ ++ '.' :: t₁ = d₂ ++ '.' :: t₂ →
      AllDigits d₁ → AllDigits d₂ → d₁ = d₂ ∧ t₁ = t₂ := by
  intro d₁
  induction d₁ with
  | nil =>
    intro d₂ t₁ t₂ h h₁ h₂
    cases d₂ with
    | nil => simpa using h
    | cons b l =>
      simp only [List.nil_append, List.cons_append, List.cons.injEq] at h
      have hb := h₂ b (by simp)
      rw [← h.1] at hb
      simp [digitVal?] at hb
  | cons a l ih =>
    intro d₂ t₁ t₂ h h₁ h₂
    cases d₂ with
    | nil =>
      simp only [List.cons_append, List.nil_append, List.cons.injEq] at h
      have ha := h₁ a (by simp)
      rw [h.1] at ha
      simp [digitVal?] at ha
    | cons b m =>
      simp only [List.cons_append, List.cons.injEq] at h
      obtain ⟨hab, hrest⟩ := h
      obtain ⟨hdm, ht⟩ := ih hrest (fun c hc => h₁ c (by simp [hc]))
        (fun c hc => h₂ c (by simp [hc]))
      exact ⟨by rw [hab, hdm], ht⟩

theorem digits_dot_prefix_eq {d₁ d₂ t : Str} (h : (d₁ ++ ['.']) <+: (d₂ ++ '.' :: t))
    (h₁ : AllDigits d₁) (h₂ : AllDigits d₂) : d₁ = d₂ := by
  obtain ⟨r, hr⟩ := h
  have : d₁ ++ '.' :: r = d₂ ++ '.' :: t := by simpa using hr
  exact (digits_dot_append_inj this h₁ h₂).1

/-- A file named `{pfx}{n}.{ext}` starts with `{pfx}{i}.` exactly when
`i = n` (the test of the missing-number scan). -/
theorem startswith_render_iff (pfx : Str) (i n : Nat) (ext : Str) :
    (pfx ++ natChars i ++ ['.']).isPrefixOf (renderName pfx n ext) = true ↔ i = n := by
  rw [List.isPrefixOf_iff_prefix]
  unfold renderName
  constructor
  · intro h
    rw [List.append_assoc, List.append_assoc] at h
    have h' := (List.prefix_append_right_inj pfx).mp h
    exact natChars_injective (digits_dot_prefix_eq h' (allDigits_natChars i)
      (allDigits_natChars n))
  · intro h
    subst h
    rw [List.append_assoc, List.append_assoc]
    refine (List.prefix_append_right_inj pfx).mpr ?_
    exact ⟨ext, by simp⟩

/-! ## Path lemmas -/

theorem joinS_dir {d : Str} (hd : DirOK d) (f : Str) : joinS d f = d ++ '/' :: f := by
  unfold joinS
  rw [if_neg hd.1, if_neg hd.2]

theorem joinS_dir_inj {d : Str} (hd : DirOK d) {f g : Str}
    (h : joinS d f = joinS d g) : f = g := by
  rw [joinS_dir hd, joinS_dir hd] at h
  simpa using List.append_cancel_left h

theorem basenameS_joinS {d f : Str} (hd : DirOK d) (hf : NoSlash f) :
    basenameS (joinS d f) = f := by
  rw [joinS_dir hd]
  unfold basenameS
  rw [show (d ++ '/' :: f).reverse = f.reverse ++ '/' :: d.reverse by simp]
  rw [takeWhile_append_all (fun c hc => by
    simp only [decide_eq_true_eq]
    exact hf c (by simpa using hc)) _]
  simp [List.takeWhile_cons]

theorem dirnameS_joinS {d f : Str} (hd : DirOK d) (hf : NoSlash f) :
    dirnameS (joinS d f) = d := by
  obtain ⟨xs, x, rfl⟩ : ∃ xs x, d = xs ++ [x] := by
    rcases List.eq_nil_or_concat d with h | ⟨xs, x, h⟩
    · exact absurd h hd.1
    · exact ⟨xs, x, by rw [h, List.concat_eq_append]⟩
  have hx : x ≠ '/' := by
    intro h
    exact hd.2 (by rw [List.getLast?_concat, h])
  rw [joinS_dir hd]
  unfold dirnameS
  rw [show ((xs ++ [x]) ++ '/' :: f).reverse = f.reverse ++ '/' :: (x :: xs.reverse) by simp]
  rw [dropWhile_append_all (fun c hc => by
    simp only [decide_eq_true_eq]
    exact hf c (by simpa using hc)) _]
  rw [show List.dropWhile (fun c => decide (¬ c = '/')) ('/' :: (x :: xs.reverse)) =
        '/' :: (x :: xs.reverse) by simp [List.dropWhile_cons]]
  simp only [List.reverse_cons]
  have hne : (xs.reverse.reverse ++ [x]) ++ ['/'] ≠ [] := by simp
  rw [if_neg hne]
  have hall : ((xs.reverse.reverse ++ [x]) ++ ['/']).all (fun c => decide (c = '/')) = false := by
    apply List.all_eq_false.mpr
    exact ⟨x, by simp, by simpa using hx⟩
  rw [hall]
  simp only [Bool.false_eq_true, if_false]
  unfold rstripSlashes
  rw [show ((xs.reverse.reverse ++ [x]) ++ ['/']).reverse = '/' :: x :: xs.reverse by simp]
  rw [show List.dropWhile (fun c => decide (c = '/')) ('/' :: x :: xs.reverse) =
        List.dropWhile (fun c => decide (c = '/')) (x :: xs.reverse) by
      simp [List.dropWhile_cons]]
  rw [show List.dropWhile (fun c => decide (c = '/')) (x :: xs.reverse) = x :: xs.reverse by
    simp [List.dropWhile_cons, hx]]
  simp

theorem takeWhile_rev_dot {root extT : Str} (hext : ∀ c ∈ extT, c ≠ '.') :
    (root ++ '.' :: extT).reverse.takeWhile (fun c => decide (¬ c = '.')) = extT.reverse := by
  rw [show (root ++ '.' :: extT).reverse = extT.reverse ++ '.' :: root.reverse by simp]
  rw [takeWhile_append_all (fun c hc => by
    simp only [decide_eq_true_eq]
    exact hext c (by simpa using hc)) _]
  simp [List.takeWhile_cons]

theorem splitextS_split {root extT : Str}
    (hroot : root.any (fun c => decide (¬ c = '.')) = true)
    (hext : ∀ c ∈ extT, c ≠ '.') :
    splitextS (root ++ '.' :: extT) = (root, '.' :: extT) := by
  have htw := @takeWhile_rev_dot root extT hext
  have hidx : (root ++ '.' :: extT).length - (extT.reverse.length + 1) = root.length := by
    simp only [List.length_append, List.length_cons, List.length_reverse]
    omega
  unfold splitextS
  rw [htw]
  rw [if_neg (by
    simp only [List.length_append, List.length_cons, List.length_reverse]
    omega)]
  rw [hidx, List.take_left, if_pos hroot]
  simp

theorem natChars_any_ne_dot (n : Nat) :
    (natChars n).any (fun c => decide (¬ c = '.')) = true := by
  apply List.any_eq_true.mpr
  cases hc : natChars n with
  | nil => exact absurd hc (natChars_ne_nil n)
  | cons a l =>
    refine ⟨a, by simp, ?_⟩
    have : a ∈ natChars n := by rw [hc]; simp
    simpa using mem_natChars_ne_dot this

/-- `os.path.splitext` on `{pfx}{n}.{ext}` (with a dot-free extension tail)
splits exactly at the shown dot. -/
theorem splitextS_render (pfx : Str) (n : Nat) {ext : Str} (hext : ∀ c ∈ ext, c ≠ '.') :
    splitextS (renderName pfx n ext) = (pfx ++ natChars n, '.' :: ext) := by
  unfold renderName
  apply splitextS_split _ hext
  apply List.any_eq_true.mpr
  obtain ⟨a, ha, hna⟩ := List.any_eq_true.mp (natChars_any_ne_dot n)
  exact ⟨a, by simp [ha], hna⟩

theorem stemChars_render (pfx : Str) (n : Nat) (ext : Str) :
    stemChars pfx (renderName pfx n ext) = natChars n := by
  unfold stemChars renderName
  rw [show pfx ++ natChars n ++ '.' :: ext = pfx ++ (natChars n ++ '.' :: ext) by simp]
  rw [List.drop_left]
  rw [takeWhile_append_all (fun c hc => by
    simp only [decide_eq_true_eq]
    exact mem_natChars_ne_dot hc) _]
  simp [List.takeWhile_cons]

/-- The selection test on a well-formed numbered filename is exactly the
range test on its number. -/
theorem selectFile_render (pfx : Str) (cs ce n : Nat) (ext : Str) :
    selectFile pfx cs ce (renderName pfx n ext) = .ok (decide (cs ≤ n ∧ n ≤ ce)) := by
  unfold selectFile
  by_cases hpfx : pfx = []
  · subst hpfx
    simp only [ne_eq, not_true_eq_false, if_false]
    rw [stemChars_render, parseDigits?_natChars]
  · simp only [ne_eq, hpfx, not_false_eq_true, if_true]
    have hpref : pfx.isPrefixOf (renderName pfx n ext) = true := by
      rw [List.isPrefixOf_iff_prefix]
      exact ⟨natChars n ++ '.' :: ext, by simp [renderName]⟩
    rw [hpref]
    simp only [if_true]
    rw [stemChars_render, parseDigits?_natChars]

/-! ## The stable sort -/

theorem pyInsert_perm (le : α → α → Bool) (a : α) (l : List α) :
    List.Perm (pyInsert le a l) (a :: l) := by
  induction l with
  | nil => exact List.Perm.refl _
  | cons b m ih =>
    unfold pyInsert
    by_cases h : le a b
    · rw [if_pos h]
    · rw [if_neg h]
      exact (List.Perm.cons b ih).trans (List.Perm.swap a b m)

theorem pySorted_perm (le : α → α → Bool) (l : List α) : List.Perm (pySorted le l) l := by
  induction l with
  | nil => exact List.Perm.refl _
  | cons a m ih =>
    unfold pySorted
    exact (pyInsert_perm le a (pySorted le m)).trans (List.Perm.cons a ih)

theorem mem_pyInsert {le : α → α → Bool} {a x : α} {l : List α} :
    x ∈ pyInsert le a l ↔ x = a ∨ x ∈ l := by
  rw [(pyInsert_perm le a l).mem_iff]
  simp

theorem pyInsert_pairwise {le : α → α → Bool}
    (hTot : ∀ a b, le a b = true ∨ le b a = true)
    (hTrans : ∀ a b c, le a b = true → le b c = true → le a c = true)
    (a : α) {l : List α} (hl : l.Pairwise (fun x y => le x y = true)) :
    (pyInsert le a l).Pairwise (fun x y => le x y = true) := by
  induction l with
  | nil => simp [pyInsert]
  | cons b m ih =>
    rw [List.pairwise_cons] at hl
    obtain ⟨hb, hm⟩ := hl
    unfold pyInsert
    by_cases h : le a b
    · rw [if_pos h]
      refine List.Pairwise.cons ?_ (List.Pairwise.cons hb hm)
      intro x hx
      rcases List.mem_cons.mp hx with rfl | hx
      · exact h
      · exact hTrans a b x h (hb x hx)
    · rw [if_neg h]
      have hba : le b a = true := by
        rcases hTot a b with h' | h'
        · exact absurd h' h
        · exact h'
      refine List.Pairwise.cons ?_ (ih hm)
      intro x hx
      rcases mem_pyInsert.mp hx with rfl | hx
      · exact hba
      · exact hb x hx

theorem pySorted_pairwise {le : α → α → Bool}
    (hTot : ∀ a b, le a b = true ∨ le b a = true)
    (hTrans : ∀ a b c, le a b = true → le b c = true → le a c = true)
    (l : List α) : (pySorted le l).Pairwise (fun x y => le x y = true) := by
  induction l with
  | nil => simp [pySorted]
  | cons a m ih => exact pyInsert_pairwise hTot hTrans a ih

theorem perm_pairwise_strictKey_eq (key : α → Nat) :
    ∀ (l₁ l₂ : List α), List.Perm l₁ l₂ → l₁.Pairwise (fun a b => key a < key b) →
      l₂.Pairwise (fun a b => key a < key b) → l₁ = l₂ := by
  intro l₁
  induction l₁ with
  | nil =>
    intro l₂ hperm _ _
    exact (List.Perm.eq_nil hperm.symm).symm
  | cons a t₁ ih =>
    intro l₂ hperm h₁ h₂
    cases l₂ with
    | nil => exact absurd (List.Perm.eq_nil hperm) (by simp)
    | cons b t₂ =>
      rw [List.pairwise_cons] at h₁ h₂
      by_cases hab : a = b
      · subst hab
        rw [ih t₂ (List.Perm.cons_inv hperm) h₁.2 h₂.2]
      · exfalso
        have ha : a ∈ b :: t₂ := hperm.mem_iff.mp (by simp)
        have hb : b ∈ a :: t₁ := hperm.mem_iff.mpr (by simp)
        have ha' : a ∈ t₂ := by
          rcases List.mem_cons.mp ha with h | h
          · exact absurd h hab
          · exact h
        have hb' : b ∈ t₁ := by
          rcases List.mem_cons.mp hb with h | h
          · exact absurd h.symm hab
          · exact h
        have h1 := h₂.1 a ha'
        have h2 := h₁.1 b hb'
        omega

theorem pairwise_lt_of_le_nodupKey (key : α → Nat) :
    ∀ {l : List α}, l.Pairwise (fun a b => key a ≤ key b) → (l.map key).Nodup →
      l.Pairwise (fun a b => key a < key b) := by
  intro l
  induction l with
  | nil => simp
  | cons a t ih =>
    intro hle hnd
    rw [List.pairwise_cons] at hle
    rw [List.map_cons, List.nodup_cons] at hnd
    refine List.Pairwise.cons ?_ (ih hle.2 hnd.2)
    intro x hx
    have h1 := hle.1 x hx
    have h2 : key a ≠ key x := fun h => hnd.1 (h ▸ List.mem_map_of_mem key hx)
    omega

/-- The numeric-stem sort of line 537 sends any permutation of a
strictly-ascending target to that target. -/
theorem sortByStem_eq (pfx : Str) {l target : List Str} (hperm : List.Perm l target)
    (htarget : target.Pairwise (fun a b => stemKey pfx a < stemKey pfx b)) :
    sortByStem pfx l = target := by
  have hTot : ∀ a b : Str, decide (stemKey pfx a ≤ stemKey pfx b) = true ∨
      decide (stemKey pfx b ≤ stemKey pfx a) = true := by
    intro a b
    rcases Nat.le_total (stemKey pfx a) (stemKey pfx b) with h | h
    · exact Or.inl (by simpa using h)
    · exact Or.inr (by simpa using h)
  have hTrans : ∀ a b c : Str, decide (stemKey pfx a ≤ stemKey pfx b) = true →
      decide (stemKey pfx b ≤ stemKey pfx c) = true →
      decide (stemKey pfx a ≤ stemKey pfx c) = true := by
    intro a b c h₁ h₂
    simp only [decide_eq_true_eq] at h₁ h₂ ⊢
    omega
  have hperm' : List.Perm (sortByStem pfx l) target :=
    (pySorted_perm _ l).trans hperm
  have hle : (sortByStem pfx l).Pairwise (fun a b => stemKey pfx a ≤ stemKey pfx b) := by
    have := pySorted_pairwise hTot hTrans l
    exact this.imp (fun h => by simpa using h)
  have hndT : (target.map (stemKey pfx)).Nodup := by
    have : (target.map (stemKey pfx)).Pairwise (· < ·) :=
      List.Pairwise.map (stemKey pfx) (fun _ _ h => h) htarget
    exact this.imp (fun h => Nat.ne_of_lt h)
  have hnd : ((sortByStem pfx l).map (stemKey pfx)).Nodup :=
    (List.Perm.nodup_iff (hperm'.map (stemKey pfx))).mpr hndT
  exact perm_pairwise_strictKey_eq (stemKey pfx) _ _ hperm'
    (pairwise_lt_of_le_nodupKey _ hle hnd) htarget

/-! ## The selection filter on well-formed inputs -/

theorem filterSelect_ok (pfx : Str) (cs ce : Nat) (p : Str → Bool) :
    ∀ {l : List Str}, (∀ f ∈ l, selectFile pfx cs ce f = .ok (p f)) →
      filterSelect pfx cs ce l = .ok (l.filter p) := by
  intro l
  induction l with
  | nil => intro _; rfl
  | cons f t ih =>
    intro h
    have hf := h f (by simp)
    have ht := ih (fun g hg => h g (by simp [hg]))
    unfold filterSelect
    rw [hf, ht]
    simp [List.filter_cons]

/-! ## Claim C8: the ledger round-trips exactly -/

/-- C8 (confirmed): persisting any `N` recorded operations through
`save_operations` (which stores `operations = ops.map to_dict` inside the
mapping-file record) and reloading them the way `rollback` does (mapping
`from_dict` over the stored list) reproduces the same `N` records in the
same order, with identical path strings, operation types, backup paths and
timestamps. -/
theorem C8_ledger_roundtrip (ops : List RenameOperation) (version ts : Str) :
    (LedgerFile.mk version ts (ops.map RenameOperation.to_dict)).operations.map
        RenameOperation.from_dict = ops := by
  show (ops.map RenameOperation.to_dict).map RenameOperation.from_dict = ops
  rw [List.map_map]
  have h : RenameOperation.from_dict ∘ RenameOperation.to_dict = id :=
    funext (fun op => by cases op; rfl)
  rw [h, List.map_id]

/-! ## Claim C9: rollback counter semantics -/

theorem rollbackLoop_counts (ops : List RenameOperation) :
    ∀ (fs : FS) (succ fail : Nat),
      (rollbackLoop ops fs succ fail).2.1 + (rollbackLoop ops fs succ fail).2.2 =
        succ + fail + ops.length := by
  induction ops with
  | nil => intro fs succ fail; simp [rollbackLoop]
  | cons op rest ih =>
    intro fs succ fail
    show (rollbackLoop rest (rollbackStep fs op).1 _ _).2.1 +
        (rollbackLoop rest (rollbackStep fs op).1 _ _).2.2 = succ + fail + (op :: rest).length
    rw [ih]
    by_cases h : (rollbackStep fs op).2 = true
    · simp [h, List.length_cons]
      omega
    · simp only [Bool.not_eq_true] at h
      simp [h, List.length_cons]
      omega

/-- C9 (confirmed): every ledger entry processed by the rollback loop
increments exactly one of the two counters, so their sum equals the number
of entries; a `rename` entry with a missing destination counts as failed
and leaves the file system untouched, while a `backup` or `overwrite`
entry counts as successful — and performs no mutation — even when neither
its destination nor its backup path exists. -/
theorem C9_rollback_counter_semantics :
    (∀ (ops : List RenameOperation) (fs : FS),
      (rollbackLoop ops fs 0 0).2.1 + (rollbackLoop ops fs 0 0).2.2 = ops.length) ∧
    (∀ (fs : FS) (op : RenameOperation), op.operation_type = .rename →
      existsF fs op.new_path = false → rollbackStep fs op = (fs, false)) ∧
    (∀ (fs : FS) (op : RenameOperation),
      op.operation_type = .backup ∨ op.operation_type = .overwrite →
      existsF fs op.new_path = false →
      (∀ bp, op.backup_path = some bp → existsF fs bp = false) →
      rollbackStep fs op = (fs, true)) := by
  refine ⟨fun ops fs => by simpa using rollbackLoop_counts ops fs 0 0, ?_, ?_⟩
  · intro fs op hty hex
    unfold rollbackStep
    rw [hty, hex]
    simp
  · intro fs op hty hex hbp
    rcases hty with hty | hty <;>
    · unfold rollbackStep
      rw [hty]
      simp only [hex, Bool.false_eq_true, if_false]
      cases hb : op.backup_path with
      | none => simp
      | some bp => simp [hbp bp hb]

/-- Witness for C9 at concrete inputs: a one-entry ledger gives counter sum
one; a `rename` entry pointing at an empty file system fails; a `backup`
entry with no surviving paths succeeds without mutating. -/
theorem C9_witness :
    (rollbackLoop [RenameOperation.make (strOf "/d/a") (strOf "/d/b") .rename (strOf "0")] [] 0 0).2.1 +
      (rollbackLoop [RenameOperation.make (strOf "/d/a") (strOf "/d/b") .rename (strOf "0")] [] 0 0).2.2 = 1 ∧
    rollbackStep [] (RenameOperation.make (strOf "/d/a") (strOf "/d/b") .rename (strOf "0")) =
      ([], false) ∧
    rollbackStep [] { RenameOperation.make (strOf "/d/a") (strOf "/d/b") .backup (strOf "0") with
        backup_path := some (strOf "/d/.rename_backups/b.0.backup") } = ([], true) := by
  refine ⟨C9_rollback_counter_semantics.1 _ [], ?_, ?_⟩
  · exact C9_rollback_counter_semantics.2.1 [] _ rfl rfl
  · refine C9_rollback_counter_semantics.2.2 [] _ (Or.inl rfl) rfl ?_
    intro bp _
    rfl

/-! ## Claim C6: the suffix strategy picks the first free candidate -/

theorem joinS_inj_right {d x y : Str} (h : joinS d x = joinS d y) : x = y := by
  unfold joinS at h
  by_cases h0 : d = []
  · simpa [h0] using h
  · by_cases h1 : d.getLast? = some '/'
    · rw [if_neg h0, if_pos h1, if_neg h0, if_pos h1] at h
      exact List.append_cancel_left h
    · rw [if_neg h0, if_neg h1, if_neg h0, if_neg h1] at h
      simpa using List.append_cancel_left h

theorem dropWhile_eq_cons_head_prop {p : α → Bool} :
    ∀ {l : List α} {a : α} {t : List α}, l.dropWhile p = a :: t → p a = false := by
  intro l
  induction l with
  | nil => intro a t h; simp [List.dropWhile] at h
  | cons x xs ih =>
    intro a t h
    rw [List.dropWhile_cons] at h
    by_cases hx : p x = true
    · rw [if_pos hx] at h
      exact ih h
    · rw [if_neg hx] at h
      obtain ⟨rfl, rfl⟩ : x = a ∧ xs = t := by
        constructor <;> [exact (List.cons.injEq ..).mp h |>.1;
          exact (List.cons.injEq ..).mp h |>.2]
      simpa using hx

theorem splitextS_append (s : Str) : (splitextS s).1 ++ (splitextS s).2 = s := by
  have hsplit := List.takeWhile_append_dropWhile
    (p := fun c => decide (¬ c = '.')) (l := s.reverse)
  cases hdw : List.dropWhile (fun c => decide (¬ c = '.')) s.reverse with
  | nil =>
    have htw : List.takeWhile (fun c => decide (¬ c = '.')) s.reverse = s.reverse := by
      rw [hdw, List.append_nil] at hsplit
      exact hsplit
    unfold splitextS
    rw [if_pos (by rw [htw, List.length_reverse])]
    simp
  | cons d0 rest =>
    have hd0 : d0 = '.' := by
      have := dropWhile_eq_cons_head_prop hdw
      simpa using this
    subst hd0
    have hs : s = rest.reverse ++
        '.' :: (List.takeWhile (fun c => decide (¬ c = '.')) s.reverse).reverse := by
      have h1 : s.reverse =
          List.takeWhile (fun c => decide (¬ c = '.')) s.reverse ++ '.' :: rest := by
        rw [← hdw]
        exact hsplit.symm
      have h2 := congrArg List.reverse h1
      simpa using h2
    have hslen := congrArg List.length hs
    simp only [List.length_append, List.length_cons, List.length_reverse] at hslen
    unfold splitextS
    rw [if_neg (by omega)]
    have hidx : s.length -
        ((List.takeWhile (fun c => decide (¬ c = '.')) s.reverse).length + 1) =
        rest.reverse.length := by
      simp only [List.length_reverse]
      omega
    have htake : s.take (s.length -
        ((List.takeWhile (fun c => decide (¬ c = '.')) s.reverse).length + 1)) =
        rest.reverse := by
      rw [hidx]
      conv_lhs => rw [hs]
      exact List.take_left _ _
    rw [htake]
    by_cases hany : rest.reverse.any (fun c => decide (¬ c = '.')) = true
    · rw [if_pos hany]
      exact hs.symm
    · rw [if_neg hany]
      simp

theorem splitextS_ext_shape (s : Str) :
    (splitextS s).2 = [] ∨ ∃ t, (splitextS s).2 = '.' :: t := by
  unfold splitextS
  split
  · exact Or.inl rfl
  · split
    · exact Or.inr ⟨_, rfl⟩
    · exact Or.inl rfl

theorem length_ge_of_nodup_keys {fs : FS} {ps : List Str} (hnd : ps.Nodup)
    (hin : ∀ p ∈ ps, existsF fs p = true) : ps.length ≤ fs.length := by
  have hsub : ps ⊆ fs.map Prod.fst := by
    intro p hp
    obtain ⟨c, hc⟩ := (existsF_iff fs p).mp (hin p hp)
    exact List.mem_map_of_mem Prod.fst (getF_mem hc)
  calc ps.length ≤ (fs.map Prod.fst).length := (hnd.subperm hsub).length_le
    _ = fs.length := List.length_map _ _

theorem probeLoop_spec (fs : FS) (d nm ext new : Str) (k : Nat) (hk : 1 ≤ k)
    (hocc : existsF fs new = true)
    (hcand : ∀ c, 1 ≤ c → (existsF fs (suffixCand d nm ext c) = true ↔ c < k)) :
    ∀ (fuel c : Nat), 1 ≤ c → c ≤ k + 1 → k + 2 - c ≤ fuel →
      probeLoop fs d nm ext fuel c
        (if c = 1 then new else suffixCand d nm ext (c - 1)) =
      some (suffixCand d nm ext k) := by
  intro fuel
  induction fuel with
  | zero => intro c h1 h2 h3; omega
  | succ f ih =>
    intro c h1 h2 h3
    by_cases hck : c = k + 1
    · subst hck
      have hfree : existsF fs (suffixCand d nm ext k) = false := by
        have := hcand k hk
        rcases h : existsF fs (suffixCand d nm ext k) with _ | _
        · rfl
        · exact absurd (this.mp h) (by omega)
      rw [if_neg (by omega)]
      show probeLoop fs d nm ext (f + 1) (k + 1) (suffixCand d nm ext (k + 1 - 1)) = _
      rw [show k + 1 - 1 = k from rfl]
      unfold probeLoop
      rw [hfree]
      simp
    · have hcle : c ≤ k := by omega
      have hcur : existsF fs (if c = 1 then new else suffixCand d nm ext (c - 1)) = true := by
        by_cases hc1 : c = 1
        · simpa [hc1] using hocc
        · rw [if_neg hc1]
          exact (hcand (c - 1) (by omega)).mpr (by omega)
      unfold probeLoop
      rw [hcur]
      simp only [if_true]
      have := ih (c + 1) (by omega) (by omega) (by omega)
      rw [if_neg (by omega)] at this
      rw [show c + 1 - 1 = c from rfl] at this
      exact this

/-- `_handle_suffix` unfolded on a successful probe and an existing source. -/
theorem handle_suffix_spec (s : Sys) (old new chosen : Str) (c₀ : Content)
    (hprobe : probeLoop s.fs (dirnameS new) (splitextS (basenameS new)).1
      (splitextS (basenameS new)).2 (s.fs.length + 1) 1 new = some chosen)
    (hold : getF s.fs old = some c₀) :
    handle_suffix s old new = .ok
      ({ s with fs := setF (removeF s.fs old) chosen c₀, clock := s.clock + 1 },
        some (RenameOperation.make old chosen .rename (natChars s.clock)), chosen) := by
  unfold handle_suffix
  rw [hprobe]
  simp only [osRenameE, hold]

/-- C6 (confirmed): when the desired destination is occupied and the
candidate family `name_c.ext` is occupied exactly for `1 ≤ c ≤ k - 1`,
`_handle_suffix` probes `name_1.ext`, `name_2.ext`, … in order, renames the
source to the first free candidate `name_k.ext`, and records a `rename`
operation whose destination is that chosen name. -/
theorem C6_suffix_uniqueness (s : Sys) (old new : Str) (k : Nat) (c₀ : Content)
    (hk : 1 ≤ k)
    (hjoin : joinS (dirnameS new) (basenameS new) = new)
    (hocc : existsF s.fs new = true)
    (hcand : ∀ c, 1 ≤ c →
      (existsF s.fs (suffixCand (dirnameS new) (splitextS (basenameS new)).1
          (splitextS (basenameS new)).2 c) = true ↔ c < k))
    (hold : getF s.fs old = some c₀) :
    handle_suffix s old new = .ok
      ({ s with
          fs := setF (removeF s.fs old)
            (suffixCand (dirnameS new) (splitextS (basenameS new)).1
              (splitextS (basenameS new)).2 k) c₀,
          clock := s.clock + 1 },
        some (RenameOperation.make old
          (suffixCand (dirnameS new) (splitextS (basenameS new)).1
            (splitextS (basenameS new)).2 k) .rename (natChars s.clock)),
        suffixCand (dirnameS new) (splitextS (basenameS new)).1
          (splitextS (basenameS new)).2 k) := by
  obtain ⟨d, hd⟩ : ∃ d, dirnameS new = d := ⟨_, rfl⟩
  obtain ⟨nm, hnm⟩ : ∃ nm, (splitextS (basenameS new)).1 = nm := ⟨_, rfl⟩
  obtain ⟨ext, hext2⟩ : ∃ ext, (splitextS (basenameS new)).2 = ext := ⟨_, rfl⟩
  rw [hd] at hjoin hcand ⊢
  rw [hnm, hext2] at hcand ⊢
  have hnewcand : ∀ c, new ≠ suffixCand d nm ext c := by
    intro c hc
    have hbn : nm ++ ext = basenameS new := by
      rw [← hnm, ← hext2]
      exact splitextS_append _
    have heq : joinS d (nm ++ ext) = joinS d (nm ++ '_' :: (natChars c ++ ext)) := by
      rw [hbn, hjoin]
      exact hc
    have h2 := List.append_cancel_left (joinS_inj_right heq)
    rcases splitextS_ext_shape (basenameS new) with hsh | ⟨t, hsh⟩
    · rw [hext2] at hsh
      rw [hsh] at h2
      simp at h2
    · rw [hext2] at hsh
      rw [hsh] at h2
      simp at h2
  have hcandinj : ∀ c c', suffixCand d nm ext c = suffixCand d nm ext c' → c = c' := by
    intro c c' hcc
    have h2 := List.append_cancel_left (joinS_inj_right hcc)
    have h3 : natChars c ++ ext = natChars c' ++ ext := by simpa using h2
    exact natChars_injective (List.append_inj_left' h3 rfl)
  have hklen : k ≤ s.fs.length := by
    have hnd : (new :: (List.range' 1 (k - 1)).map (suffixCand d nm ext)).Nodup := by
      rw [List.nodup_cons]
      constructor
      · intro hmem
        obtain ⟨c, _, hc⟩ := List.mem_map.mp hmem
        exact hnewcand c hc.symm
      · refine List.Nodup.map ?_ (List.nodup_range' ..)
        intro c c' hcc
        exact hcandinj c c' hcc
    have hin : ∀ p ∈ new :: (List.range' 1 (k - 1)).map (suffixCand d nm ext),
        existsF s.fs p = true := by
      intro p hp
      rcases List.mem_cons.mp hp with rfl | hp
      · exact hocc
      · obtain ⟨c, hcr, rfl⟩ := List.mem_map.mp hp
        rw [List.mem_range'] at hcr
        exact (hcand c (by omega)).mpr (by omega)
    have := length_ge_of_nodup_keys hnd hin
    simpa [Nat.sub_add_cancel hk] using this
  have hprobe := probeLoop_spec s.fs d nm ext new k hk hocc hcand
    (s.fs.length + 1) 1 (le_refl 1) (by omega) (by omega)
  rw [if_pos rfl] at hprobe
  refine handle_suffix_spec s old new _ c₀ ?_ hold
  rw [hd, hnm, hext2]
  exact hprobe

/-- Witness for C6: destination `/d/A.jpg` occupied together with
`/d/A_1.jpg` (so `k = 2`); the resolver renames `/d/B.jpg` to `/d/A_2.jpg`. -/
theorem C6_witness :
    handle_suffix
      ⟨[(strOf "/d/A.jpg", 10), (strOf "/d/A_1.jpg", 11), (strOf "/d/B.jpg", 12)], 0, none⟩
      (strOf "/d/B.jpg") (strOf "/d/A.jpg") = .ok
      ({ fs := setF (removeF
            [(strOf "/d/A.jpg", 10), (strOf "/d/A_1.jpg", 11), (strOf "/d/B.jpg", 12)]
            (strOf "/d/B.jpg"))
            (suffixCand (dirnameS (strOf "/d/A.jpg"))
              (splitextS (basenameS (strOf "/d/A.jpg"))).1
              (splitextS (basenameS (strOf "/d/A.jpg"))).2 2) 12,
          clock := 1, mapping := none },
        some (RenameOperation.make (strOf "/d/B.jpg")
          (suffixCand (dirnameS (strOf "/d/A.jpg"))
            (splitextS (basenameS (strOf "/d/A.jpg"))).1
            (splitextS (basenameS (strOf "/d/A.jpg"))).2 2) .rename (natChars 0)),
        suffixCand (dirnameS (strOf "/d/A.jpg"))
          (splitextS (basenameS (strOf "/d/A.jpg"))).1
          (splitextS (basenameS (strOf "/d/A.jpg"))).2 2) := by
  refine C6_suffix_uniqueness _ _ _ 2 12 (by decide) (by decide) (by decide) ?_ (by decide)
  intro c hc
  constructor
  · intro hex
    obtain ⟨cont, hcont⟩ := (existsF_iff _ _).mp hex
    have hmem := getF_mem hcont
    have hcand1 : suffixCand (dirnameS (strOf "/d/A.jpg"))
        (splitextS (basenameS (strOf "/d/A.jpg"))).1
        (splitextS (basenameS (strOf "/d/A.jpg"))).2 c =
        strOf "/d/A_" ++ natChars c ++ strOf ".jpg" := by
      show joinS (dirnameS (strOf "/d/A.jpg")) _ = _
      rw [show dirnameS (strOf "/d/A.jpg") = strOf "/d" from by decide,
          show (splitextS (basenameS (strOf "/d/A.jpg"))).1 = strOf "A" from by decide,
          show (splitextS (basenameS (strOf "/d/A.jpg"))).2 = strOf ".jpg" from by decide]
       -- joinS "/d" ("A" ++ '_' :: (natChars c ++ ".jpg")) = "/d/A_" ++ natChars c ++ ".jpg"
      show joinS (strOf "/d") (strOf "A" ++ '_' :: (natChars c ++ strOf ".jpg")) = _
      unfold joinS
      rw [if_neg (by decide), if_neg (by decide)]
      simp [strOf]
    rw [hcand1] at hmem
    simp only [List.mem_cons, List.not_mem_nil, or_false] at hmem
    rcases hmem with h | h | h
    · -- equals A.jpg : length contradiction
      exfalso
      have hl := congrArg (fun e => e.1.length) h
      simp only [List.length_append] at hl
      have := natChars_length_pos c
      revert hl
      simp [strOf]
      omega
    · -- equals A_1.jpg: c = 1
      have h1 := congrArg Prod.fst h
      simp only at h1
      rw [show strOf "/d/A_1.jpg" = strOf "/d/A_" ++ natChars 1 ++ strOf ".jpg" from by decide]
        at h1
      have h2 : natChars c ++ strOf ".jpg" = natChars 1 ++ strOf ".jpg" := by
        have := List.append_cancel_left (by simpa using h1 :
          strOf "/d/A_" ++ (natChars c ++ strOf ".jpg") =
          strOf "/d/A_" ++ (natChars 1 ++ strOf ".jpg"))
        exact this
      have := natChars_injective (List.append_inj_left' h2 rfl)
      omega
    · exfalso
      have hl := congrArg (fun e => e.1.length) h
      simp only [List.length_append] at hl
      have := natChars_length_pos c
      revert hl
      simp [strOf]
      omega
  · intro hlt
    have hc1 : c = 1 := by omega
    subst hc1
    decide

/-! ## Claim C7: backup and overwrite displacement -/

theorem displacement_fs_spec (fs : FS) (old new bp : Str) (c d0 : Content)
    (hold : getF fs old = some c) (hnew : getF fs new = some d0)
    (hne : old ≠ new) (hbk : getF fs bp = none) :
    (∀ p, getF (setF (removeF (setF (removeF fs new) bp d0) old) new c) p =
      if p = new then some c else if p = bp then some d0
      else if p = old then none else getF fs p) ∧
    (∀ p x, getF fs p = some x →
      ∃ q, getF (setF (removeF (setF (removeF fs new) bp d0) old) new c) q = some x) := by
  have hbo : bp ≠ old := fun h => by rw [h, hold] at hbk; cases hbk
  have hbn : bp ≠ new := fun h => by rw [h, hnew] at hbk; cases hbk
  have hchar : ∀ p, getF (setF (removeF (setF (removeF fs new) bp d0) old) new c) p =
      if p = new then some c else if p = bp then some d0
      else if p = old then none else getF fs p := by
    intro p
    rw [getF_setF, getF_removeF, getF_setF, getF_removeF]
    by_cases h1 : p = new
    · subst h1
      simp
    · by_cases h2 : p = bp
      · subst h2
        simp [Ne.symm hbn, Ne.symm hbo, hbn, hbo]
      · by_cases h3 : p = old
        · subst h3
          simp [Ne.symm hne, hne, Ne.symm hbo, hbo, h1, Ne.symm h1]
        · simp [h1, h2, h3, Ne.symm h1, Ne.symm h2, Ne.symm h3]
  refine ⟨hchar, ?_⟩
  intro p x hx
  by_cases h1 : p = new
  · refine ⟨bp, ?_⟩
    rw [hchar bp, if_neg hbn, if_pos rfl]
    rw [h1, hnew] at hx
    exact hx
  · by_cases h2 : p = bp
    · rw [h2, hbk] at hx
      cases hx
    · by_cases h3 : p = old
      · refine ⟨new, ?_⟩
        rw [hchar new, if_pos rfl]
        rw [h3, hold] at hx
        exact hx
      · refine ⟨p, ?_⟩
        rw [hchar p, if_neg h1, if_neg h2, if_neg h3]
        exact hx

theorem handle_backup_spec (s : Sys) (old new : Str) (c d0 : Content)
    (hold : getF s.fs old = some c) (hnew : getF s.fs new = some d0)
    (hne : old ≠ new)
    (hbk : getF s.fs (mkBackupPath new (natChars s.clock)) = none) :
    handle_backup s old new = .ok
      ({ s with
          fs := (setF (removeF (setF (removeF s.fs new)
            (mkBackupPath new (natChars s.clock)) d0) old) new c),
          clock := s.clock + 2 },
        some { RenameOperation.make old new .backup (natChars (s.clock + 1)) with
          backup_path := some (mkBackupPath new (natChars s.clock)) }, new) := by
  have hbo : mkBackupPath new (natChars s.clock) ≠ old := fun h => by
    rw [h, hold] at hbk
    cases hbk
  have h2 : getF (setF (removeF s.fs new) (mkBackupPath new (natChars s.clock)) d0) old
      = some c := by
    rw [getF_setF, getF_removeF]
    rw [if_neg hbo, if_neg (fun h => hne h.symm)]
    exact hold
  unfold handle_backup shutilMoveE osRenameE
  simp only [hnew, h2]

theorem handle_overwrite_spec (s : Sys) (old new : Str) (c d0 : Content)
    (hold : getF s.fs old = some c) (hnew : getF s.fs new = some d0)
    (hne : old ≠ new)
    (hbk : getF s.fs (mkOverwrittenPath new (natChars s.clock)) = none) :
    handle_overwrite s old new = .ok
      ({ s with
          fs := (setF (removeF (setF (removeF s.fs new)
            (mkOverwrittenPath new (natChars s.clock)) d0) old) new c),
          clock := s.clock + 2 },
        some { RenameOperation.make old new .overwrite (natChars (s.clock + 1)) with
          backup_path := some (mkOverwrittenPath new (natChars s.clock)) }, new) := by
  have hbo : mkOverwrittenPath new (natChars s.clock) ≠ old := fun h => by
    rw [h, hold] at hbk
    cases hbk
  have h2 : getF (setF (removeF s.fs new) (mkOverwrittenPath new (natChars s.clock)) d0) old
      = some c := by
    rw [getF_setF, getF_removeF]
    rw [if_neg hbo, if_neg (fun h => hne h.symm)]
    exact hold
  unfold handle_overwrite shutilMoveE osRenameE
  simp only [hnew, h2]

/-- C7 (confirmed): with strategy backup (resp. overwrite) on an occupied
destination, the resolver moves the occupant into
`<destDir>/.rename_backups/<destName>.<timestamp>.backup` (resp. into
`<destDir>/.rename_backups/overwritten/<destName>.<timestamp>.overwritten`),
renames the source onto the vacated destination, and appends an operation
of type `backup` (resp. `overwrite`) whose `backup_path` is the displaced
location; no file content is deleted. -/
theorem C7_backup_overwrite_displacement (s : Sys) (old new : Str) (c d0 : Content)
    (hold : getF s.fs old = some c) (hnew : getF s.fs new = some d0)
    (hne : old ≠ new)
    (hbk : getF s.fs (mkBackupPath new (natChars s.clock)) = none)
    (how : getF s.fs (mkOverwrittenPath new (natChars s.clock)) = none) :
    (handle_backup s old new = .ok
      ({ s with
          fs := (setF (removeF (setF (removeF s.fs new)
            (mkBackupPath new (natChars s.clock)) d0) old) new c),
          clock := s.clock + 2 },
        some { RenameOperation.make old new .backup (natChars (s.clock + 1)) with
          backup_path := some (mkBackupPath new (natChars s.clock)) }, new)) ∧
    mkBackupPath new (natChars s.clock) = joinS (joinS (dirnameS new) backupDirName)
      (basenameS new ++ '.' :: (natChars s.clock ++ backupSuffix)) ∧
    (∀ p, getF (setF (removeF (setF (removeF s.fs new)
        (mkBackupPath new (natChars s.clock)) d0) old) new c) p =
      if p = new then some c else if p = mkBackupPath new (natChars s.clock) then some d0
      else if p = old then none else getF s.fs p) ∧
    (∀ p x, getF s.fs p = some x → ∃ q, getF (setF (removeF (setF (removeF s.fs new)
        (mkBackupPath new (natChars s.clock)) d0) old) new c) q = some x) ∧
    (handle_overwrite s old new = .ok
      ({ s with
          fs := (setF (removeF (setF (removeF s.fs new)
            (mkOverwrittenPath new (natChars s.clock)) d0) old) new c),
          clock := s.clock + 2 },
        some { RenameOperation.make old new .overwrite (natChars (s.clock + 1)) with
          backup_path := some (mkOverwrittenPath new (natChars s.clock)) }, new)) ∧
    mkOverwrittenPath new (natChars s.clock) = joinS (joinS (joinS (dirnameS new)
      backupDirName) overwrittenDirName)
      (basenameS new ++ '.' :: (natChars s.clock ++ overwrittenSuffix)) ∧
    (∀ p, getF (setF (removeF (setF (removeF s.fs new)
        (mkOverwrittenPath new (natChars s.clock)) d0) old) new c) p =
      if p = new then some c else if p = mkOverwrittenPath new (natChars s.clock) then some d0
      else if p = old then none else getF s.fs p) ∧
    (∀ p x, getF s.fs p = some x → ∃ q, getF (setF (removeF (setF (removeF s.fs new)
        (mkOverwrittenPath new (natChars s.clock)) d0) old) new c) q = some x) := by
  refine ⟨handle_backup_spec s old new c d0 hold hnew hne hbk, rfl,
    (displacement_fs_spec s.fs old new _ c d0 hold hnew hne hbk).1,
    (displacement_fs_spec s.fs old new _ c d0 hold hnew hne hbk).2,
    handle_overwrite_spec s old new c d0 hold hnew hne how, rfl,
    (displacement_fs_spec s.fs old new _ c d0 hold hnew hne how).1,
    (displacement_fs_spec s.fs old new _ c d0 hold hnew hne how).2⟩

/-- Witness for C7: directory `/d` with `A.jpg` (the occupant) and `B.jpg`
(the source); both displacement strategies succeed with the recorded
backup path, and the displaced content survives at the backup path. -/
theorem C7_witness :
    (handle_backup ⟨[(strOf "/d/A.jpg", 10), (strOf "/d/B.jpg", 12)], 0, none⟩
      (strOf "/d/B.jpg") (strOf "/d/A.jpg") = .ok
      ({ fs := (setF (removeF (setF (removeF
            [(strOf "/d/A.jpg", 10), (strOf "/d/B.jpg", 12)] (strOf "/d/A.jpg"))
            (mkBackupPath (strOf "/d/A.jpg") (natChars 0)) 10) (strOf "/d/B.jpg"))
            (strOf "/d/A.jpg") 12),
          clock := 2, mapping := none },
        some { RenameOperation.make (strOf "/d/B.jpg") (strOf "/d/A.jpg") .backup
            (natChars 1) with
          backup_path := some (mkBackupPath (strOf "/d/A.jpg") (natChars 0)) },
        strOf "/d/A.jpg")) ∧
    (handle_overwrite ⟨[(strOf "/d/A.jpg", 10), (strOf "/d/B.jpg", 12)], 0, none⟩
      (strOf "/d/B.jpg") (strOf "/d/A.jpg") = .ok
      ({ fs := (setF (removeF (setF (removeF
            [(strOf "/d/A.jpg", 10), (strOf "/d/B.jpg", 12)] (strOf "/d/A.jpg"))
            (mkOverwrittenPath (strOf "/d/A.jpg") (natChars 0)) 10) (strOf "/d/B.jpg"))
            (strOf "/d/A.jpg") 12),
          clock := 2, mapping := none },
        some { RenameOperation.make (strOf "/d/B.jpg") (strOf "/d/A.jpg") .overwrite
            (natChars 1) with
          backup_path := some (mkOverwrittenPath (strOf "/d/A.jpg") (natChars 0)) },
        strOf "/d/A.jpg")) := by
  refine ⟨?_, ?_⟩
  · exact (C7_backup_overwrite_displacement _ _ _ 12 10 (by decide) (by decide) (by decide)
      (by decide) (by decide)).1
  · exact (C7_backup_overwrite_displacement _ _ _ 12 10 (by decide) (by decide) (by decide)
      (by decide) (by decide)).2.2.2.2.1

/-! ## Claim C3: range selection and missing numbers -/

theorem noSlash_render (pfx ext₀ : Str) (n : Nat) (hpfx : NoSlash pfx) (hext : NoSlash ext₀) :
    NoSlash (renderName pfx n ext₀) := by
  intro ch hch
  unfold renderName at hch
  simp only [List.mem_append, List.mem_cons] at hch
  rcases hch with (h | h) | (h | h)
  · exact hpfx ch h
  · exact mem_natChars_ne_slash h
  · subst h
    decide
  · exact hext ch h

theorem stemKey_render (pfx : Str) (n : Nat) (ext₀ : Str) :
    stemKey pfx (renderName pfx n ext₀) = n := by
  unfold stemKey
  rw [stemChars_render, parseDigits?_natChars]
  rfl

theorem listdirF_renders (dir pfx ext₀ : Str) (cont : Nat → Content) (ms : List Nat)
    (hdir : DirOK dir) (hpfx : NoSlash pfx) (hext : NoSlash ext₀) :
    listdirF (ms.map (fun n => (renderPath dir pfx n ext₀, cont n))) dir =
      ms.map (fun n => renderName pfx n ext₀) := by
  induction ms with
  | nil => rfl
  | cons n t ih =>
    unfold listdirF at ih ⊢
    simp only [List.map_cons, List.filter_cons]
    have hns := noSlash_render pfx ext₀ n hpfx hext
    have hdn : dirnameS (renderPath dir pfx n ext₀) = dir := by
      unfold renderPath
      exact dirnameS_joinS hdir hns
    have hbn : basenameS (renderPath dir pfx n ext₀) = renderName pfx n ext₀ := by
      unfold renderPath
      exact basenameS_joinS hdir hns
    rw [show (decide (dirnameS (renderPath dir pfx n ext₀, cont n).1 = dir)) = true from by
      simp [hdn]]
    simp only [if_true, List.map_cons]
    rw [show basenameS (renderPath dir pfx n ext₀, cont n).1 = renderName pfx n ext₀ from hbn]
    rw [ih]

/-- C3 (confirmed): on a directory whose files are `{prefix}{n}.{ext}` for
`n` in `ms`, the selection filter of `rename_files` accepts exactly the
files with `n` in `ms ∩ [a, b]`, and the missing-number list contains
exactly `prefix + str(n)` for the `n` in `[a, b]` without a file. -/
theorem C3_range_selection (dir pfx ext₀ : Str) (cont : Nat → Content) (ms : List Nat)
    (a b : Nat) (hdir : DirOK dir) (hpfx : NoSlash pfx) (hext : NoSlash ext₀) :
    (filterSelect pfx a b (pySorted lexLe
        (listdirF (ms.map (fun n => (renderPath dir pfx n ext₀, cont n))) dir)) =
      .ok ((pySorted lexLe
        (listdirF (ms.map (fun n => (renderPath dir pfx n ext₀, cont n))) dir)).filter
        (fun f => decide (a ≤ stemKey pfx f ∧ stemKey pfx f ≤ b)))) ∧
    (∀ f, f ∈ (pySorted lexLe
        (listdirF (ms.map (fun n => (renderPath dir pfx n ext₀, cont n))) dir)).filter
        (fun f => decide (a ≤ stemKey pfx f ∧ stemKey pfx f ≤ b)) ↔
      ∃ n ∈ ms, a ≤ n ∧ n ≤ b ∧ f = renderName pfx n ext₀) ∧
    (∀ g, g ∈ missingNames pfx a b (pySorted lexLe
        (listdirF (ms.map (fun n => (renderPath dir pfx n ext₀, cont n))) dir)) ↔
      ∃ n, a ≤ n ∧ n ≤ b ∧ n ∉ ms ∧ g = pfx ++ natChars n) := by
  have hld := listdirF_renders dir pfx ext₀ cont ms hdir hpfx hext
  rw [hld]
  have hperm := pySorted_perm lexLe (ms.map (fun n => renderName pfx n ext₀))
  have hmemfiles : ∀ f, f ∈ pySorted lexLe (ms.map (fun n => renderName pfx n ext₀)) ↔
      ∃ n ∈ ms, f = renderName pfx n ext₀ := by
    intro f
    rw [hperm.mem_iff]
    rw [List.mem_map]
    constructor
    · rintro ⟨n, hn, rfl⟩
      exact ⟨n, hn, rfl⟩
    · rintro ⟨n, hn, rfl⟩
      exact ⟨n, hn, rfl⟩
  refine ⟨?_, ?_, ?_⟩
  · apply filterSelect_ok
    intro f hf
    obtain ⟨n, hn, rfl⟩ := (hmemfiles f).mp hf
    rw [selectFile_render, stemKey_render]
  · intro f
    rw [List.mem_filter]
    constructor
    · rintro ⟨hf, hp⟩
      obtain ⟨n, hn, rfl⟩ := (hmemfiles f).mp hf
      rw [stemKey_render] at hp
      simp only [decide_eq_true_eq] at hp
      exact ⟨n, hn, hp.1, hp.2, rfl⟩
    · rintro ⟨n, hn, h1, h2, rfl⟩
      refine ⟨(hmemfiles _).mpr ⟨n, hn, rfl⟩, ?_⟩
      rw [stemKey_render]
      simp [h1, h2]
  · intro g
    unfold missingNames
    rw [List.mem_map]
    constructor
    · rintro ⟨i, hi, rfl⟩
      rw [List.mem_filter] at hi
      obtain ⟨hir, hcond⟩ := hi
      rw [List.mem_range'] at hir
      have hnotin : i ∉ ms := by
        intro hin
        have hany : (pySorted lexLe (ms.map (fun n => renderName pfx n ext₀))).any
            (fun f => (pfx ++ natChars i ++ ['.']).isPrefixOf f) = true := by
          apply List.any_eq_true.mpr
          exact ⟨renderName pfx i ext₀, (hmemfiles _).mpr ⟨i, hin, rfl⟩,
            (startswith_render_iff pfx i i ext₀).mpr rfl⟩
        rw [hany] at hcond
        simp at hcond
      exact ⟨i, by omega, by omega, hnotin, rfl⟩
    · rintro ⟨n, h1, h2, hnot, rfl⟩
      refine ⟨n, ?_, rfl⟩
      rw [List.mem_filter, List.mem_range']
      refine ⟨⟨n - a, by omega, by omega⟩, ?_⟩
      rw [Bool.not_eq_true']
      apply List.any_eq_false.mpr
      intro f hf
      obtain ⟨m, hm, rfl⟩ := (hmemfiles f).mp hf
      intro hpref
      exact hnot ((startswith_render_iff pfx n m ext₀).mp hpref ▸ hm)

/-- Witness for C3: files `F1.j`, `F3.j` in `/d`, range `[1, 2]`: the filter
keeps exactly `F1.j` (and not `F3.j`), and `F2` is reported missing. -/
theorem C3_witness :
    (filterSelect (strOf "F") 1 2 (pySorted lexLe
        (listdirF ([1, 3].map (fun n => (renderPath (strOf "/d") (strOf "F") n (strOf "j"),
          n))) (strOf "/d"))) =
      .ok ((pySorted lexLe
        (listdirF ([1, 3].map (fun n => (renderPath (strOf "/d") (strOf "F") n (strOf "j"),
          n))) (strOf "/d"))).filter
        (fun f => decide (1 ≤ stemKey (strOf "F") f ∧ stemKey (strOf "F") f ≤ 2)))) ∧
    (renderName (strOf "F") 1 (strOf "j") ∈ (pySorted lexLe
        (listdirF ([1, 3].map (fun n => (renderPath (strOf "/d") (strOf "F") n (strOf "j"),
          n))) (strOf "/d"))).filter
        (fun f => decide (1 ≤ stemKey (strOf "F") f ∧ stemKey (strOf "F") f ≤ 2)) ↔
      ∃ n ∈ [1, 3], 1 ≤ n ∧ n ≤ 2 ∧
        renderName (strOf "F") 1 (strOf "j") = renderName (strOf "F") n (strOf "j")) ∧
    (strOf "F" ++ natChars 2 ∈ missingNames (strOf "F") 1 2 (pySorted lexLe
        (listdirF ([1, 3].map (fun n => (renderPath (strOf "/d") (strOf "F") n (strOf "j"),
          n))) (strOf "/d"))) ↔
      ∃ n, 1 ≤ n ∧ n ≤ 2 ∧ n ∉ [1, 3] ∧ strOf "F" ++ natChars 2 = strOf "F" ++ natChars n) := by
  have h := C3_range_selection (strOf "/d") (strOf "F") (strOf "j") (fun n => n) [1, 3] 1 2
    (by constructor <;> decide) (by intro ch hch; simp [strOf] at hch; subst hch; decide)
    (by intro ch hch; simp [strOf] at hch; subst hch; decide)
  exact ⟨h.1, h.2.1 _, h.2.2 _⟩

/-! ## Handler case analysis, loop invariants, and claim C4 -/

theorem osRenameE_ok {s s' : Sys} {p q : Str} (h : osRenameE s p q = .ok s') :
    ∃ c, getF s.fs p = some c ∧ s' = { s with fs := setF (removeF s.fs p) q c } := by
  unfold osRenameE at h
  cases hg : getF s.fs p with
  | none => rw [hg] at h; cases h
  | some c =>
    rw [hg] at h
    injection h with h
    exact ⟨c, rfl, h.symm⟩

theorem osRenameE_err {s : Sys} {es : Err × Sys} {p q : Str}
    (h : osRenameE s p q = .error es) : es.2 = s ∧ getF s.fs p = none := by
  unfold osRenameE at h
  cases hg : getF s.fs p with
  | none =>
    rw [hg] at h
    injection h with h
    rw [← h]
    exact ⟨rfl, rfl⟩
  | some c => rw [hg] at h; cases h

theorem samefileE_ok {s : Sys} {p q : Str} {b : Bool} (h : samefileE s p q = .ok b) :
    existsF s.fs p = true ∧ existsF s.fs q = true ∧ b = decide (p = q) := by
  unfold samefileE at h
  by_cases h1 : existsF s.fs p = true
  · rw [if_pos h1] at h
    by_cases h2 : existsF s.fs q = true
    · rw [if_pos h2] at h
      injection h with h
      exact ⟨h1, h2, h.symm⟩
    · rw [if_neg h2] at h
      cases h
  · rw [if_neg h1] at h
    cases h

theorem samefileE_err {s : Sys} {p q : Str} {es : Err × Sys}
    (h : samefileE s p q = .error es) : es.2 = s := by
  unfold samefileE at h
  by_cases h1 : existsF s.fs p = true
  · rw [if_pos h1] at h
    by_cases h2 : existsF s.fs q = true
    · rw [if_pos h2] at h
      cases h
    · rw [if_neg h2] at h
      injection h with h
      rw [← h]
  · rw [if_neg h1] at h
    injection h with h
    rw [← h]

theorem probeLoop_some_free {fs : FS} {d nm ext : Str} :
    ∀ {fuel counter : Nat} {cur r : Str},
      probeLoop fs d nm ext fuel counter cur = some r → getF fs r = none := by
  intro fuel
  induction fuel with
  | zero => intro counter cur r h; cases h
  | succ f ih =>
    intro counter cur r h
    unfold probeLoop at h
    by_cases hex : existsF fs cur = true
    · rw [if_pos hex] at h
      exact ih h
    · rw [if_neg hex] at h
      injection h with h
      subst h
      unfold existsF at hex
      cases hg : getF fs cur with
      | none => rfl
      | some c => rw [hg] at hex; simp at hex

theorem probeLoop_some_shape {fs : FS} {d nm ext : Str} :
    ∀ {fuel counter : Nat} {cur r : Str},
      probeLoop fs d nm ext fuel counter cur = some r →
      r = cur ∨ ∃ c, counter ≤ c ∧ r = joinS d (nm ++ '_' :: (natChars c ++ ext)) := by
  intro fuel
  induction fuel with
  | zero => intro counter cur r h; cases h
  | succ f ih =>
    intro counter cur r h
    unfold probeLoop at h
    by_cases hex : existsF fs cur = true
    · rw [if_pos hex] at h
      rcases ih h with h1 | ⟨c, hc1, hc2⟩
      · exact Or.inr ⟨counter, le_refl _, h1⟩
      · exact Or.inr ⟨c, by omega, hc2⟩
    · rw [if_neg hex] at h
      injection h with h
      exact Or.inl h.symm

theorem existsF_false_iff {fs : FS} {p : Str} : existsF fs p = false ↔ getF fs p = none := by
  unfold existsF
  cases h : getF fs p <;> simp [h]

theorem handle_suffix_ok {s : Sys} {old new : Str} {r : HDRes}
    (h : handle_suffix s old new = .ok r) :
    ∃ chosen c, probeLoop s.fs (dirnameS new) (splitextS (basenameS new)).1
        (splitextS (basenameS new)).2 (s.fs.length + 1) 1 new = some chosen ∧
      getF s.fs old = some c ∧
      r = ({ s with fs := setF (removeF s.fs old) chosen c, clock := s.clock + 1 },
        some (RenameOperation.make old chosen .rename (natChars s.clock)), chosen) := by
  unfold handle_suffix at h
  split at h
  · cases h
  next chosen hp =>
    split at h
    · cases h
    next s₁ hr =>
      injection h with h
      obtain ⟨c, hc, hs₁⟩ := osRenameE_ok hr
      subst hs₁
      subst h
      exact ⟨chosen, c, hp, hc, rfl⟩

theorem handle_backup_ok {s : Sys} {old new : Str} {r : HDRes}
    (h : handle_backup s old new = .ok r) :
    ∃ c d0, getF s.fs new = some d0 ∧
      getF (setF (removeF s.fs new) (mkBackupPath new (natChars s.clock)) d0) old = some c ∧
      r = ({ s with
          fs := (setF (removeF (setF (removeF s.fs new)
            (mkBackupPath new (natChars s.clock)) d0) old) new c),
          clock := s.clock + 2 },
        some { RenameOperation.make old new .backup (natChars (s.clock + 1)) with
          backup_path := some (mkBackupPath new (natChars s.clock)) }, new) := by
  unfold handle_backup at h
  split at h
  · cases h
  next s₁ hm =>
    obtain ⟨d0, hd0, hs₁⟩ := osRenameE_ok hm
    split at h
    · cases h
    next s₂ hr =>
      injection h with h
      obtain ⟨c, hc, hs₂⟩ := osRenameE_ok hr
      subst hs₂
      subst hs₁
      subst h
      exact ⟨c, d0, hd0, hc, rfl⟩

theorem handle_overwrite_ok {s : Sys} {old new : Str} {r : HDRes}
    (h : handle_overwrite s old new = .ok r) :
    ∃ c d0, getF s.fs new = some d0 ∧
      getF (setF (removeF s.fs new) (mkOverwrittenPath new (natChars s.clock)) d0) old
        = some c ∧
      r = ({ s with
          fs := (setF (removeF (setF (removeF s.fs new)
            (mkOverwrittenPath new (natChars s.clock)) d0) old) new c),
          clock := s.clock + 2 },
        some { RenameOperation.make old new .overwrite (natChars (s.clock + 1)) with
          backup_path := some (mkOverwrittenPath new (natChars s.clock)) }, new) := by
  unfold handle_overwrite at h
  split at h
  · cases h
  next s₁ hm =>
    obtain ⟨d0, hd0, hs₁⟩ := osRenameE_ok hm
    split at h
    · cases h
    next s₂ hr =>
      injection h with h
      obtain ⟨c, hc, hs₂⟩ := osRenameE_ok hr
      subst hs₂
      subst hs₁
      subst h
      exact ⟨c, d0, hd0, hc, rfl⟩

theorem handle_duplicate_ok_cases {strategy : Strategy} {s : Sys} {old new : Str}
    {r : HDRes} (h : handle_duplicate strategy s old new = .ok r) :
    (r.1 = s ∧ r.2.1 = none) ∨
    (∃ new' c, r.2.1 = some ⟨old, new', .rename, none, some (natChars s.clock)⟩ ∧
      getF s.fs old = some c ∧ getF s.fs new' = none ∧
      r.1 = { s with fs := setF (removeF s.fs old) new' c, clock := s.clock + 1 }) ∨
    (∃ ty bp c d0, (ty = OpType.backup ∧ bp = mkBackupPath new (natChars s.clock) ∨
        ty = OpType.overwrite ∧ bp = mkOverwrittenPath new (natChars s.clock)) ∧
      r.2.1 = some ⟨old, new, ty, some bp, some (natChars (s.clock + 1))⟩ ∧
      getF s.fs new = some d0 ∧ old ≠ new ∧
      getF (setF (removeF s.fs new) bp d0) old = some c ∧
      r.1 = { s with
        fs := (setF (removeF (setF (removeF s.fs new) bp d0) old) new c),
        clock := s.clock + 2 }) := by
  unfold handle_duplicate at h
  split at h
  case isTrue hex =>
    split at h
    · cases h
    next s₁ hr =>
      injection h with h
      obtain ⟨c, hc, hs₁⟩ := osRenameE_ok hr
      subst hs₁
      subst h
      exact Or.inr (Or.inl ⟨new, c, rfl, hc, existsF_false_iff.mp hex, rfl⟩)
  case isFalse hex =>
    split at h
    · cases h
    next same hs =>
      obtain ⟨hpo, hpn, hb⟩ := samefileE_ok hs
      split at h
      case isTrue hsame =>
        injection h with h
        subst h
        exact Or.inl ⟨rfl, rfl⟩
      case isFalse hsame =>
        have hne : old ≠ new := by
          intro he
          rw [he] at hb
          simp at hb
          exact hsame hb
        cases strategy with
        | skip =>
          have h2 : (Except.ok (s, none, old) : Except (Err × Sys) HDRes) = Except.ok r := h
          injection h2 with h2
          subst h2
          exact Or.inl ⟨rfl, rfl⟩
        | suffix =>
          have h2 : handle_suffix s old new = .ok r := h
          obtain ⟨chosen, c, hp, hc, hr⟩ := handle_suffix_ok h2
          subst hr
          exact Or.inr (Or.inl ⟨chosen, c, rfl, hc, probeLoop_some_free hp, rfl⟩)
        | backup =>
          have h2 : handle_backup s old new = .ok r := h
          obtain ⟨c, d0, hd0, hc, hr⟩ := handle_backup_ok h2
          subst hr
          exact Or.inr (Or.inr ⟨OpType.backup, mkBackupPath new (natChars s.clock), c, d0,
            Or.inl ⟨rfl, rfl⟩, rfl, hd0, hne, hc, rfl⟩)
        | overwrite =>
          have h2 : handle_overwrite s old new = .ok r := h
          obtain ⟨c, d0, hd0, hc, hr⟩ := handle_overwrite_ok h2
          subst hr
          exact Or.inr (Or.inr ⟨OpType.overwrite, mkOverwrittenPath new (natChars s.clock),
            c, d0, Or.inr ⟨rfl, rfl⟩, rfl, hd0, hne, hc, rfl⟩)

theorem handle_duplicate_err_mapping {strategy : Strategy} {s : Sys} {old new : Str}
    {es : Err × Sys} (h : handle_duplicate strategy s old new = .error es) :
    es.2.mapping = s.mapping := by
  unfold handle_duplicate at h
  split at h
  case isTrue hex =>
    split at h
    next es' hr =>
      injection h with h
      subst h
      rw [(osRenameE_err hr).1]
    next s₁ hr => cases h
  case isFalse hex =>
    split at h
    next es' hs' =>
      injection h with h
      subst h
      rw [samefileE_err hs']
    next same hs' =>
      split at h
      case isTrue => cases h
      case isFalse hsame =>
        cases strategy with
        | skip => cases h
        | suffix =>
          have h2 : handle_suffix s old new = .error es := h
          unfold handle_suffix at h2
          split at h2
          · injection h2 with h2
            subst h2
            rfl
          next chosen hp =>
            split at h2
            next es' hr =>
              injection h2 with h2
              subst h2
              rw [(osRenameE_err hr).1]
            next s₁ hr => cases h2
        | backup =>
          have h2 : handle_backup s old new = .error es := h
          unfold handle_backup at h2
          split at h2
          next es' hm =>
            injection h2 with h2
            subst h2
            rw [(osRenameE_err hm).1]
          next s₁ hm =>
            obtain ⟨d0, hd0, hs₁⟩ := osRenameE_ok hm
            split at h2
            next es' hr =>
              injection h2 with h2
              subst h2
              rw [(osRenameE_err hr).1, hs₁]
            next s₂ hr => cases h2
        | overwrite =>
          have h2 : handle_overwrite s old new = .error es := h
          unfold handle_overwrite at h2
          split at h2
          next es' hm =>
            injection h2 with h2
            subst h2
            rw [(osRenameE_err hm).1]
          next s₁ hm =>
            obtain ⟨d0, hd0, hs₁⟩ := osRenameE_ok hm
            split at h2
            next es' hr =>
              injection h2 with h2
              subst h2
              rw [(osRenameE_err hr).1, hs₁]
            next s₂ hr => cases h2

theorem renameStep_ok_inv {strategy : Strategy} {dir pfx : Str} {st : LoopState}
    {file : Str} {num : Nat} {st' : LoopState}
    (h : renameStep strategy dir pfx st file num = .ok st') :
    st'.sys.mapping = st.sys.mapping ∧ st.sys.clock ≤ st'.sys.clock := by
  unfold renameStep at h
  split at h
  · cases h
  next r hd =>
    injection h with h
    subst h
    rcases handle_duplicate_ok_cases hd with ⟨h1, _⟩ | ⟨new', c, _, _, _, h1⟩ |
      ⟨ty, bp, c, d0, _, _, _, _, _, h1⟩ <;>
    · rw [h1]
      constructor
      · rfl
      · simp

theorem renameStep_err_mapping {strategy : Strategy} {dir pfx : Str} {st : LoopState}
    {file : Str} {num : Nat} {es : Err × Sys}
    (h : renameStep strategy dir pfx st file num = .error es) :
    es.2.mapping = st.sys.mapping := by
  unfold renameStep at h
  split at h
  next es' hd =>
    injection h with h
    subst h
    exact handle_duplicate_err_mapping hd
  next r hd => cases h

theorem renameLoop_mapping (strategy : Strategy) (dir pfx : Str) :
    ∀ (pairs : List (Str × Nat)) (st : LoopState),
      ((renameLoop strategy dir pfx pairs st).1).sys.mapping = st.sys.mapping := by
  intro pairs
  induction pairs with
  | nil => intro st; rfl
  | cons q rest ih =>
    intro st
    obtain ⟨f, n⟩ := q
    show ((match renameStep strategy dir pfx st f n with
      | .ok st' => renameLoop strategy dir pfx rest st'
      | .error es => ({ st with sys := es.2 }, some es.1)).1).sys.mapping = st.sys.mapping
    cases hstep : renameStep strategy dir pfx st f n with
    | ok st' =>
      rw [ih st']
      exact (renameStep_ok_inv hstep).1
    | error es =>
      exact renameStep_err_mapping hstep

theorem renameLoop_error_propagates (strategy : Strategy) (dir pfx : Str) :
    ∀ (l₁ : List (Str × Nat)) (l₂ : List (Str × Nat)) (st st' : LoopState)
      (f : Str) (n : Nat) (e : Err) (sErr : Sys),
      renameLoop strategy dir pfx l₁ st = (st', none) →
      renameStep strategy dir pfx st' f n = .error (e, sErr) →
      renameLoop strategy dir pfx (l₁ ++ (f, n) :: l₂) st =
        ({ st' with sys := sErr }, some e) := by
  intro l₁
  induction l₁ with
  | nil =>
    intro l₂ st st' f n e sErr h1 h2
    have hst : st = st' := by
      have : (st, (none : Option Err)) = (st', none) := h1
      exact (Prod.mk.injEq ..).mp this |>.1
    subst hst
    show (match renameStep strategy dir pfx st f n with
      | .ok st₁ => renameLoop strategy dir pfx l₂ st₁
      | .error es => ({ st with sys := es.2 }, some es.1)) = ({ st with sys := sErr }, some e)
    rw [h2]
  | cons q rest ih =>
    intro l₂ st st' f n e sErr h1 h2
    obtain ⟨g, m⟩ := q
    have h1' : (match renameStep strategy dir pfx st g m with
        | .ok st₁ => renameLoop strategy dir pfx rest st₁
        | .error es => ({ st with sys := es.2 }, some es.1)) = (st', none) := h1
    show (match renameStep strategy dir pfx st g m with
      | .ok st₁ => renameLoop strategy dir pfx (rest ++ (f, n) :: l₂) st₁
      | .error es => ({ st with sys := es.2 }, some es.1)) = ({ st' with sys := sErr }, some e)
    cases hstep : renameStep strategy dir pfx st g m with
    | ok st₁ =>
      rw [hstep] at h1'
      exact ih l₂ st₁ st' f n e sErr h1' h2
    | error es =>
      rw [hstep] at h1'
      exact absurd (congrArg Prod.snd h1') (by simp)

theorem rename_files_failed_no_save (dir pfx : Str) (cs ce ns : Nat) (strategy : Strategy)
    (cm cp : Bool) (s₀ : Sys) (res : RFResult) (e : Err)
    (hres : rename_files dir pfx cs ce ns strategy cm cp s₀ = res)
    (hst : res.status = .failed e) : res.sys.mapping = s₀.mapping := by
  unfold rename_files at hres
  split at hres
  · subst hres
    cases hst
  · split at hres
    next e0 heqf =>
      subst hres
      rfl
    next current heqf =>
      split at hres
      · subst hres
        cases hst
      · split at hres
        · subst hres
          cases hst
        · split at hres
          next st e' heq =>
            subst hres
            have h1 : ((renameLoop strategy dir pfx
                (loopPairs ns (sortByStem pfx current))
                ⟨s₀, [], 0, 0⟩).1).sys.mapping = s₀.mapping :=
              renameLoop_mapping strategy dir pfx _ _
            rw [heq] at h1
            exact h1
          next st heq =>
            split at hres
            · subst hres
              cases hst
            · subst hres
              cases hst

/-- Counterexample to C4 as stated: a two-file batch where the first
processed file fails (its source vanished between listing and execution).
The loop aborts: the remaining file `F1.t` is left unprocessed with no
operation recorded — although, as the second conjunct shows, the very same
step on `F1.t` from that state would have succeeded and renamed it. -/
theorem C4_counterexample :
    renameLoop .skip (strOf "/d") (strOf "F") [(strOf "F2.t", 6), (strOf "F1.t", 5)]
      ⟨⟨[(strOf "/d/F1.t", 1)], 0, none⟩, [], 0, 0⟩ =
      (⟨⟨[(strOf "/d/F1.t", 1)], 0, none⟩, [], 0, 0⟩,
        some (.fileNotFound (strOf "/d/F2.t"))) ∧
    renameStep .skip (strOf "/d") (strOf "F")
      ⟨⟨[(strOf "/d/F1.t", 1)], 0, none⟩, [], 0, 0⟩ (strOf "F1.t") 5 =
      .ok ⟨⟨[(strOf "/d/F5.t", 1)], 1, none⟩,
        [RenameOperation.make (strOf "/d/F1.t") (strOf "/d/F5.t") .rename (natChars 0)],
        1, 0⟩ := by
  exact ⟨by decide, rfl⟩

/-- C4 (corrected): a per-file rename/move failure does not let the batch
continue.  The exception propagates out of the loop: every file after the
failing one is left unprocessed, and a transaction ending in a failure
status never persists the ledger — the mapping file keeps its prior
contents, so even the renames already performed are not recorded on disk. -/
theorem C4_failure_aborts_batch :
    (∀ (strategy : Strategy) (dir pfx : Str) (l₁ l₂ : List (Str × Nat))
      (st st' : LoopState) (f : Str) (n : Nat) (e : Err) (sErr : Sys),
      renameLoop strategy dir pfx l₁ st = (st', none) →
      renameStep strategy dir pfx st' f n = .error (e, sErr) →
      renameLoop strategy dir pfx (l₁ ++ (f, n) :: l₂) st =
        ({ st' with sys := sErr }, some e)) ∧
    (∀ (dir pfx : Str) (cs ce ns : Nat) (strategy : Strategy) (cm cp : Bool)
      (s₀ : Sys) (res : RFResult) (e : Err),
      rename_files dir pfx cs ce ns strategy cm cp s₀ = res →
      res.status = .failed e → res.sys.mapping = s₀.mapping) :=
  ⟨fun strategy dir pfx => renameLoop_error_propagates strategy dir pfx,
   fun dir pfx cs ce ns strategy cm cp s₀ res e =>
     rename_files_failed_no_save dir pfx cs ce ns strategy cm cp s₀ res e⟩

/-- Witness for the corrected C4 at concrete inputs: the failure on `F2.t`
aborts the batch before `F1.t`, and a failed transaction leaves the
mapping file untouched (`none`). -/
theorem C4_witness :
    renameLoop .skip (strOf "/d") (strOf "F")
      ([] ++ (strOf "F2.t", 6) :: [(strOf "F1.t", 5)])
      ⟨⟨[(strOf "/d/F1.t", 1)], 0, none⟩, [], 0, 0⟩ =
      ({ (⟨⟨[(strOf "/d/F1.t", 1)], 0, none⟩, [], 0, 0⟩ : LoopState) with
          sys := ⟨[(strOf "/d/F1.t", 1)], 0, none⟩ },
        some (.fileNotFound (strOf "/d/F2.t"))) ∧
    (rename_files (strOf "/d") (strOf "F") 1 2 5 .skip true true
        ⟨[(strOf "/d/Fx.t", 1)], 0, none⟩).sys.mapping = none := by
  constructor
  · exact C4_failure_aborts_batch.1 .skip _ _ [] [(strOf "F1.t", 5)] _ _ _ _ _ _
      (by decide) rfl
  · exact C4_failure_aborts_batch.2 _ _ 1 2 5 .skip true true _ _ Err.valueErr rfl (by decide)


/-- Lines 206-208: when the destination already exists and `samefile` holds
(the destination IS the source), `handle_duplicate` returns the source path,
mutates nothing and records no operation. -/
theorem handle_duplicate_self {strategy : Strategy} {s : Sys} {old : Str}
    (hold : existsF s.fs old = true) :
    handle_duplicate strategy s old old = .ok (s, none, old) := by
  unfold handle_duplicate
  have hne : ¬ (existsF s.fs old = false) := by
    rw [hold]
    intro h
    cases h
  rw [if_neg hne]
  have hsf : samefileE s old old = .ok true := by
    unfold samefileE
    rw [if_pos hold, if_pos hold]
    simp
  rw [hsf]
  simp

/-- A loop over pairs whose computed destination equals the (existing)
source only bumps `files_skipped`, once per file. -/
theorem renameLoop_all_self (strategy : Strategy) (dir pfx : Str) :
    ∀ (pairs : List (Str × Nat)) (st : LoopState),
      (∀ q ∈ pairs, joinS dir (pfx ++ natChars q.2 ++ (splitextS q.1).2) = joinS dir q.1 ∧
        existsF st.sys.fs (joinS dir q.1) = true) →
      renameLoop strategy dir pfx pairs st =
        ({ st with skipped := st.skipped + pairs.length }, none) := by
  intro pairs
  induction pairs with
  | nil =>
    intro st h
    show (st, none) = _
    cases st
    simp [renameLoop]
  | cons q rest ih =>
    intro st h
    obtain ⟨f, n⟩ := q
    have h1 := h (f, n) (by simp)
    have hstep : renameStep strategy dir pfx st f n =
        .ok { st with skipped := st.skipped + 1 } := by
      unfold renameStep
      rw [h1.1]
      rw [handle_duplicate_self h1.2]
      simp
    show (match renameStep strategy dir pfx st f n with
      | .ok st' => renameLoop strategy dir pfx rest st'
      | .error es => ({ st with sys := es.2 }, some es.1)) = _
    rw [hstep]
    show renameLoop strategy dir pfx rest { st with skipped := st.skipped + 1 } = _
    rw [ih { st with skipped := st.skipped + 1 } (fun q hq =>
      ⟨(h q (List.mem_cons_of_mem _ hq)).1, (h q (List.mem_cons_of_mem _ hq)).2⟩)]
    cases st
    simp
    omega

theorem renderName_inj {pfx ext : Str} {n m : Nat}
    (h : renderName pfx n ext = renderName pfx m ext) : n = m := by
  unfold renderName at h
  rw [List.append_assoc, List.append_assoc] at h
  have h2 := List.append_cancel_left h
  exact natChars_injective (digits_dot_append_inj h2 (allDigits_natChars n)
    (allDigits_natChars m)).1

theorem renderPath_inj {dir pfx ext : Str} {n m : Nat}
    (h : renderPath dir pfx n ext = renderPath dir pfx m ext) : n = m :=
  renderName_inj (joinS_inj_right h)

theorem getF_renderFS (dir pfx ext₀ : Str) (cont : Nat → Content) :
    ∀ (ms : List Nat) (n : Nat), n ∈ ms →
      getF (ms.map (fun i => (renderPath dir pfx i ext₀, cont i)))
        (renderPath dir pfx n ext₀) = some (cont n) := by
  intro ms
  induction ms with
  | nil => intro n hn; cases hn
  | cons m t ih =>
    intro n hn
    show (if renderPath dir pfx m ext₀ = renderPath dir pfx n ext₀ then some (cont m)
      else getF (t.map (fun i => (renderPath dir pfx i ext₀, cont i)))
        (renderPath dir pfx n ext₀)) = some (cont n)
    by_cases hc : renderPath dir pfx m ext₀ = renderPath dir pfx n ext₀
    · rw [if_pos hc]
      rw [renderPath_inj hc]
    · rw [if_neg hc]
      have hnt : n ∈ t := by
        cases hn with
        | head => exact absurd rfl hc
        | tail _ h => exact h
      exact ih n hnt

theorem loopPairs_mem {ns : Nat} {current : List Str} {q : Str × Nat}
    (h : q ∈ loopPairs ns current) :
    ∃ i, i < current.length ∧ current[i]? = some q.1 ∧ q.2 = ns + i := by
  unfold loopPairs at h
  rw [List.mem_reverse, List.mem_map] at h
  obtain ⟨⟨i, f⟩, hmem, heq⟩ := h
  rw [List.mk_mem_enum_iff_getElem?] at hmem
  refine ⟨i, ?_, ?_, ?_⟩
  · exact (List.getElem?_eq_some.mp hmem).1
  · rw [hmem]
    cases heq
    rfl
  · cases heq
    rfl

theorem loopPairs_length (ns : Nat) (current : List Str) :
    (loopPairs ns current).length = current.length := by
  unfold loopPairs
  simp

/-- `rename_files` run forward from a characterisation of its filter and
loop: the save-or-not branch on the recorded operations. -/
theorem rename_files_of_loop (dir pfx : Str) (cs ce ns : Nat) (strategy : Strategy)
    (s₀ : Sys) (current₀ : List Str) (st : LoopState)
    (hne : pySorted lexLe (listdirF s₀.fs dir) ≠ [])
    (hfilter : filterSelect pfx cs ce (pySorted lexLe (listdirF s₀.fs dir)) = .ok current₀)
    (hloop : renameLoop strategy dir pfx (loopPairs ns (sortByStem pfx current₀))
      ⟨s₀, [], 0, 0⟩ = (st, none)) :
    rename_files dir pfx cs ce ns strategy true true s₀ =
      (if st.ops ≠ [] then
        ⟨{ fs := st.sys.fs, clock := st.sys.clock + 1,
           mapping := some ⟨strOf "2.0", natChars st.sys.clock,
             st.ops.map RenameOperation.to_dict⟩ },
         st.ops, st.renamed, st.skipped, .ok⟩
      else ⟨st.sys, st.ops, st.renamed, st.skipped, .ok⟩) := by
  unfold rename_files
  rw [if_neg hne]
  split
  next e heq =>
    rw [hfilter] at heq
    cases heq
  next current₀' heq =>
    rw [hfilter] at heq
    cases heq
    rw [if_neg (by simp)]
    rw [if_neg (by simp)]
    rw [hloop]

/-- C10 (confirmed): self-target renames count as skipped and leave no
ledger.  (1) Whenever a file's computed destination refers to the same file
as its source, the resolver performs no mutation and records no operation.
(2) Running the whole transaction with `newStart = currentStart` over a
contiguous range `{pfx}{n}.{ext}` for `n` in `[cs, cs+k-1]` leaves the file
system untouched, records no operation (empty ledger), reports `0` renamed
and `k` skipped, ends `.ok`, and writes no mapping file (the persisted
mapping is unchanged). -/
theorem C10_self_target_skips (dir pfx ext₀ : Str) (cont : Nat → Content)
    (cs k clk : Nat) (strategy : Strategy) (m₀ : Option LedgerFile)
    (hk : 1 ≤ k) (hdir : DirOK dir) (hpfx : NoSlash pfx) (hext : NoSlash ext₀)
    (hextdot : ∀ c ∈ ext₀, c ≠ '.') :
    (∀ (strat : Strategy) (s : Sys) (old : Str), existsF s.fs old = true →
      handle_duplicate strat s old old = .ok (s, none, old)) ∧
    rename_files dir pfx cs (cs + k - 1) cs strategy true true
      ⟨(List.range' cs k).map (fun n => (renderPath dir pfx n ext₀, cont n)), clk, m₀⟩ =
      ⟨⟨(List.range' cs k).map (fun n => (renderPath dir pfx n ext₀, cont n)), clk, m₀⟩,
        [], 0, k, .ok⟩ := by
  constructor
  · intro strat s old hold
    exact handle_duplicate_self hold
  have hld := listdirF_renders dir pfx ext₀ cont (List.range' cs k) hdir hpfx hext
  have hperm := pySorted_perm lexLe
    ((List.range' cs k).map (fun n => renderName pfx n ext₀))
  have hmem : ∀ f ∈ pySorted lexLe
      ((List.range' cs k).map (fun n => renderName pfx n ext₀)),
      ∃ n, cs ≤ n ∧ n < cs + k ∧ f = renderName pfx n ext₀ := by
    intro f hf
    have := hperm.mem_iff.mp hf
    rw [List.mem_map] at this
    obtain ⟨n, hn, rfl⟩ := this
    rw [List.mem_range'_1] at hn
    exact ⟨n, hn.1, hn.2, rfl⟩
  have hfilter : filterSelect pfx cs (cs + k - 1) (pySorted lexLe
      ((List.range' cs k).map (fun n => renderName pfx n ext₀))) =
      .ok (pySorted lexLe ((List.range' cs k).map (fun n => renderName pfx n ext₀))) := by
    have h1 := filterSelect_ok pfx cs (cs + k - 1)
      (fun f => decide (cs ≤ stemKey pfx f ∧ stemKey pfx f ≤ cs + k - 1))
      (fun f hf => by
        obtain ⟨n, h1, h2, rfl⟩ := hmem f hf
        rw [selectFile_render]
        simp only [stemKey_render])
    rw [h1]
    rw [List.filter_eq_self.mpr (fun f hf => by
      obtain ⟨n, h1, h2, rfl⟩ := hmem f hf
      rw [stemKey_render]
      simp only [decide_eq_true_eq]
      omega)]
  have hsort : sortByStem pfx (pySorted lexLe
      ((List.range' cs k).map (fun n => renderName pfx n ext₀))) =
      (List.range' cs k).map (fun n => renderName pfx n ext₀) := by
    apply sortByStem_eq pfx hperm
    rw [List.pairwise_map]
    apply (List.pairwise_lt_range' cs k).imp
    intro a b hab
    simp only [stemKey_render]
    exact hab
  have hloop : renameLoop strategy dir pfx
      (loopPairs cs ((List.range' cs k).map (fun n => renderName pfx n ext₀)))
      ⟨⟨(List.range' cs k).map (fun n => (renderPath dir pfx n ext₀, cont n)), clk, m₀⟩,
        [], 0, 0⟩ =
      (⟨⟨(List.range' cs k).map (fun n => (renderPath dir pfx n ext₀, cont n)), clk, m₀⟩,
        [], 0, 0 + ((List.range' cs k).map (fun n => renderName pfx n ext₀)).length⟩,
        none) := by
    have hlen := loopPairs_length cs ((List.range' cs k).map (fun n => renderName pfx n ext₀))
    rw [← hlen]
    apply renameLoop_all_self
    intro q hq
    obtain ⟨i, hi, hget, hq2⟩ := loopPairs_mem hq
    rw [List.getElem?_map] at hget
    rw [List.length_map] at hi
    have hik : i < k := by simpa using hi
    rw [List.getElem?_range' _ _ (by simpa using hi)] at hget
    have hq1 : q.1 = renderName pfx (cs + i) ext₀ := by
      simp at hget
      exact hget.symm
    have hq2' : q.2 = cs + i := by simpa using hq2
    constructor
    · rw [hq1, hq2']
      rw [splitextS_render pfx (cs + i) hextdot]
      rfl
    · rw [hq1]
      show (getF _ (joinS dir (renderName pfx (cs + i) ext₀))).isSome = true
      have : joinS dir (renderName pfx (cs + i) ext₀) = renderPath dir pfx (cs + i) ext₀ :=
        rfl
      rw [this]
      rw [getF_renderFS dir pfx ext₀ cont (List.range' cs k) (cs + i)
        (List.mem_range'_1.mpr ⟨Nat.le_add_right cs i, Nat.add_lt_add_left hik cs⟩)]
      rfl
  have hne : pySorted lexLe (listdirF
      ((List.range' cs k).map (fun n => (renderPath dir pfx n ext₀, cont n))) dir) ≠ [] := by
    rw [hld]
    intro hnil
    have := hperm.length_eq
    rw [hnil] at this
    simp at this
    omega
  have := rename_files_of_loop dir pfx cs (cs + k - 1) cs strategy
    ⟨(List.range' cs k).map (fun n => (renderPath dir pfx n ext₀, cont n)), clk, m₀⟩
    (pySorted lexLe ((List.range' cs k).map (fun n => renderName pfx n ext₀)))
    ⟨⟨(List.range' cs k).map (fun n => (renderPath dir pfx n ext₀, cont n)), clk, m₀⟩,
      [], 0, 0 + ((List.range' cs k).map (fun n => renderName pfx n ext₀)).length⟩
    hne
    (by
      show filterSelect pfx cs (cs + k - 1) (pySorted lexLe (listdirF
          ((List.range' cs k).map (fun n => (renderPath dir pfx n ext₀, cont n))) dir)) = _
      rw [hld]
      exact hfilter)
    (by
      rw [hsort]
      exact hloop)
  rw [this]
  rw [if_neg (by simp)]
  simp

theorem C10_witness :
    rename_files (strOf "/d") (strOf "F") 1 (1 + 2 - 1) 1 .skip true true
      ⟨(List.range' 1 2).map (fun n => (renderPath (strOf "/d") (strOf "F") n (strOf "txt"), n)),
        0, none⟩ =
      ⟨⟨(List.range' 1 2).map (fun n => (renderPath (strOf "/d") (strOf "F") n (strOf "txt"), n)),
        0, none⟩, [], 0, 2, .ok⟩ :=
  (C10_self_target_skips (strOf "/d") (strOf "F") (strOf "txt") (fun n => n) 1 2 0 .skip none
    (by decide) (by constructor <;> decide)
    (by intro ch hch; simp [strOf] at hch; subst hch; decide)
    (by intro ch hch; simp [strOf] at hch; rcases hch with rfl | rfl | rfl <;> decide)
    (by intro ch hch; simp [strOf] at hch; rcases hch with rfl | rfl | rfl <;> decide)).2


/-- C5 counterexample: in the two-file batch `/d/F1.t`, `/d/F2.t` renamed
to start 5, the loop's first step (pair `(F2.t, 6)`, the head of the actual
`loopPairs` list of this transaction) performs a real rename and records it
in the in-memory operation list, yet the persisted mapping of the reached
intermediate state is still `none`: mid-transaction the persisted ledger
does NOT contain the already-performed operation (`save_operations` only
runs after the loop, lines 576-577). -/
theorem C5_counterexample :
    loopPairs 5 (sortByStem (strOf "F") (pySorted lexLe
        (listdirF [(strOf "/d/F1.t", 1), (strOf "/d/F2.t", 2)] (strOf "/d")))) =
      [(strOf "F2.t", 6), (strOf "F1.t", 5)] ∧
    renameStep .skip (strOf "/d") (strOf "F")
      ⟨⟨[(strOf "/d/F1.t", 1), (strOf "/d/F2.t", 2)], 0, none⟩, [], 0, 0⟩
      (strOf "F2.t") 6 =
      .ok ⟨⟨[(strOf "/d/F6.t", 2), (strOf "/d/F1.t", 1)], 1, none⟩,
        [RenameOperation.make (strOf "/d/F2.t") (strOf "/d/F6.t") .rename (natChars 0)],
        1, 0⟩ ∧
    ((⟨⟨[(strOf "/d/F6.t", 2), (strOf "/d/F1.t", 1)], 1, none⟩,
        [RenameOperation.make (strOf "/d/F2.t") (strOf "/d/F6.t") .rename (natChars 0)],
        1, 0⟩ : LoopState).ops ≠ []) ∧
    ((⟨⟨[(strOf "/d/F6.t", 2), (strOf "/d/F1.t", 1)], 1, none⟩,
        [RenameOperation.make (strOf "/d/F2.t") (strOf "/d/F6.t") .rename (natChars 0)],
        1, 0⟩ : LoopState).sys.mapping = none) := by
  refine ⟨by decide, rfl, by decide, rfl⟩

/-- C5 (corrected): the persisted ledger does not track progress during
the transaction.  (1) At every point of the rename loop the persisted
mapping is exactly what it was when the transaction started.  (2) The
ledger is written exactly once, after the whole loop succeeded with a
nonempty operation list, and then records exactly the in-memory list of
performed operations (in order, via `to_dict`). -/
theorem C5_ledger_saved_once :
    (∀ (strategy : Strategy) (dir pfx : Str) (pairs : List (Str × Nat)) (st : LoopState),
      ((renameLoop strategy dir pfx pairs st).1).sys.mapping = st.sys.mapping) ∧
    (∀ (dir pfx : Str) (cs ce ns : Nat) (strategy : Strategy) (s₀ : Sys)
      (current₀ : List Str) (st : LoopState),
      pySorted lexLe (listdirF s₀.fs dir) ≠ [] →
      filterSelect pfx cs ce (pySorted lexLe (listdirF s₀.fs dir)) = .ok current₀ →
      renameLoop strategy dir pfx (loopPairs ns (sortByStem pfx current₀)) ⟨s₀, [], 0, 0⟩ =
        (st, none) →
      st.ops ≠ [] →
      (rename_files dir pfx cs ce ns strategy true true s₀).sys.mapping =
        some ⟨strOf "2.0", natChars st.sys.clock, st.ops.map RenameOperation.to_dict⟩) := by
  constructor
  · exact fun strategy dir pfx pairs st => renameLoop_mapping strategy dir pfx pairs st
  · intro dir pfx cs ce ns strategy s₀ current₀ st hne hfilter hloop hops
    rw [rename_files_of_loop dir pfx cs ce ns strategy s₀ current₀ st hne hfilter hloop]
    rw [if_pos hops]

theorem C5_witness :
    ((renameLoop .skip (strOf "/d") (strOf "F") [(strOf "F1.t", 5)]
        ⟨⟨[(strOf "/d/F1.t", 1)], 0, none⟩, [], 0, 0⟩).1).sys.mapping = none ∧
    (rename_files (strOf "/d") (strOf "F") 1 1 5 .skip true true
        ⟨[(strOf "/d/F1.t", 1)], 0, none⟩).sys.mapping =
      some ⟨strOf "2.0", natChars 1,
        [RenameOperation.to_dict (RenameOperation.make (strOf "/d/F1.t") (strOf "/d/F5.t")
          .rename (natChars 0))]⟩ := by
  constructor
  · exact C5_ledger_saved_once.1 .skip (strOf "/d") (strOf "F") [(strOf "F1.t", 5)]
      ⟨⟨[(strOf "/d/F1.t", 1)], 0, none⟩, [], 0, 0⟩
  · exact C5_ledger_saved_once.2 (strOf "/d") (strOf "F") 1 1 5 .skip
      ⟨[(strOf "/d/F1.t", 1)], 0, none⟩ [strOf "F1.t"]
      ⟨⟨[(strOf "/d/F5.t", 1)], 1, none⟩,
        [RenameOperation.make (strOf "/d/F1.t") (strOf "/d/F5.t") .rename (natChars 0)], 1, 0⟩
      (by decide) rfl rfl (by decide)


/-- Appending one file to the ascending list prepends its pair to the
processing order (the loop of line 558 runs in reverse). -/
theorem loopPairs_concat (ns : Nat) (current : List Str) (f : Str) :
    loopPairs ns (current ++ [f]) = (f, ns + current.length) :: loopPairs ns current := by
  unfold loopPairs
  rw [List.enum_append]
  simp

/-- One loop iteration whose computed destination equals its (existing)
source: counted as skipped, nothing else changes. -/
theorem renameStep_self (strategy : Strategy) (dir pfx ext₀ : Str) (st : LoopState)
    (m : Nat) (c : Content) (hextdot : ∀ ch ∈ ext₀, ch ≠ '.')
    (hsrc : getF st.sys.fs (renderPath dir pfx m ext₀) = some c) :
    renameStep strategy dir pfx st (renderName pfx m ext₀) m =
      .ok { st with skipped := st.skipped + 1 } := by
  unfold renameStep
  rw [splitextS_render pfx m hextdot]
  have hnp : joinS dir (pfx ++ natChars m ++ '.' :: ext₀) =
      joinS dir (renderName pfx m ext₀) := rfl
  rw [hnp]
  have hex : existsF st.sys.fs (joinS dir (renderName pfx m ext₀)) = true := by
    show (getF st.sys.fs (renderPath dir pfx m ext₀)).isSome = true
    rw [hsrc]
    rfl
  rw [handle_duplicate_self hex]
  simp

/-- One loop iteration whose destination does not exist yet: the plain
`shutil.move` branch of `handle_duplicate` (lines 203-205) fires, the file
moves, one rename operation is recorded, the clock ticks. -/
theorem renameStep_fresh (strategy : Strategy) (dir pfx ext₀ : Str) (st : LoopState)
    (m tgt : Nat) (c : Content) (hextdot : ∀ ch ∈ ext₀, ch ≠ '.')
    (hsrc : getF st.sys.fs (renderPath dir pfx m ext₀) = some c)
    (hfree : getF st.sys.fs (renderPath dir pfx tgt ext₀) = none) :
    renameStep strategy dir pfx st (renderName pfx m ext₀) tgt =
      .ok { sys := { fs := (setF (removeF st.sys.fs (renderPath dir pfx m ext₀))
                      (renderPath dir pfx tgt ext₀) c),
                     clock := st.sys.clock + 1,
                     mapping := st.sys.mapping },
            ops := st.ops ++ [RenameOperation.make (renderPath dir pfx m ext₀)
              (renderPath dir pfx tgt ext₀) .rename (natChars st.sys.clock)],
            renamed := st.renamed + 1, skipped := st.skipped + 0 } := by
  have hmt : m ≠ tgt := by
    intro h
    subst h
    rw [hsrc] at hfree
    cases hfree
  unfold renameStep
  rw [splitextS_render pfx m hextdot]
  have hnp : joinS dir (pfx ++ natChars tgt ++ '.' :: ext₀) =
      renderPath dir pfx tgt ext₀ := rfl
  rw [hnp]
  have hex : existsF st.sys.fs (renderPath dir pfx tgt ext₀) = false := by
    show (getF st.sys.fs (renderPath dir pfx tgt ext₀)).isSome = false
    rw [hfree]
    rfl
  have hhd : handle_duplicate strategy st.sys (joinS dir (renderName pfx m ext₀))
      (renderPath dir pfx tgt ext₀) =
      .ok ({ fs := (setF (removeF st.sys.fs (renderPath dir pfx m ext₀))
                (renderPath dir pfx tgt ext₀) c),
             clock := st.sys.clock + 1, mapping := st.sys.mapping },
        some (RenameOperation.make (renderPath dir pfx m ext₀)
          (renderPath dir pfx tgt ext₀) .rename (natChars st.sys.clock)),
        renderPath dir pfx tgt ext₀) := by
    unfold handle_duplicate
    rw [if_pos hex]
    have hren : osRenameE st.sys (joinS dir (renderName pfx m ext₀))
        (renderPath dir pfx tgt ext₀) =
        .ok { st.sys with fs := (setF (removeF st.sys.fs (renderPath dir pfx m ext₀))
          (renderPath dir pfx tgt ext₀) c) } := by
      unfold osRenameE
      rw [show getF st.sys.fs (joinS dir (renderName pfx m ext₀)) = some c from hsrc]
      rfl
    rw [hren]
    rfl
  rw [hhd]
  have hne2 : renderPath dir pfx tgt ext₀ ≠ joinS dir (renderName pfx m ext₀) :=
    fun h => hmt (renderPath_inj h).symm
  simp only [if_neg hne2]
  rfl

/-- The collision analysis of the descending loop: over files with
strictly ascending stems `ms` such that every stem satisfies
`ms[i] ≤ newStart + i`, the loop never hits an existing destination (other
than itself), finishes without error, and produces exactly the file system
`{newStart + i ↦ content of the i-th ascending file}` on the render
namespace, untouched elsewhere. -/
theorem renameLoop_shift (strategy : Strategy) (dir pfx ext₀ : Str) (cont : Nat → Content)
    (hextdot : ∀ ch ∈ ext₀, ch ≠ '.') :
    ∀ (ms : List Nat) (ns : Nat) (st : LoopState),
      ms.Pairwise (· < ·) →
      (∀ i x, ms[i]? = some x → x ≤ ns + i) →
      (∀ x ∈ ms, getF st.sys.fs (renderPath dir pfx x ext₀) = some (cont x)) →
      (∀ i, i < ms.length → (ns + i) ∉ ms →
        getF st.sys.fs (renderPath dir pfx (ns + i) ext₀) = none) →
      ∃ st', renameLoop strategy dir pfx
          (loopPairs ns (ms.map (fun n => renderName pfx n ext₀))) st = (st', none) ∧
        (∀ n, getF st'.sys.fs (renderPath dir pfx n ext₀) =
          (if ns ≤ n ∧ n < ns + ms.length then (ms[n - ns]?).map cont
           else if n ∈ ms then none
           else getF st.sys.fs (renderPath dir pfx n ext₀))) ∧
        (∀ p, (∀ n, p ≠ renderPath dir pfx n ext₀) →
          getF st'.sys.fs p = getF st.sys.fs p) ∧
        st'.sys.mapping = st.sys.mapping := by
  intro ms
  induction ms using List.reverseRecOn with
  | nil =>
    intro ns st _ _ _ _
    refine ⟨st, rfl, ?_, fun p _ => rfl, rfl⟩
    intro n
    rw [if_neg (show ¬(ns ≤ n ∧ n < ns + List.length ([] : List Nat)) by
      simp only [List.length_nil]; omega)]
    rw [if_neg (show ¬ n ∈ ([] : List Nat) by simp)]
  | append_singleton ms' m ih =>
    intro ns st hasc hshift hA hB
    have hlt : ∀ x ∈ ms', x < m := by
      rw [List.pairwise_append] at hasc
      intro x hx
      exact hasc.2.2 x hx m (by simp)
    have hm_le : m ≤ ns + ms'.length :=
      hshift ms'.length m (List.getElem?_concat_length ms' m)
    have hmnotms' : m ∉ ms' := fun h => Nat.lt_irrefl m (hlt m h)
    have htgtnot : (ns + ms'.length) ∉ ms' := by
      intro h
      have := hlt _ h
      omega
    have hdecomp : loopPairs ns ((ms' ++ [m]).map (fun n => renderName pfx n ext₀)) =
        (renderName pfx m ext₀, ns + ms'.length) ::
          loopPairs ns (ms'.map (fun n => renderName pfx n ext₀)) := by
      rw [List.map_append]
      rw [show ([m].map (fun n => renderName pfx n ext₀)) = [renderName pfx m ext₀] from rfl]
      rw [loopPairs_concat]
      rw [List.length_map]
    have hsrc : getF st.sys.fs (renderPath dir pfx m ext₀) = some (cont m) :=
      hA m (by simp)
    obtain ⟨st₁, hred, hfs₁, hfr₁, hmap₁⟩ :
        ∃ st₁, renameLoop strategy dir pfx
            (loopPairs ns ((ms' ++ [m]).map (fun n => renderName pfx n ext₀))) st =
          renameLoop strategy dir pfx
            (loopPairs ns (ms'.map (fun n => renderName pfx n ext₀))) st₁ ∧
          (∀ q, getF st₁.sys.fs (renderPath dir pfx q ext₀) =
            (if q = ns + ms'.length then some (cont m)
             else if q = m then none
             else getF st.sys.fs (renderPath dir pfx q ext₀))) ∧
          (∀ p, (∀ n, p ≠ renderPath dir pfx n ext₀) →
            getF st₁.sys.fs p = getF st.sys.fs p) ∧
          st₁.sys.mapping = st.sys.mapping := by
      rw [hdecomp]
      by_cases hcase : m = ns + ms'.length
      · refine ⟨{ st with skipped := st.skipped + 1 }, ?_, ?_, fun p _ => rfl, rfl⟩
        · show (match renameStep strategy dir pfx st (renderName pfx m ext₀)
              (ns + ms'.length) with
            | .ok st' => renameLoop strategy dir pfx
                (loopPairs ns (ms'.map (fun n => renderName pfx n ext₀))) st'
            | .error es => ({ st with sys := es.2 }, some es.1)) = _
          rw [← hcase]
          rw [renameStep_self strategy dir pfx ext₀ st m (cont m) hextdot hsrc]
        · intro q
          by_cases h1 : q = ns + ms'.length
          · rw [if_pos h1]
            show getF st.sys.fs (renderPath dir pfx q ext₀) = some (cont m)
            rw [h1, ← hcase]
            exact hsrc
          · rw [if_neg h1]
            by_cases h2 : q = m
            · exact absurd (h2.trans hcase) h1
            · rw [if_neg h2]
      · have hmlt : m < ns + ms'.length := lt_of_le_of_ne hm_le hcase
        have hfree : getF st.sys.fs (renderPath dir pfx (ns + ms'.length) ext₀) = none := by
          apply hB ms'.length (by simp)
          intro hmem
          rw [List.mem_append] at hmem
          rcases hmem with h | h
          · exact htgtnot h
          · simp at h
            omega
        refine ⟨{
            sys := {
              fs := (setF (removeF st.sys.fs (renderPath dir pfx m ext₀))
                    (renderPath dir pfx (ns + ms'.length) ext₀) (cont m)),
              clock := st.sys.clock + 1,
              mapping := st.sys.mapping },
            ops := (st.ops ++ [RenameOperation.make (renderPath dir pfx m ext₀)
                  (renderPath dir pfx (ns + ms'.length) ext₀) .rename
                  (natChars st.sys.clock)]),
            renamed := st.renamed + 1,
            skipped := st.skipped + 0 }, ?_, ?_, ?_, rfl⟩
        · show (match renameStep strategy dir pfx st (renderName pfx m ext₀)
              (ns + ms'.length) with
            | .ok st' => renameLoop strategy dir pfx
                (loopPairs ns (ms'.map (fun n => renderName pfx n ext₀))) st'
            | .error es => ({ st with sys := es.2 }, some es.1)) = _
          rw [renameStep_fresh strategy dir pfx ext₀ st m (ns + ms'.length) (cont m)
            hextdot hsrc hfree]
        · intro q
          show getF (setF (removeF st.sys.fs (renderPath dir pfx m ext₀))
            (renderPath dir pfx (ns + ms'.length) ext₀) (cont m))
            (renderPath dir pfx q ext₀) = _
          rw [getF_setF, getF_removeF]
          by_cases h1 : q = ns + ms'.length
          · rw [if_pos (show renderPath dir pfx (ns + ms'.length) ext₀ =
              renderPath dir pfx q ext₀ by rw [h1])]
            rw [if_pos h1]
          · rw [if_neg (show ¬ renderPath dir pfx (ns + ms'.length) ext₀ =
              renderPath dir pfx q ext₀ from fun h => h1 (renderPath_inj h).symm)]
            rw [if_neg h1]
            by_cases h2 : q = m
            · rw [if_pos (show renderPath dir pfx m ext₀ =
                renderPath dir pfx q ext₀ by rw [h2])]
              rw [if_pos h2]
            · rw [if_neg (show ¬ renderPath dir pfx m ext₀ =
                renderPath dir pfx q ext₀ from fun h => h2 (renderPath_inj h).symm)]
              rw [if_neg h2]
        · intro p hp
          show getF (setF (removeF st.sys.fs (renderPath dir pfx m ext₀))
            (renderPath dir pfx (ns + ms'.length) ext₀) (cont m)) p = _
          rw [getF_setF, getF_removeF]
          rw [if_neg (fun h => hp (ns + ms'.length) h.symm)]
          rw [if_neg (fun h => hp m h.symm)]
    have hA' : ∀ x ∈ ms', getF st₁.sys.fs (renderPath dir pfx x ext₀) = some (cont x) := by
      intro x hx
      rw [hfs₁ x]
      rw [if_neg (show ¬ x = ns + ms'.length by have := hlt x hx; omega)]
      rw [if_neg (show ¬ x = m from fun h => hmnotms' (h ▸ hx))]
      exact hA x (by rw [List.mem_append]; exact Or.inl hx)
    have hB' : ∀ i, i < ms'.length → (ns + i) ∉ ms' →
        getF st₁.sys.fs (renderPath dir pfx (ns + i) ext₀) = none := by
      intro i hi hni
      rw [hfs₁ (ns + i)]
      rw [if_neg (show ¬ ns + i = ns + ms'.length by omega)]
      by_cases h2 : ns + i = m
      · rw [if_pos h2]
      · rw [if_neg h2]
        apply hB i (by simp only [List.length_append, List.length_cons, List.length_nil]; omega)
        intro hmem
        rw [List.mem_append] at hmem
        rcases hmem with h | h
        · exact hni h
        · simp at h
          exact h2 h
    have hshift' : ∀ i x, ms'[i]? = some x → x ≤ ns + i := by
      intro i x hx
      obtain ⟨hilen, _⟩ := List.getElem?_eq_some.mp hx
      apply hshift i x
      rw [List.getElem?_append, if_pos hilen]
      exact hx
    have hasc' : ms'.Pairwise (· < ·) := (List.pairwise_append.mp hasc).1
    obtain ⟨st'', hloop'', hchar'', hfr'', hmap''⟩ := ih ns st₁ hasc' hshift' hA' hB'
    refine ⟨st'', by rw [hred]; exact hloop'', ?_, ?_, by rw [hmap'', hmap₁]⟩
    · intro n
      rw [hchar'' n]
      rw [hfs₁ n]
      by_cases h1 : ns ≤ n ∧ n < ns + ms'.length
      · rw [if_pos h1]
        rw [if_pos (show ns ≤ n ∧ n < ns + (ms' ++ [m]).length by
          simp only [List.length_append, List.length_cons, List.length_nil]; omega)]
        rw [List.getElem?_append, if_pos (show n - ns < ms'.length by omega)]
      · rw [if_neg h1]
        by_cases h2 : n = ns + ms'.length
        · rw [if_pos (show ns ≤ n ∧ n < ns + (ms' ++ [m]).length by
            simp only [List.length_append, List.length_cons, List.length_nil]; omega)]
          rw [if_neg (fun h => htgtnot (h2 ▸ h))]
          rw [if_pos h2]
          rw [show n - ns = ms'.length by omega]
          rw [List.getElem?_concat_length]
          rfl
        · rw [if_neg (show ¬(ns ≤ n ∧ n < ns + (ms' ++ [m]).length) by
            simp only [List.length_append, List.length_cons, List.length_nil]; omega)]
          by_cases h3 : n ∈ ms'
          · rw [if_pos h3]
            rw [if_pos (show n ∈ ms' ++ [m] by rw [List.mem_append]; exact Or.inl h3)]
          · rw [if_neg h3]
            rw [if_neg h2]
            by_cases h4 : n = m
            · rw [if_pos h4]
              rw [if_pos (show n ∈ ms' ++ [m] by
                rw [List.mem_append]; right; simp [h4])]
            · rw [if_neg h4]
              rw [if_neg (show ¬ n ∈ ms' ++ [m] by
                intro hmem
                rw [List.mem_append] at hmem
                rcases hmem with h | h
                · exact h3 h
                · simp at h
                  exact h4 h)]
    · intro p hp
      rw [hfr'' p hp, hfr₁ p hp]

/-- A stem outside `ms` has no file in the rendered directory. -/
theorem getF_renderFS_none (dir pfx ext₀ : Str) (cont : Nat → Content) :
    ∀ (ms : List Nat) (q : Nat), q ∉ ms →
      getF (ms.map (fun i => (renderPath dir pfx i ext₀, cont i)))
        (renderPath dir pfx q ext₀) = none := by
  intro ms
  induction ms with
  | nil => intro q _; rfl
  | cons m t ih =>
    intro q hq
    show (if renderPath dir pfx m ext₀ = renderPath dir pfx q ext₀ then some (cont m)
      else getF (t.map (fun i => (renderPath dir pfx i ext₀, cont i)))
        (renderPath dir pfx q ext₀)) = none
    rw [if_neg (show ¬ renderPath dir pfx m ext₀ = renderPath dir pfx q ext₀ from
      fun h => hq (by rw [(renderPath_inj h).symm]; simp))]
    exact ih q (fun h => hq (List.mem_cons_of_mem _ h))

/-- A path that is no rendered name at all has no file in the rendered
directory. -/
theorem getF_renderFS_frame (dir pfx ext₀ : Str) (cont : Nat → Content) :
    ∀ (ms : List Nat) (p : Str), (∀ n, p ≠ renderPath dir pfx n ext₀) →
      getF (ms.map (fun i => (renderPath dir pfx i ext₀, cont i))) p = none := by
  intro ms
  induction ms with
  | nil => intro p _; rfl
  | cons m t ih =>
    intro p hp
    show (if renderPath dir pfx m ext₀ = p then some (cont m)
      else getF (t.map (fun i => (renderPath dir pfx i ext₀, cont i))) p) = none
    rw [if_neg (fun h => hp m h.symm)]
    exact ih p hp

/-- C1 (corrected): the amended collision-safety statement.  For a batch
over files `{pfx}{n}.{ext}` with ascending stems `ms`, all selected, under
the additional shift condition `ms[i] ≤ newStart + i` for every ascending
position `i` (in particular any pure up-shift), the transaction succeeds
and the final name-to-original-content mapping is exactly
`{newStart + i ↦ content of the (i+1)-th file in ascending order}`: every
target name holds the right content, and every other path — rendered or
not — holds nothing, so no two files share a name.  Without the shift
condition the claim is false: see the counterexample. -/
theorem C1_shift_batch (dir pfx ext₀ : Str) (cont : Nat → Content)
    (ms : List Nat) (cs ce ns clk : Nat) (strategy : Strategy) (m₀ : Option LedgerFile)
    (hnil : ms ≠ [])
    (hasc : ms.Pairwise (· < ·))
    (hshift : ∀ i x, ms[i]? = some x → x ≤ ns + i)
    (hsel : ∀ x ∈ ms, cs ≤ x ∧ x ≤ ce)
    (hdir : DirOK dir) (hpfx : NoSlash pfx) (hext : NoSlash ext₀)
    (hextdot : ∀ c ∈ ext₀, c ≠ '.') :
    (rename_files dir pfx cs ce ns strategy true true
      ⟨ms.map (fun n => (renderPath dir pfx n ext₀, cont n)), clk, m₀⟩).status = .ok ∧
    (∀ n, getF (rename_files dir pfx cs ce ns strategy true true
        ⟨ms.map (fun n => (renderPath dir pfx n ext₀, cont n)), clk, m₀⟩).sys.fs
        (renderPath dir pfx n ext₀) =
      (if ns ≤ n ∧ n < ns + ms.length then (ms[n - ns]?).map cont else none)) ∧
    (∀ p, (∀ n, p ≠ renderPath dir pfx n ext₀) →
      getF (rename_files dir pfx cs ce ns strategy true true
        ⟨ms.map (fun n => (renderPath dir pfx n ext₀, cont n)), clk, m₀⟩).sys.fs p = none) := by
  have hld := listdirF_renders dir pfx ext₀ cont ms hdir hpfx hext
  have hperm := pySorted_perm lexLe (ms.map (fun n => renderName pfx n ext₀))
  have hmemfiles : ∀ f ∈ pySorted lexLe (ms.map (fun n => renderName pfx n ext₀)),
      ∃ n ∈ ms, f = renderName pfx n ext₀ := by
    intro f hf
    have := hperm.mem_iff.mp hf
    rw [List.mem_map] at this
    obtain ⟨n, hn, rfl⟩ := this
    exact ⟨n, hn, rfl⟩
  have hfilter : filterSelect pfx cs ce (pySorted lexLe
      (ms.map (fun n => renderName pfx n ext₀))) =
      .ok (pySorted lexLe (ms.map (fun n => renderName pfx n ext₀))) := by
    have h1 := filterSelect_ok pfx cs ce
      (fun f => decide (cs ≤ stemKey pfx f ∧ stemKey pfx f ≤ ce))
      (fun f hf => by
        obtain ⟨n, hn, rfl⟩ := hmemfiles f hf
        rw [selectFile_render]
        simp only [stemKey_render])
    rw [h1]
    rw [List.filter_eq_self.mpr (fun f hf => by
      obtain ⟨n, hn, rfl⟩ := hmemfiles f hf
      rw [stemKey_render]
      simp only [decide_eq_true_eq]
      exact hsel n hn)]
  have hsort : sortByStem pfx (pySorted lexLe
      (ms.map (fun n => renderName pfx n ext₀))) =
      ms.map (fun n => renderName pfx n ext₀) := by
    apply sortByStem_eq pfx hperm
    rw [List.pairwise_map]
    apply hasc.imp
    intro a b hab
    simp only [stemKey_render]
    exact hab
  obtain ⟨st', hloop', hchar, hfr, hmap⟩ := renameLoop_shift strategy dir pfx ext₀ cont
    hextdot ms ns
    ⟨⟨ms.map (fun n => (renderPath dir pfx n ext₀, cont n)), clk, m₀⟩, [], 0, 0⟩
    hasc hshift
    (fun x hx => getF_renderFS dir pfx ext₀ cont ms x hx)
    (fun i _ hni => getF_renderFS_none dir pfx ext₀ cont ms (ns + i) hni)
  have hneS : pySorted lexLe (listdirF
      (ms.map (fun n => (renderPath dir pfx n ext₀, cont n))) dir) ≠ [] := by
    rw [hld]
    intro h
    have := hperm.length_eq
    rw [h] at this
    simp at this
    exact hnil (List.length_eq_zero.mp this.symm)
  have hrun := rename_files_of_loop dir pfx cs ce ns strategy
    ⟨ms.map (fun n => (renderPath dir pfx n ext₀, cont n)), clk, m₀⟩
    (pySorted lexLe (ms.map (fun n => renderName pfx n ext₀))) st'
    hneS
    (by
      show filterSelect pfx cs ce (pySorted lexLe (listdirF
          (ms.map (fun n => (renderPath dir pfx n ext₀, cont n))) dir)) = _
      rw [hld]
      exact hfilter)
    (by
      rw [hsort]
      exact hloop')
  refine ⟨?_, ?_, ?_⟩
  · rw [hrun]
    by_cases hops : st'.ops ≠ []
    · rw [if_pos hops]
    · rw [if_neg hops]
  · intro n
    rw [hrun]
    have hfs : (if st'.ops ≠ [] then
        (⟨{ fs := st'.sys.fs, clock := st'.sys.clock + 1,
            mapping := some ⟨strOf "2.0", natChars st'.sys.clock,
              st'.ops.map RenameOperation.to_dict⟩ },
          st'.ops, st'.renamed, st'.skipped, .ok⟩ : RFResult)
      else ⟨st'.sys, st'.ops, st'.renamed, st'.skipped, .ok⟩).sys.fs = st'.sys.fs := by
      by_cases hops : st'.ops ≠ []
      · rw [if_pos hops]
      · rw [if_neg hops]
    rw [hfs]
    rw [hchar n]
    by_cases hr : ns ≤ n ∧ n < ns + ms.length
    · rw [if_pos hr, if_pos hr]
    · rw [if_neg hr, if_neg hr]
      by_cases hm : n ∈ ms
      · rw [if_pos hm]
      · rw [if_neg hm]
        exact getF_renderFS_none dir pfx ext₀ cont ms n hm
  · intro p hp
    rw [hrun]
    have hfs : (if st'.ops ≠ [] then
        (⟨{ fs := st'.sys.fs, clock := st'.sys.clock + 1,
            mapping := some ⟨strOf "2.0", natChars st'.sys.clock,
              st'.ops.map RenameOperation.to_dict⟩ },
          st'.ops, st'.renamed, st'.skipped, .ok⟩ : RFResult)
      else ⟨st'.sys, st'.ops, st'.renamed, st'.skipped, .ok⟩).sys.fs = st'.sys.fs := by
      by_cases hops : st'.ops ≠ []
      · rw [if_pos hops]
      · rw [if_neg hops]
    rw [hfs]
    rw [hfr p hp]
    exact getF_renderFS_frame dir pfx ext₀ cont ms p hp

/-- C1 counterexample: a down-shift batch where the new range overlaps
the old one.  Files `F2.t`, `F3.t`, `F4.t` (contents 2, 3, 4), selection
`[2, 4]`, `newStart = 1`.  The claimed final mapping is
`{1 ↦ 2, 2 ↦ 3, 3 ↦ 4}`, but descending-order processing makes `F3 → F2`
and `F4 → F3` collide with the not-yet-processed sources (the skip
strategy leaves them in place): the run ends `.ok` with only one rename,
the name `F2.t` holds nothing (instead of content 3) and the old name
`F4.t` still exists. -/
theorem C1_counterexample :
    (rename_files (strOf "/d") (strOf "F") 2 4 1 .skip true true
      ⟨[(strOf "/d/F2.t", 2), (strOf "/d/F3.t", 3), (strOf "/d/F4.t", 4)], 0, none⟩).status =
      .ok ∧
    getF (rename_files (strOf "/d") (strOf "F") 2 4 1 .skip true true
      ⟨[(strOf "/d/F2.t", 2), (strOf "/d/F3.t", 3), (strOf "/d/F4.t", 4)], 0, none⟩).sys.fs
      (renderPath (strOf "/d") (strOf "F") 2 (strOf "t")) = none ∧
    getF (rename_files (strOf "/d") (strOf "F") 2 4 1 .skip true true
      ⟨[(strOf "/d/F2.t", 2), (strOf "/d/F3.t", 3), (strOf "/d/F4.t", 4)], 0, none⟩).sys.fs
      (renderPath (strOf "/d") (strOf "F") 4 (strOf "t")) = some 4 ∧
    (rename_files (strOf "/d") (strOf "F") 2 4 1 .skip true true
      ⟨[(strOf "/d/F2.t", 2), (strOf "/d/F3.t", 3), (strOf "/d/F4.t", 4)], 0, none⟩).files_renamed
      = 1 := by
  refine ⟨rfl, rfl, rfl, rfl⟩

/-- C1 witness: the up-shift batch `F1.t, F2.t → start 5` satisfies the
shift condition; the theorem instantiates to the exact final mapping
`{5 ↦ 1, 6 ↦ 2}` and nothing else on disk. -/
theorem C1_witness :
    (rename_files (strOf "/d") (strOf "F") 1 2 5 .skip true true
      ⟨[1, 2].map (fun n => (renderPath (strOf "/d") (strOf "F") n (strOf "t"), n)),
        0, none⟩).status = .ok ∧
    (∀ n, getF (rename_files (strOf "/d") (strOf "F") 1 2 5 .skip true true
        ⟨[1, 2].map (fun n => (renderPath (strOf "/d") (strOf "F") n (strOf "t"), n)),
          0, none⟩).sys.fs (renderPath (strOf "/d") (strOf "F") n (strOf "t")) =
      (if 5 ≤ n ∧ n < 5 + ([1, 2] : List Nat).length then
        (([1, 2] : List Nat)[n - 5]?).map (fun n => n) else none)) ∧
    (∀ p, (∀ n, p ≠ renderPath (strOf "/d") (strOf "F") n (strOf "t")) →
      getF (rename_files (strOf "/d") (strOf "F") 1 2 5 .skip true true
        ⟨[1, 2].map (fun n => (renderPath (strOf "/d") (strOf "F") n (strOf "t"), n)),
          0, none⟩).sys.fs p = none) :=
  C1_shift_batch (strOf "/d") (strOf "F") (strOf "t") (fun n => n) [1, 2] 1 2 5 0 .skip none
    (by decide) (by decide)
    (by
      intro i x hx
      rcases i with _ | _ | i
      · simp at hx
        omega
      · simp at hx
        omega
      · simp at hx)
    (by decide)
    (by constructor <;> decide)
    (by intro ch hch; simp [strOf] at hch; subst hch; decide)
    (by intro ch hch; simp [strOf] at hch; subst hch; decide)
    (by intro ch hch; simp [strOf] at hch; subst hch; decide)


/-- Pointwise description of the guarded rename used by rollback. -/
theorem getF_renameTotal (fs : FS) (p q r : Str) :
    getF (renameTotal fs p q) r =
      (match getF fs p with
       | none => getF fs r
       | some c => if q = r then some c else if p = r then none else getF fs r) := by
  unfold renameTotal
  cases h : getF fs p with
  | none => rfl
  | some c =>
    rw [getF_setF, getF_removeF]

/-- Exact-undo: one rollback iteration applied (to any file system that
looks like the post-state) inverts the recorded handler step pointwise and
counts as successful. -/
theorem rollbackStep_undo {fs fs' : FS} {op : RenameOperation}
    (h : StepTr fs (some op) fs') (fsX : FS) (hX : ∀ p, getF fsX p = getF fs' p) :
    (rollbackStep fsX op).2 = true ∧
    (∀ p, getF (rollbackStep fsX op).1 p = getF fs p) := by
  cases h with
  | rename old new c ts hold hnew =>
    have hne : old ≠ new := by
      intro he
      rw [he, hnew] at hold
      cases hold
    have hXnew : getF fsX new = some c := by
      rw [hX new, getF_setF, if_pos rfl]
    have hexX : existsF fsX new = true := by
      unfold existsF
      rw [hXnew]
      rfl
    have hstep : rollbackStep fsX ⟨old, new, .rename, none, some ts⟩ =
        (renameTotal fsX new old, true) := by
      unfold rollbackStep
      rw [hexX]
      rfl
    rw [hstep]
    refine ⟨rfl, ?_⟩
    intro p
    rw [getF_renameTotal, hXnew]
    show (if old = p then some c else if new = p then none else getF fsX p) = getF fs p
    by_cases h1 : old = p
    · rw [if_pos h1, ← h1, hold]
    · rw [if_neg h1]
      by_cases h2 : new = p
      · rw [if_pos h2, ← h2, hnew]
      · rw [if_neg h2]
        rw [hX p, getF_setF, getF_removeF, if_neg h2, if_neg h1]
  | displace ty old new bp c d0 ts hty hold hnew hne hbp =>
    have hbpnew : bp ≠ new := by
      intro he
      rw [he, hnew] at hbp
      cases hbp
    have hbpold : bp ≠ old := by
      intro he
      rw [he, hold] at hbp
      cases hbp
    have hXnew : getF fsX new = some c := by
      rw [hX new, getF_setF, if_pos rfl]
    have hXold : getF fsX old = none := by
      rw [hX old, getF_setF, if_neg hne.symm, getF_removeF, if_pos rfl]
    have hXbp : getF fsX bp = some d0 := by
      rw [hX bp, getF_setF, if_neg hbpnew.symm, getF_removeF, if_neg hbpold.symm,
        getF_setF, if_pos rfl]
    have hXelse : ∀ p, p ≠ new → p ≠ bp → p ≠ old → getF fsX p = getF fs p := by
      intro p h1 h2 h3
      rw [hX p, getF_setF, if_neg (fun h => h1 h.symm), getF_removeF,
        if_neg (fun h => h3 h.symm), getF_setF, if_neg (fun h => h2 h.symm),
        getF_removeF, if_neg (fun h => h1 h.symm)]
    have hexXnew : existsF fsX new = true := by
      unfold existsF
      rw [hXnew]
      rfl
    have hfs₁ : ∀ p, getF (renameTotal fsX new old) p =
        (if old = p then some c else if new = p then none else getF fsX p) := by
      intro p
      rw [getF_renameTotal, hXnew]
    have hfs₁bp : getF (renameTotal fsX new old) bp = some d0 := by
      rw [hfs₁ bp, if_neg hbpold.symm, if_neg hbpnew.symm]
      exact hXbp
    have hexbp : existsF (renameTotal fsX new old) bp = true := by
      unfold existsF
      rw [hfs₁bp]
      rfl
    have hpoint : ∀ p,
        getF (renameTotal (renameTotal fsX new old) bp new) p = getF fs p := by
      intro p
      rw [getF_renameTotal, hfs₁bp]
      show (if new = p then some d0 else if bp = p then none
        else getF (renameTotal fsX new old) p) = getF fs p
      by_cases h1 : new = p
      · rw [if_pos h1, ← h1, hnew]
      · rw [if_neg h1]
        by_cases h2 : bp = p
        · rw [if_pos h2, ← h2, hbp]
        · rw [if_neg h2]
          rw [hfs₁ p]
          by_cases h3 : old = p
          · rw [if_pos h3, ← h3, hold]
          · rw [if_neg h3, if_neg h1]
            exact hXelse p (fun h => h1 h.symm) (fun h => h2 h.symm) (fun h => h3 h.symm)
    rcases hty with rfl | rfl
    · have hstep : rollbackStep fsX ⟨old, new, .backup, some bp, some ts⟩ =
          (renameTotal (renameTotal fsX new old) bp new, true) := by
        unfold rollbackStep
        simp only [hexXnew, if_true, hexbp]
      rw [hstep]
      exact ⟨rfl, hpoint⟩
    · have hstep : rollbackStep fsX ⟨old, new, .overwrite, some bp, some ts⟩ =
          (renameTotal (renameTotal fsX new old) bp new, true) := by
        unfold rollbackStep
        simp only [hexXnew, if_true, hexbp]
      rw [hstep]
      exact ⟨rfl, hpoint⟩

/-- The rollback loop over a concatenation runs the two halves in order. -/
theorem rollbackLoop_append :
    ∀ (l₁ l₂ : List RenameOperation) (fs : FS) (succ fail : Nat),
      rollbackLoop (l₁ ++ l₂) fs succ fail =
        rollbackLoop l₂ (rollbackLoop l₁ fs succ fail).1
          (rollbackLoop l₁ fs succ fail).2.1 (rollbackLoop l₁ fs succ fail).2.2 := by
  intro l₁
  induction l₁ with
  | nil => intro l₂ fs succ fail; rfl
  | cons op rest ih =>
    intro l₂ fs succ fail
    show rollbackLoop (rest ++ l₂) (rollbackStep fs op).1
        (if (rollbackStep fs op).2 then succ + 1 else succ)
        (if (rollbackStep fs op).2 then fail else fail + 1) = _
    rw [ih]
    rfl

/-- One successful iteration of the rollback loop. -/
theorem rollbackLoop_one (op : RenameOperation) (fs : FS) (succ fail : Nat)
    (hflag : (rollbackStep fs op).2 = true) :
    rollbackLoop [op] fs succ fail = ((rollbackStep fs op).1, succ + 1, fail) := by
  show (rollbackLoop [] (rollbackStep fs op).1
    (if (rollbackStep fs op).2 then succ + 1 else succ)
    (if (rollbackStep fs op).2 then fail else fail + 1)) = _
  rw [hflag]
  rfl

/-- Reverse replay: rolling back a recorded trace in reverse order of
recording restores the initial file system pointwise, with every entry
counted successful and none failed. -/
theorem rollbackLoop_trace :
    ∀ {fs₀ : FS} {ops : List RenameOperation} {fs₂ : FS}, Trace fs₀ ops fs₂ →
      ∀ (fsX : FS) (succ fail : Nat), (∀ p, getF fsX p = getF fs₂ p) →
      (∀ p, getF (rollbackLoop ops.reverse fsX succ fail).1 p = getF fs₀ p) ∧
      (rollbackLoop ops.reverse fsX succ fail).2.1 = succ + ops.length ∧
      (rollbackLoop ops.reverse fsX succ fail).2.2 = fail := by
  intro fs₀ ops fs₂ htr
  induction htr with
  | nil =>
    intro fsX succ fail hX
    exact ⟨hX, rfl, rfl⟩
  | @step fs fs₁ fsE op? ops1 hst htr ih =>
    intro fsX succ fail hX
    rw [List.reverse_append, rollbackLoop_append]
    obtain ⟨h1, h2, h3⟩ := ih fsX succ fail hX
    rw [h2, h3]
    cases hst with
    | noop =>
      exact ⟨h1, rfl, rfl⟩
    | rename old new c ts hold hnew =>
      obtain ⟨hflag, hpt⟩ := rollbackStep_undo
        (StepTr.rename fs old new c ts hold hnew) _ h1
      rw [show ((some (⟨old, new, .rename, none, some ts⟩ : RenameOperation)).toList).reverse
        = [(⟨old, new, .rename, none, some ts⟩ : RenameOperation)] from rfl]
      rw [rollbackLoop_one _ _ _ _ hflag]
      refine ⟨hpt, ?_, rfl⟩
      show succ + ops1.length + 1 = succ + (List.length (_ ++ ops1))
      simp only [List.length_append, List.length_cons, List.length_nil, Option.toList_some]
      omega
    | displace ty old new bp c d0 ts hty hold hnew hne hbp =>
      obtain ⟨hflag, hpt⟩ := rollbackStep_undo
        (StepTr.displace fs ty old new bp c d0 ts hty hold hnew hne hbp) _ h1
      rw [show ((some (⟨old, new, ty, some bp, some ts⟩ : RenameOperation)).toList).reverse
        = [(⟨old, new, ty, some bp, some ts⟩ : RenameOperation)] from rfl]
      rw [rollbackLoop_one _ _ _ _ hflag]
      refine ⟨hpt, ?_, rfl⟩
      show succ + ops1.length + 1 = succ + (List.length (_ ++ ops1))
      simp only [List.length_append, List.length_cons, List.length_nil, Option.toList_some]
      omega

/-- `RenameOperation.from_dict` inverts `to_dict` on one record. -/
theorem from_to_dict (op : RenameOperation) :
    RenameOperation.from_dict (RenameOperation.to_dict op) = op := rfl

/-- Running `rollback` on the system a successful transaction leaves
behind (its trace persisted through `save_operations`) restores the
pre-transaction file system exactly and deletes the mapping. -/
theorem rollback_of_trace {fs₀ : FS} {ops : List RenameOperation} {fs₂ : FS}
    (htr : Trace fs₀ ops fs₂) (hne : ops ≠ []) (clk : Nat) (ver ts : Str) :
    (rollback true ⟨fs₂, clk, some ⟨ver, ts, ops.map RenameOperation.to_dict⟩⟩).status =
      .done ∧
    (rollback true ⟨fs₂, clk, some ⟨ver, ts,
      ops.map RenameOperation.to_dict⟩⟩).sys.mapping = none ∧
    (∀ p, getF (rollback true ⟨fs₂, clk, some ⟨ver, ts,
      ops.map RenameOperation.to_dict⟩⟩).sys.fs p = getF fs₀ p) ∧
    (rollback true ⟨fs₂, clk, some ⟨ver, ts,
      ops.map RenameOperation.to_dict⟩⟩).successful = ops.length ∧
    (rollback true ⟨fs₂, clk, some ⟨ver, ts,
      ops.map RenameOperation.to_dict⟩⟩).failed = 0 := by
  have hrt : ((ops.map RenameOperation.to_dict).map RenameOperation.from_dict) = ops := by
    rw [List.map_map]
    rw [show RenameOperation.from_dict ∘ RenameOperation.to_dict = id from
      funext (fun op => from_to_dict op)]
    exact List.map_id ops
  have hres : rollback true ⟨fs₂, clk, some ⟨ver, ts, ops.map RenameOperation.to_dict⟩⟩ =
      ⟨⟨(rollbackLoop ops.reverse fs₂ 0 0).1, clk, none⟩,
        (rollbackLoop ops.reverse fs₂ 0 0).2.1,
        (rollbackLoop ops.reverse fs₂ 0 0).2.2, .done⟩ := by
    show (if (ops.map RenameOperation.to_dict).map RenameOperation.from_dict = [] then
        (⟨⟨fs₂, clk, some ⟨ver, ts, ops.map RenameOperation.to_dict⟩⟩, 0, 0,
          .emptyMapping⟩ : RBResult)
      else if (true : Bool) = false then
        ⟨⟨fs₂, clk, some ⟨ver, ts, ops.map RenameOperation.to_dict⟩⟩, 0, 0, .cancelled⟩
      else
        ⟨⟨(rollbackLoop ((ops.map RenameOperation.to_dict).map
              RenameOperation.from_dict).reverse fs₂ 0 0).1, clk, none⟩,
          (rollbackLoop ((ops.map RenameOperation.to_dict).map
              RenameOperation.from_dict).reverse fs₂ 0 0).2.1,
          (rollbackLoop ((ops.map RenameOperation.to_dict).map
              RenameOperation.from_dict).reverse fs₂ 0 0).2.2, .done⟩) = _
    rw [hrt]
    rw [if_neg hne, if_neg (by simp)]
  obtain ⟨h1, h2, h3⟩ := rollbackLoop_trace htr fs₂ 0 0 (fun p => rfl)
  rw [hres]
  refine ⟨rfl, rfl, h1, ?_, ?_⟩
  · show (rollbackLoop ops.reverse fs₂ 0 0).2.1 = ops.length
    rw [h2]
    omega
  · show (rollbackLoop ops.reverse fs₂ 0 0).2.2 = 0
    rw [h3]

/-- A basename never contains a slash. -/
theorem noSlash_basenameS (p : Str) : NoSlash (basenameS p) := by
  intro c hc
  unfold basenameS at hc
  rw [List.mem_reverse] at hc
  have := List.mem_takeWhile_imp hc
  simpa using this

/-- `os.path.join` under a well-formed directory is plain concatenation. -/
theorem joinS_eq_append {d : Str} (hd : DirOK d) (f : Str) : joinS d f = d ++ '/' :: f := by
  unfold joinS
  rw [if_neg hd.1, if_neg hd.2]

/-- Length of a join under a well-formed directory. -/
theorem joinS_length {d : Str} (hd : DirOK d) (f : Str) :
    (joinS d f).length = d.length + 1 + f.length := by
  rw [joinS_eq_append hd]
  simp
  omega

/-- Joining a nonempty plain name onto a good directory gives a good directory. -/
theorem DirOK_joinS {d f : Str} (hd : DirOK d) (hf : NoSlash f) (hfne : f ≠ []) :
    DirOK (joinS d f) := by
  rw [joinS_eq_append hd]
  refine ⟨by simp, ?_⟩
  rw [List.getLast?_append]
  cases f with
  | nil => exact absurd rfl hfne
  | cons x t =>
    rw [List.getLast?_cons_cons]
    rw [List.getLast?_eq_getLast (x :: t) (List.cons_ne_nil x t)]
    intro hcon
    rw [show (some ((x :: t).getLast (List.cons_ne_nil x t))).or (List.getLast? d) =
      some ((x :: t).getLast (List.cons_ne_nil x t)) from rfl] at hcon
    injection hcon with hcon
    exact hf _ (List.getLast_mem (List.cons_ne_nil x t)) hcon

/-- Paths in different directories differ. -/
theorem joinS_ne_dirs {d₁ d₂ f₁ f₂ : Str} (hd₁ : DirOK d₁) (hd₂ : DirOK d₂)
    (hf₁ : NoSlash f₁) (hf₂ : NoSlash f₂) (hne : d₁ ≠ d₂) :
    joinS d₁ f₁ ≠ joinS d₂ f₂ := by
  intro h
  have := congrArg dirnameS h
  rw [dirnameS_joinS hd₁ hf₁, dirnameS_joinS hd₂ hf₂] at this
  exact hne this

theorem allDigits_reverse {s : Str} (h : AllDigits s) : AllDigits s.reverse := by
  intro c hc
  exact h c (List.mem_reverse.mp hc)

/-- Timestamped backup names are injective in (name, stamp): reading the
shape from the right, the digit run before the final suffix is unambiguous. -/
theorem stamp_inj {nm₁ nm₂ sfx : Str} {c₁ c₂ : Nat}
    (h : nm₁ ++ '.' :: (natChars c₁ ++ sfx) = nm₂ ++ '.' :: (natChars c₂ ++ sfx)) :
    nm₁ = nm₂ ∧ c₁ = c₂ := by
  have hrev := congrArg List.reverse h
  simp only [List.reverse_append, List.reverse_cons, List.append_assoc] at hrev
  have hrev₂ := List.append_cancel_left hrev
  rw [List.singleton_append, List.singleton_append] at hrev₂
  obtain ⟨hd, hnm⟩ := digits_dot_append_inj hrev₂
    (allDigits_reverse (allDigits_natChars c₁)) (allDigits_reverse (allDigits_natChars c₂))
  refine ⟨List.reverse_injective hnm, natChars_injective (List.reverse_injective hd)⟩

theorem noSlash_bkname {nm : Str} (hnm : NoSlash nm) (c : Nat) :
    NoSlash (nm ++ '.' :: (natChars c ++ backupSuffix)) := by
  intro ch hch
  rw [List.mem_append, List.mem_cons] at hch
  rcases hch with h | h | h
  · exact hnm ch h
  · subst h; decide
  · rw [List.mem_append] at h
    rcases h with h | h
    · exact mem_natChars_ne_slash h
    · have hall : ∀ x ∈ backupSuffix, x ≠ '/' := by decide
      exact hall ch h

theorem noSlash_owname {nm : Str} (hnm : NoSlash nm) (c : Nat) :
    NoSlash (nm ++ '.' :: (natChars c ++ overwrittenSuffix)) := by
  intro ch hch
  rw [List.mem_append, List.mem_cons] at hch
  rcases hch with h | h | h
  · exact hnm ch h
  · subst h; decide
  · rw [List.mem_append] at h
    rcases h with h | h
    · exact mem_natChars_ne_slash h
    · have hall : ∀ x ∈ overwrittenSuffix, x ≠ '/' := by decide
      exact hall ch h

theorem DirOK_bkdir {dir : Str} (hd : DirOK dir) : DirOK (joinS dir backupDirName) :=
  DirOK_joinS hd (show ∀ c ∈ backupDirName, c ≠ '/' by decide) (by decide)

theorem DirOK_owdir {dir : Str} (hd : DirOK dir) :
    DirOK (joinS (joinS dir backupDirName) overwrittenDirName) :=
  DirOK_joinS (DirOK_bkdir hd) (show ∀ c ∈ overwrittenDirName, c ≠ '/' by decide)
    (by decide)

theorem bkdir_ne_dir {dir : Str} (hd : DirOK dir) : joinS dir backupDirName ≠ dir := by
  intro h
  have := congrArg List.length h
  rw [joinS_length hd] at this
  omega

theorem owdir_ne_dir {dir : Str} (hd : DirOK dir) :
    joinS (joinS dir backupDirName) overwrittenDirName ≠ dir := by
  intro h
  have := congrArg List.length h
  rw [joinS_length (DirOK_bkdir hd), joinS_length hd] at this
  omega

theorem owdir_ne_bkdir {dir : Str} (hd : DirOK dir) :
    joinS (joinS dir backupDirName) overwrittenDirName ≠ joinS dir backupDirName := by
  intro h
  have := congrArg List.length h
  rw [joinS_length (DirOK_bkdir hd)] at this
  omega

theorem NoBackupAt_mono {dir : Str} {fs : FS} {k k' : Nat}
    (h : NoBackupAt dir fs k) (hk : k ≤ k') : NoBackupAt dir fs k' :=
  fun nm c hc hnm => h nm c (le_trans hk hc) hnm

theorem NoBackupAt_removeF {dir : Str} {fs : FS} {k : Nat} (h : NoBackupAt dir fs k)
    (p : Str) : NoBackupAt dir (removeF fs p) k := by
  intro nm c hc hnm
  obtain ⟨h1, h2⟩ := h nm c hc hnm
  constructor
  · rw [getF_removeF]
    split
    · rfl
    · exact h1
  · rw [getF_removeF]
    split
    · rfl
    · exact h2

/-- Writing an ordinary file of the working directory never lands on a
reserved backup location. -/
theorem NoBackupAt_setF_dir {dir : Str} {fs : FS} {k : Nat} (h : NoBackupAt dir fs k)
    (hd : DirOK dir) {x : Str} (hx : NoSlash x) (v : Content) :
    NoBackupAt dir (setF fs (joinS dir x) v) k := by
  intro nm c hc hnm
  obtain ⟨h1, h2⟩ := h nm c hc hnm
  constructor
  · rw [getF_setF, if_neg (joinS_ne_dirs hd (DirOK_bkdir hd) hx
      (noSlash_bkname hnm c) (fun he => bkdir_ne_dir hd he.symm))]
    exact h1
  · rw [getF_setF, if_neg (joinS_ne_dirs hd (DirOK_owdir hd) hx
      (noSlash_owname hnm c) (fun he => owdir_ne_dir hd he.symm))]
    exact h2

/-- Writing a backup stamped strictly below the clock keeps all
at-or-above-clock backup locations free. -/
theorem NoBackupAt_setF_bk {dir : Str} {fs : FS} {k : Nat} (h : NoBackupAt dir fs k)
    (hd : DirOK dir) {nm₀ : Str} (hnm₀ : NoSlash nm₀) {c₀ : Nat} (hc₀ : c₀ < k)
    (v : Content) :
    NoBackupAt dir (setF fs (joinS (joinS dir backupDirName)
      (nm₀ ++ '.' :: (natChars c₀ ++ backupSuffix))) v) k := by
  intro nm c hc hnm
  obtain ⟨h1, h2⟩ := h nm c hc hnm
  constructor
  · rw [getF_setF, if_neg (fun he => by
      have := joinS_inj_right he
      obtain ⟨_, hcc⟩ := stamp_inj this
      omega)]
    exact h1
  · rw [getF_setF, if_neg (joinS_ne_dirs (DirOK_bkdir hd) (DirOK_owdir hd)
      (noSlash_bkname hnm₀ c₀) (noSlash_owname hnm c)
      (fun he => owdir_ne_bkdir hd he.symm))]
    exact h2

theorem NoBackupAt_setF_ow {dir : Str} {fs : FS} {k : Nat} (h : NoBackupAt dir fs k)
    (hd : DirOK dir) {nm₀ : Str} (hnm₀ : NoSlash nm₀) {c₀ : Nat} (hc₀ : c₀ < k)
    (v : Content) :
    NoBackupAt dir (setF fs (joinS (joinS (joinS dir backupDirName) overwrittenDirName)
      (nm₀ ++ '.' :: (natChars c₀ ++ overwrittenSuffix))) v) k := by
  intro nm c hc hnm
  obtain ⟨h1, h2⟩ := h nm c hc hnm
  constructor
  · rw [getF_setF, if_neg (joinS_ne_dirs (DirOK_owdir hd) (DirOK_bkdir hd)
      (noSlash_owname hnm₀ c₀) (noSlash_bkname hnm c) (owdir_ne_bkdir hd))]
    exact h1
  · rw [getF_setF, if_neg (fun he => by
      have := joinS_inj_right he
      obtain ⟨_, hcc⟩ := stamp_inj this
      omega)]
    exact h2

theorem noSlash_splitext₁ {s : Str} (h : NoSlash s) : NoSlash (splitextS s).1 :=
  fun c hc => h c (by rw [← splitextS_append s]; exact List.mem_append.mpr (Or.inl hc))

theorem noSlash_splitext₂ {s : Str} (h : NoSlash s) : NoSlash (splitextS s).2 :=
  fun c hc => h c (by rw [← splitextS_append s]; exact List.mem_append.mpr (Or.inr hc))

/-- The freshness invariant instantiated at the backup path the handler builds. -/
theorem NoBackupAt_fresh_bk {dir : Str} {fs : FS} {k : Nat} (hinv : NoBackupAt dir fs k)
    (hd : DirOK dir) {x : Str} (hx : NoSlash x) {c : Nat} (hc : k ≤ c) :
    getF fs (mkBackupPath (joinS dir x) (natChars c)) = none := by
  unfold mkBackupPath
  rw [dirnameS_joinS hd hx, basenameS_joinS hd hx]
  exact (hinv x c hc hx).1

theorem NoBackupAt_fresh_ow {dir : Str} {fs : FS} {k : Nat} (hinv : NoBackupAt dir fs k)
    (hd : DirOK dir) {x : Str} (hx : NoSlash x) {c : Nat} (hc : k ≤ c) :
    getF fs (mkOverwrittenPath (joinS dir x) (natChars c)) = none := by
  unfold mkOverwrittenPath
  rw [dirnameS_joinS hd hx, basenameS_joinS hd hx]
  exact (hinv x c hc hx).2

/-- Every successful `handle_duplicate` call on in-directory paths is one
`StepTr` step (no-op, plain rename onto a free destination, or displacement
of the occupant to a fresh stamped backup location), and it preserves the
backup-freshness invariant while never decreasing the clock. -/
theorem handle_duplicate_trace {strategy : Strategy} {s : Sys} {dir xo xn : Str}
    {r : HDRes} (hdir : DirOK dir) (hxo : NoSlash xo) (hxn : NoSlash xn)
    (hinv : NoBackupAt dir s.fs s.clock)
    (h : handle_duplicate strategy s (joinS dir xo) (joinS dir xn) = .ok r) :
    StepTr s.fs r.2.1 r.1.fs ∧ NoBackupAt dir r.1.fs r.1.clock ∧
    s.clock ≤ r.1.clock ∧ r.1.mapping = s.mapping := by
  unfold handle_duplicate at h
  split at h
  case isTrue hex =>
    split at h
    · cases h
    next s₁ hr =>
      injection h with h
      obtain ⟨c, hc, hs₁⟩ := osRenameE_ok hr
      subst hs₁
      subst h
      refine ⟨?_, ?_, ?_, rfl⟩
      · exact StepTr.rename s.fs (joinS dir xo) (joinS dir xn) c (natChars s.clock)
          hc (existsF_false_iff.mp hex)
      · exact NoBackupAt_mono (NoBackupAt_setF_dir
          (NoBackupAt_removeF hinv (joinS dir xo)) hdir hxn c) (Nat.le_succ _)
      · exact Nat.le_succ _
  case isFalse hex =>
    split at h
    · cases h
    next same hs =>
      obtain ⟨hpo, hpn, hb⟩ := samefileE_ok hs
      split at h
      case isTrue hsame =>
        injection h with h
        subst h
        exact ⟨StepTr.noop s.fs, hinv, le_refl _, rfl⟩
      case isFalse hsame =>
        have hne : joinS dir xo ≠ joinS dir xn := by
          intro he
          rw [he] at hb
          simp at hb
          exact hsame hb
        cases strategy with
        | skip =>
          have h2 : (Except.ok (s, none, joinS dir xo) : Except (Err × Sys) HDRes) =
              Except.ok r := h
          injection h2 with h2
          subst h2
          exact ⟨StepTr.noop s.fs, hinv, le_refl _, rfl⟩
        | suffix =>
          have h2 : handle_suffix s (joinS dir xo) (joinS dir xn) = .ok r := h
          obtain ⟨chosen, c, hprobe, hcold, hr⟩ := handle_suffix_ok h2
          subst hr
          have hfree : getF s.fs chosen = none := probeLoop_some_free hprobe
          refine ⟨?_, ?_, ?_, rfl⟩
          · exact StepTr.rename s.fs (joinS dir xo) chosen c (natChars s.clock) hcold hfree
          · have hshape := probeLoop_some_shape hprobe
            have hchosen : ∃ y, NoSlash y ∧ chosen = joinS dir y := by
              rcases hshape with rfl | ⟨cnt, _, hcand⟩
              · exact ⟨xn, hxn, rfl⟩
              · rw [dirnameS_joinS hdir hxn, basenameS_joinS hdir hxn] at hcand
                refine ⟨(splitextS xn).1 ++ '_' :: (natChars cnt ++ (splitextS xn).2),
                  ?_, hcand⟩
                intro ch hch
                rw [List.mem_append, List.mem_cons] at hch
                rcases hch with h' | h' | h'
                · exact noSlash_splitext₁ hxn ch h'
                · subst h'; decide
                · rw [List.mem_append] at h'
                  rcases h' with h' | h'
                  · exact mem_natChars_ne_slash h'
                  · exact noSlash_splitext₂ hxn ch h'
            obtain ⟨y, hy, rfl⟩ := hchosen
            exact NoBackupAt_mono (NoBackupAt_setF_dir
              (NoBackupAt_removeF hinv (joinS dir xo)) hdir hy c) (Nat.le_succ _)
          · exact Nat.le_succ _
        | backup =>
          have h2 : handle_backup s (joinS dir xo) (joinS dir xn) = .ok r := h
          obtain ⟨c, d0, hd0, hcold, hr⟩ := handle_backup_ok h2
          subst hr
          have hbpfresh : getF s.fs (mkBackupPath (joinS dir xn) (natChars s.clock)) =
              none := NoBackupAt_fresh_bk hinv hdir hxn (le_refl _)
          have hbpne_old : mkBackupPath (joinS dir xn) (natChars s.clock) ≠ joinS dir xo := by
            unfold mkBackupPath
            rw [dirnameS_joinS hdir hxn, basenameS_joinS hdir hxn]
            exact joinS_ne_dirs (DirOK_bkdir hdir) hdir (noSlash_bkname hxn s.clock) hxo
              (bkdir_ne_dir hdir)
          have hbpne_new : mkBackupPath (joinS dir xn) (natChars s.clock) ≠ joinS dir xn := by
            unfold mkBackupPath
            rw [dirnameS_joinS hdir hxn, basenameS_joinS hdir hxn]
            exact joinS_ne_dirs (DirOK_bkdir hdir) hdir (noSlash_bkname hxn s.clock) hxn
              (bkdir_ne_dir hdir)
          have hcold' : getF s.fs (joinS dir xo) = some c := by
            rw [getF_setF, if_neg hbpne_old, getF_removeF,
              if_neg (fun he => hne he.symm)] at hcold
            exact hcold
          refine ⟨?_, ?_, ?_, rfl⟩
          · exact StepTr.displace s.fs .backup (joinS dir xo) (joinS dir xn)
              (mkBackupPath (joinS dir xn) (natChars s.clock)) c d0
              (natChars (s.clock + 1)) (Or.inl rfl) hcold' hd0 hne hbpfresh
          · have hmk : mkBackupPath (joinS dir xn) (natChars s.clock) =
                joinS (joinS dir backupDirName)
                  (basenameS (joinS dir xn) ++ '.' :: (natChars s.clock ++ backupSuffix)) := by
              unfold mkBackupPath
              rw [dirnameS_joinS hdir hxn]
            rw [hmk, basenameS_joinS hdir hxn]
            apply NoBackupAt_mono ?_ (le_refl (s.clock + 2))
            apply NoBackupAt_setF_dir ?_ hdir hxn c
            apply NoBackupAt_removeF ?_ (joinS dir xo)
            apply NoBackupAt_setF_bk ?_ hdir hxn (Nat.lt_add_of_pos_right (by omega)) d0
            apply NoBackupAt_removeF ?_ (joinS dir xn)
            exact NoBackupAt_mono hinv (by omega)
          · show s.clock ≤ s.clock + 2
            omega
        | overwrite =>
          have h2 : handle_overwrite s (joinS dir xo) (joinS dir xn) = .ok r := h
          obtain ⟨c, d0, hd0, hcold, hr⟩ := handle_overwrite_ok h2
          subst hr
          have hbpfresh : getF s.fs (mkOverwrittenPath (joinS dir xn) (natChars s.clock)) =
              none := NoBackupAt_fresh_ow hinv hdir hxn (le_refl _)
          have hbpne_old : mkOverwrittenPath (joinS dir xn) (natChars s.clock) ≠
              joinS dir xo := by
            unfold mkOverwrittenPath
            rw [dirnameS_joinS hdir hxn, basenameS_joinS hdir hxn]
            exact joinS_ne_dirs (DirOK_owdir hdir) hdir (noSlash_owname hxn s.clock) hxo
              (owdir_ne_dir hdir)
          have hcold' : getF s.fs (joinS dir xo) = some c := by
            rw [getF_setF, if_neg hbpne_old, getF_removeF,
              if_neg (fun he => hne he.symm)] at hcold
            exact hcold
          refine ⟨?_, ?_, ?_, rfl⟩
          · exact StepTr.displace s.fs .overwrite (joinS dir xo) (joinS dir xn)
              (mkOverwrittenPath (joinS dir xn) (natChars s.clock)) c d0
              (natChars (s.clock + 1)) (Or.inr rfl) hcold' hd0 hne hbpfresh
          · have hmk : mkOverwrittenPath (joinS dir xn) (natChars s.clock) =
                joinS (joinS (joinS dir backupDirName) overwrittenDirName)
                  (basenameS (joinS dir xn) ++ '.' ::
                    (natChars s.clock ++ overwrittenSuffix)) := by
              unfold mkOverwrittenPath
              rw [dirnameS_joinS hdir hxn]
            rw [hmk, basenameS_joinS hdir hxn]
            apply NoBackupAt_mono ?_ (le_refl (s.clock + 2))
            apply NoBackupAt_setF_dir ?_ hdir hxn c
            apply NoBackupAt_removeF ?_ (joinS dir xo)
            apply NoBackupAt_setF_ow ?_ hdir hxn (Nat.lt_add_of_pos_right (by omega)) d0
            apply NoBackupAt_removeF ?_ (joinS dir xn)
            exact NoBackupAt_mono hinv (by omega)
          · show s.clock ≤ s.clock + 2
            omega

/-- One loop iteration appends exactly its recorded step to the operation list. -/
theorem renameStep_tr {strategy : Strategy} {dir pfx : Str} (hdir : DirOK dir)
    (hpfx : NoSlash pfx) {st st' : LoopState} {f : Str} {n : Nat} (hf : NoSlash f)
    (hinv : NoBackupAt dir st.sys.fs st.sys.clock)
    (h : renameStep strategy dir pfx st f n = .ok st') :
    (∃ op?, st'.ops = st.ops ++ Option.toList op? ∧ StepTr st.sys.fs op? st'.sys.fs) ∧
    NoBackupAt dir st'.sys.fs st'.sys.clock ∧
    st.sys.clock ≤ st'.sys.clock ∧ st'.sys.mapping = st.sys.mapping := by
  have hnp : NoSlash (pfx ++ natChars n ++ (splitextS f).2) := by
    intro ch hch
    rw [List.append_assoc, List.mem_append, List.mem_append] at hch
    rcases hch with h' | h' | h'
    · exact hpfx ch h'
    · exact mem_natChars_ne_slash h'
    · exact noSlash_splitext₂ hf ch h'
  unfold renameStep at h
  split at h
  · cases h
  next r hr =>
    injection h with h
    subst h
    obtain ⟨hst, hinv', hclk, hmap⟩ := handle_duplicate_trace hdir hf hnp hinv hr
    exact ⟨⟨r.2.1, rfl, hst⟩, hinv', hclk, hmap⟩

/-- The in-memory operation list of a successful loop run is a trace: it
explains the file-system change step by step in execution order. -/
theorem renameLoop_tr {strategy : Strategy} {dir pfx : Str} (hdir : DirOK dir)
    (hpfx : NoSlash pfx) :
    ∀ (pairs : List (Str × Nat)) (st st' : LoopState),
      (∀ q ∈ pairs, NoSlash q.1) →
      NoBackupAt dir st.sys.fs st.sys.clock →
      renameLoop strategy dir pfx pairs st = (st', none) →
      ∃ newOps, st'.ops = st.ops ++ newOps ∧ Trace st.sys.fs newOps st'.sys.fs ∧
        st'.sys.mapping = st.sys.mapping := by
  intro pairs
  induction pairs with
  | nil =>
    intro st st' _ _ h
    have h' : (st, (none : Option Err)) = (st', none) := h
    injection h' with h1 _
    subst h1
    exact ⟨[], by simp, Trace.nil st.sys.fs, rfl⟩
  | cons q rest ih =>
    intro st st' hns hinv h
    obtain ⟨f, n⟩ := q
    have h' : (match renameStep strategy dir pfx st f n with
      | .ok st₁ => renameLoop strategy dir pfx rest st₁
      | .error es => ({ st with sys := es.2 }, some es.1)) = (st', none) := h
    cases hstep : renameStep strategy dir pfx st f n with
    | error es =>
      rw [hstep] at h'
      injection h' with _ h2
      cases h2
    | ok st₁ =>
      rw [hstep] at h'
      obtain ⟨⟨op?, hops₁, hst⟩, hinv₁, hclk₁, hmap₁⟩ :=
        renameStep_tr hdir hpfx (hns (f, n) (by simp)) hinv hstep
      obtain ⟨newOps₁, hops₂, htr₂, hmap₂⟩ := ih st₁ st'
        (fun q hq => hns q (List.mem_cons_of_mem _ hq)) hinv₁ h'
      refine ⟨Option.toList op? ++ newOps₁, ?_, Trace.step hst htr₂, by rw [hmap₂, hmap₁]⟩
      rw [hops₂, hops₁, List.append_assoc]

/-- Directory listings contain plain names. -/
theorem noSlash_listdirF (fs : FS) (d : Str) : ∀ f ∈ listdirF fs d, NoSlash f := by
  intro f hf
  unfold listdirF at hf
  rw [List.mem_map] at hf
  obtain ⟨e, _, rfl⟩ := hf
  exact noSlash_basenameS e.1

/-- The selection filter only keeps files from its input. -/
theorem filterSelect_mem (pfx : Str) (cs ce : Nat) :
    ∀ {l r : List Str}, filterSelect pfx cs ce l = .ok r → ∀ f ∈ r, f ∈ l := by
  intro l
  induction l with
  | nil =>
    intro r h f hf
    have h' : (Except.ok [] : Except Err (List Str)) = .ok r := h
    injection h' with h'
    subst h'
    cases hf
  | cons g t ih =>
    intro r h f hf
    unfold filterSelect at h
    split at h
    · cases h
    next b hb =>
      split at h
      · cases h
      next r' hr' =>
        injection h with h
        subst h
        by_cases hbv : b = true
        · subst hbv
          rw [if_pos rfl] at hf
          rcases List.mem_cons.mp hf with rfl | hf'
          · exact List.mem_cons_self _ _
          · exact List.mem_cons_of_mem _ (ih hr' f hf')
        · rw [if_neg (by simpa using hbv)] at hf
          exact List.mem_cons_of_mem _ (ih hr' f hf)

/-- Inversion of a successful `rename_files` run that recorded at least
one operation: the loop succeeded and the result persists the mapping with
exactly the recorded operations. -/
theorem rename_files_ok_inv {dir pfx : Str} {cs ce ns : Nat} {strategy : Strategy}
    {s₀ : Sys} {res : RFResult}
    (h : rename_files dir pfx cs ce ns strategy true true s₀ = res)
    (hok : res.status = .ok) (hops : res.operations ≠ []) :
    ∃ current₀ st',
      filterSelect pfx cs ce (pySorted lexLe (listdirF s₀.fs dir)) = .ok current₀ ∧
      renameLoop strategy dir pfx (loopPairs ns (sortByStem pfx current₀))
        ⟨s₀, [], 0, 0⟩ = (st', none) ∧
      st'.ops ≠ [] ∧
      res = ⟨⟨st'.sys.fs, st'.sys.clock + 1, some ⟨strOf "2.0", natChars st'.sys.clock,
        st'.ops.map RenameOperation.to_dict⟩⟩, st'.ops, st'.renamed, st'.skipped, .ok⟩ := by
  unfold rename_files at h
  split at h
  · subst h
    cases hok
  split at h
  next e heq =>
    subst h
    cases hok
  next current₀ heq =>
    split at h
    · subst h
      cases hok
    split at h
    · subst h
      cases hok
    rcases hLP : renameLoop strategy dir pfx (loopPairs ns (sortByStem pfx current₀))
      ⟨s₀, [], 0, 0⟩ with ⟨st, e?⟩
    rw [hLP] at h
    cases e? with
    | some e =>
      have h' : (⟨st.sys, st.ops, st.renamed, st.skipped, .failed e⟩ : RFResult) = res := h
      subst h'
      cases hok
    | none =>
      by_cases hne : st.ops ≠ []
      · have h' : (⟨⟨st.sys.fs, st.sys.clock + 1, some ⟨strOf "2.0",
            natChars st.sys.clock, st.ops.map RenameOperation.to_dict⟩⟩,
            st.ops, st.renamed, st.skipped, .ok⟩ : RFResult) = res := by
          rw [← h]
          show _ = (if st.ops ≠ [] then _ else _)
          rw [if_pos hne]
        subst h'
        exact ⟨current₀, st, heq, hLP, hne, rfl⟩
      · have h' : (⟨st.sys, st.ops, st.renamed, st.skipped, .ok⟩ : RFResult) = res := by
          rw [← h]
          show _ = (if st.ops ≠ [] then _ else _)
          rw [if_neg hne]
        subst h'
        exact absurd (show (⟨st.sys, st.ops, st.renamed, st.skipped,
          .ok⟩ : RFResult).operations = [] from not_not.mp hne) hops

/-- C2 (confirmed): round-trip rollback.  Any successful rename
transaction (any strategy, any file set whose names live in the working
directory, with no stale files in the reserved backup namespace) followed
immediately by `rollback` restores every file to its original name and
original content — the restored file system equals the initial one at
every path — the mapping file is deleted afterwards, and every ledger
entry rolls back successfully.  (The claim's distinct-contents hypothesis
is not even needed: the ledger stores paths, not contents.) -/
theorem C2_rename_rollback_roundtrip (dir pfx : Str) (cs ce ns : Nat)
    (strategy : Strategy) (s₀ : Sys) (res : RFResult)
    (hdir : DirOK dir) (hpfx : NoSlash pfx)
    (hinv : NoBackupAt dir s₀.fs s₀.clock)
    (hrun : rename_files dir pfx cs ce ns strategy true true s₀ = res)
    (hok : res.status = .ok) (hops : res.operations ≠ []) :
    (rollback true res.sys).status = .done ∧
    (rollback true res.sys).sys.mapping = none ∧
    (∀ p, getF (rollback true res.sys).sys.fs p = getF s₀.fs p) ∧
    (rollback true res.sys).successful = res.operations.length ∧
    (rollback true res.sys).failed = 0 := by
  obtain ⟨current₀, st', hfilter, hloop, hops', hres⟩ := rename_files_ok_inv hrun hok hops
  have hns : ∀ q ∈ loopPairs ns (sortByStem pfx current₀), NoSlash q.1 := by
    intro q hq
    obtain ⟨i, hi, hget, _⟩ := loopPairs_mem hq
    obtain ⟨hlt, hgeti⟩ := List.getElem?_eq_some.mp hget
    have hmem₁ : q.1 ∈ sortByStem pfx current₀ := by
      rw [← hgeti]
      exact List.getElem_mem hlt
    have hmem₂ : q.1 ∈ current₀ := (pySorted_perm _ current₀).mem_iff.mp hmem₁
    have hmem₃ : q.1 ∈ pySorted lexLe (listdirF s₀.fs dir) :=
      filterSelect_mem pfx cs ce hfilter q.1 hmem₂
    have hmem₄ : q.1 ∈ listdirF s₀.fs dir :=
      (pySorted_perm _ _).mem_iff.mp hmem₃
    exact noSlash_listdirF s₀.fs dir q.1 hmem₄
  obtain ⟨newOps, hopseq, htr, hmapq⟩ := renameLoop_tr hdir hpfx
    (loopPairs ns (sortByStem pfx current₀)) ⟨s₀, [], 0, 0⟩ st' hns hinv hloop
  have hopseq' : st'.ops = newOps := by
    rw [hopseq]
    rfl
  have hne' : newOps ≠ [] := by
    rw [← hopseq']
    exact hops'
  have htr' : Trace s₀.fs newOps st'.sys.fs := htr
  have hrb := rollback_of_trace htr' hne' (st'.sys.clock + 1) (strOf "2.0")
    (natChars st'.sys.clock)
  subst hres
  show (rollback true ⟨st'.sys.fs, st'.sys.clock + 1, some ⟨strOf "2.0",
      natChars st'.sys.clock, st'.ops.map RenameOperation.to_dict⟩⟩).status = .done ∧ _
  rw [hopseq']
  exact ⟨hrb.1, hrb.2.1, hrb.2.2.1, by rw [hrb.2.2.2.1], hrb.2.2.2.2⟩

theorem getF_none_of_keys_ne {fs : FS} {p : Str} (h : ∀ e ∈ fs, e.1 ≠ p) :
    getF fs p = none := by
  induction fs with
  | nil => rfl
  | cons e t ih =>
    show (if e.1 = p then some e.2 else getF t p) = none
    rw [if_neg (h e (by simp))]
    exact ih (fun e' he' => h e' (List.mem_cons_of_mem _ he'))

/-- A file system whose paths are all shorter than any reserved backup
path satisfies the backup-freshness invariant at every clock. -/
theorem NoBackupAt_of_short {dir : Str} (hd : DirOK dir) (fs : FS)
    (hlen : ∀ e ∈ fs, e.1.length < dir.length + 26) (k : Nat) :
    NoBackupAt dir fs k := by
  intro nm c hc hnm
  have hbdn : backupDirName.length = 15 := rfl
  have hbsf : backupSuffix.length = 7 := rfl
  have hodn : overwrittenDirName.length = 11 := rfl
  have hosf : overwrittenSuffix.length = 12 := rfl
  have hnc := natChars_length_pos c
  constructor
  · apply getF_none_of_keys_ne
    intro e he heq
    have h1 := hlen e he
    have h2 := congrArg List.length heq
    rw [joinS_length (DirOK_bkdir hd), joinS_length hd] at h2
    have h4 : (nm ++ '.' :: (natChars c ++ backupSuffix)).length =
        nm.length + 1 + (natChars c).length + backupSuffix.length := by
      simp [List.length_append]
      omega
    omega
  · apply getF_none_of_keys_ne
    intro e he heq
    have h1 := hlen e he
    have h2 := congrArg List.length heq
    rw [joinS_length (DirOK_owdir hd), joinS_length (DirOK_bkdir hd),
      joinS_length hd] at h2
    have h4 : (nm ++ '.' :: (natChars c ++ overwrittenSuffix)).length =
        nm.length + 1 + (natChars c).length + overwrittenSuffix.length := by
      simp [List.length_append]
      omega
    omega

/-- C2 witness: the one-file batch `F1.t → F5.t` renames and rolls back
to exactly the original file system, deleting the mapping. -/
theorem C2_witness :
    (rollback true (rename_files (strOf "/d") (strOf "F") 1 1 5 .skip true true
      ⟨[(strOf "/d/F1.t", 1)], 0, none⟩).sys).status = .done ∧
    (rollback true (rename_files (strOf "/d") (strOf "F") 1 1 5 .skip true true
      ⟨[(strOf "/d/F1.t", 1)], 0, none⟩).sys).sys.mapping = none ∧
    (∀ p, getF (rollback true (rename_files (strOf "/d") (strOf "F") 1 1 5 .skip true true
      ⟨[(strOf "/d/F1.t", 1)], 0, none⟩).sys).sys.fs p =
      getF [(strOf "/d/F1.t", 1)] p) ∧
    (rollback true (rename_files (strOf "/d") (strOf "F") 1 1 5 .skip true true
      ⟨[(strOf "/d/F1.t", 1)], 0, none⟩).sys).successful =
      (rename_files (strOf "/d") (strOf "F") 1 1 5 .skip true true
        ⟨[(strOf "/d/F1.t", 1)], 0, none⟩).operations.length ∧
    (rollback true (rename_files (strOf "/d") (strOf "F") 1 1 5 .skip true true
      ⟨[(strOf "/d/F1.t", 1)], 0, none⟩).sys).failed = 0 :=
  C2_rename_rollback_roundtrip (strOf "/d") (strOf "F") 1 1 5 .skip
    ⟨[(strOf "/d/F1.t", 1)], 0, none⟩
    (rename_files (strOf "/d") (strOf "F") 1 1 5 .skip true true
      ⟨[(strOf "/d/F1.t", 1)], 0, none⟩)
    (by constructor <;> decide)
    (by intro ch hch; simp [strOf] at hch; subst hch; decide)
    (NoBackupAt_of_short (by constructor <;> decide) _ (by decide) 0)
    rfl rfl (by decide)

end R3
